import Mathlib

/-!
Verification of the Go board implementation in `go_board.py`
(a straight translation of the OpenSpiel `go_board.h` algorithm).

The Python source is embedded shallowly: the board is a structure of
total functions standing for the flat arrays, every mutation becomes a
functional update, and the two unbounded `while True` loops (chain
relabelling and chain removal) become fuel-bounded recursions whose fuel
is the size of the virtual board; on every state satisfying the chain
invariant the fuel is never exhausted, so the embedding agrees with the
source there.
-/

namespace GoSpec

/-- Color of a point on the board (`go_board.py`, class `Color`). -/
inductive Color where
  | black
  | white
  | empty
  | guard
deriving DecidableEq, Repr

/-- `Color.opponent` from the source: swaps black and white, fixes the rest. -/
def Color.opponent : Color → Color
  | .black => .white
  | .white => .black
  | c => c

/-- `VIRTUAL_BOARD_SIZE = 21`. -/
def VIRTUAL_BOARD_SIZE : Int := 21

/-- `VIRTUAL_BOARD_POINTS = 21 * 21`. -/
def VIRTUAL_BOARD_POINTS : Int := VIRTUAL_BOARD_SIZE * VIRTUAL_BOARD_SIZE

/-- `INVALID_POINT = -1`. -/
def INVALID_POINT : Int := -1

/-- `PASS = 20 * VIRTUAL_BOARD_SIZE`. -/
def PASS : Int := 20 * VIRTUAL_BOARD_SIZE

/-- `Vertex` dataclass: per-point chain membership metadata and color. -/
structure Vertex where
  chain_head : Int
  chain_next : Int
  color : Color
deriving DecidableEq, Repr

/-- `Chain` dataclass with its border-sentinel default values. -/
structure Chain where
  num_stones : Int := 0
  num_pseudo_liberties : Int := 4
  liberty_vertex_sum : Int := 32768
  liberty_vertex_sum_squared : Int := 2147483648
deriving DecidableEq, Repr

/-- `Chain.in_atari`. -/
def Chain.in_atari (ch : Chain) : Bool :=
  ch.num_pseudo_liberties * ch.liberty_vertex_sum_squared ==
    ch.liberty_vertex_sum * ch.liberty_vertex_sum

/-- `Chain.reset`. -/
def Chain.reset (_ch : Chain) : Chain :=
  { num_stones := 0, num_pseudo_liberties := 0,
    liberty_vertex_sum := 0, liberty_vertex_sum_squared := 0 }

/-- `Chain.merge`. -/
def Chain.merge (ch other : Chain) : Chain :=
  { num_stones := ch.num_stones + other.num_stones,
    num_pseudo_liberties := ch.num_pseudo_liberties + other.num_pseudo_liberties,
    liberty_vertex_sum := ch.liberty_vertex_sum + other.liberty_vertex_sum,
    liberty_vertex_sum_squared :=
      ch.liberty_vertex_sum_squared + other.liberty_vertex_sum_squared }

/-- `Chain.add_liberty`. -/
def Chain.add_liberty (ch : Chain) (p : Int) : Chain :=
  { ch with num_pseudo_liberties := ch.num_pseudo_liberties + 1,
            liberty_vertex_sum := ch.liberty_vertex_sum + p,
            liberty_vertex_sum_squared := ch.liberty_vertex_sum_squared + p * p }

/-- `Chain.remove_liberty`. -/
def Chain.remove_liberty (ch : Chain) (p : Int) : Chain :=
  { ch with num_pseudo_liberties := ch.num_pseudo_liberties - 1,
            liberty_vertex_sum := ch.liberty_vertex_sum - p,
            liberty_vertex_sum_squared := ch.liberty_vertex_sum_squared - p * p }

/-- `Chain.single_liberty` (the value returned when the asserts pass;
Python `//` is floored division). -/
def Chain.single_liberty (ch : Chain) : Int :=
  Int.fdiv ch.liberty_vertex_sum ch.num_pseudo_liberties

/-- `point_from_2d(row, col) = (row + 1) * 21 + col + 1`. -/
def point_from_2d (row col : Int) : Int :=
  (row + 1) * VIRTUAL_BOARD_SIZE + col + 1

/-- `board_points(board_size)`: the row-major enumeration of real points. -/
def board_points (board_size : Nat) : List Int :=
  (List.range board_size).flatMap fun (row : Nat) =>
    (List.range board_size).map fun (col : Nat) => point_from_2d (row : Int) (col : Int)

/-- `point_to_2d` (Python `//` and `%` are floored division and modulus). -/
def point_to_2d (p : Int) : Int × Int :=
  if p = INVALID_POINT ∨ p = PASS then (-1, -1)
  else (Int.fdiv p VIRTUAL_BOARD_SIZE - 1, Int.fmod p VIRTUAL_BOARD_SIZE - 1)

/-- `neighbours(p)` in the source's order: down, left, right, up. -/
def neighbours (p : Int) : List Int :=
  [p + VIRTUAL_BOARD_SIZE, p - 1, p + 1, p - VIRTUAL_BOARD_SIZE]

/-- The board state: `GoBoard`'s fields, with the flat Python lists
(`_board`, `_chains`, `_last_captures`) embedded as total functions. -/
structure GoBoard where
  board_size : Nat
  last_ko_point : Int
  board : Int → Vertex
  chains : Int → Chain
  last_captures : Int → Int
  zobrist_hash : Nat

/-- `GoBoard.point_color`. -/
def GoBoard.point_color (b : GoBoard) (p : Int) : Color :=
  (b.board p).color

/-- `GoBoard.is_empty`. -/
def GoBoard.is_empty (b : GoBoard) (p : Int) : Bool :=
  b.point_color p = Color.empty

/-- `GoBoard.chain_head`. -/
def GoBoard.chain_head (b : GoBoard) (p : Int) : Int :=
  (b.board p).chain_head

/-- `GoBoard._chain`: the statistics record of the chain `p` belongs to. -/
def GoBoard.chainAt (b : GoBoard) (p : Int) : Chain :=
  b.chains (b.chain_head p)

/-- `GoBoard.in_board_area`. -/
def GoBoard.in_board_area (b : GoBoard) (p : Int) : Bool :=
  let rc := point_to_2d p
  decide (0 ≤ rc.1 ∧ rc.1 < (b.board_size : Int) ∧ 0 ≤ rc.2 ∧ rc.2 < (b.board_size : Int))

/-- `GoBoard.pseudo_liberty`. -/
def GoBoard.pseudo_liberty (b : GoBoard) (p : Int) : Int :=
  let chain := b.chainAt p
  if chain.num_pseudo_liberties = 0 then 0
  else if chain.in_atari then 1
  else chain.num_pseudo_liberties

/-- `GoBoard.in_atari`. -/
def GoBoard.in_atari (b : GoBoard) (p : Int) : Bool :=
  (b.chainAt p).in_atari

/-- `GoBoard.is_legal_move`. -/
def GoBoard.is_legal_move (b : GoBoard) (p : Int) (c : Color) : Bool :=
  if p = PASS then true
  else if ¬ b.in_board_area p then false
  else if ¬ b.is_empty p ∨ p = b.last_ko_point then false
  else if 0 < (b.chainAt p).num_pseudo_liberties then true
  else if (neighbours p).any fun n => b.point_color n = c ∧ ¬ (b.chainAt n).in_atari then true
  else if (neighbours p).any fun n =>
      b.point_color n = c.opponent ∧ (b.chainAt n).in_atari then true
  else false

/-- `GoBoard._set_stone`, parameterized over the process-wide zobrist table. -/
def GoBoard.set_stone (b : GoBoard) (zob : Int → Color → Nat) (p : Int) (c : Color) : GoBoard :=
  let h :=
    if c = Color.empty then b.zobrist_hash ^^^ zob p (b.point_color p)
    else b.zobrist_hash ^^^ zob p c
  { b with zobrist_hash := h,
           board := Function.update b.board p ({ b.board p with color := c }) }

/-- One step of the `for n in neighbours(p)` loops that add a liberty to
the fixed chain record bound before the loop (slot `h`). -/
def seedLibStep (h : Int) (b : GoBoard) (n : Int) : GoBoard :=
  if b.is_empty n then
    { b with chains := Function.update b.chains h ((b.chains h).add_liberty n) }
  else b

/-- `GoBoard._init_new_chain`: re-seed `p` as a fresh singleton chain. -/
def GoBoard.init_new_chain (b : GoBoard) (p : Int) : GoBoard :=
  let v1 := Function.update b.board p ({ b.board p with chain_head := p, chain_next := p })
  let b1 : GoBoard := { b with board := v1 }
  let c0 := (b1.chainAt p).reset
  let v2 := Function.update b1.chains (b1.chain_head p) ({ c0 with num_stones := c0.num_stones + 1 })
  let b2 : GoBoard := { b1 with chains := v2 }
  (neighbours p).foldl (seedLibStep (b1.chain_head p)) b2

/-- One step of `_remove_liberty_from_neighbouring_chains`. -/
def removeLibStep (p : Int) (b : GoBoard) (n : Int) : GoBoard :=
  { b with chains := Function.update b.chains (b.chain_head n) ((b.chainAt n).remove_liberty p) }

/-- `GoBoard._remove_liberty_from_neighbouring_chains`. -/
def GoBoard.remove_liberty_from_neighbouring_chains (b : GoBoard) (p : Int) : GoBoard :=
  (neighbours p).foldl (removeLibStep p) b

/-- The body-first `while True` loop of `_join_chains_around` that points
every stone of the absorbed chain at the surviving head, with fuel. -/
def relabelAux (h start : Int) : Nat → GoBoard → Int → GoBoard
  | 0, b, _ => b
  | fuel + 1, b, cur =>
    let v := Function.update b.board cur ({ b.board cur with chain_head := h })
    let b1 : GoBoard := { b with board := v }
    let cur2 := (b1.board cur).chain_next
    if cur2 = start then b1 else relabelAux h start fuel b1 cur2

/-- One step of the closing loop of `_join_chains_around`: add each
empty neighbour of the new stone as a liberty of the surviving chain,
reading the record through `chain_head` as `self._chain` does. -/
def joinLibStep (h : Int) (b : GoBoard) (n : Int) : GoBoard :=
  if b.is_empty n then
    { b with chains := Function.update b.chains (b.chain_head h) ((b.chainAt h).add_liberty n) }
  else b

/-- The accumulator step of the largest-chain selection loop in
`_join_chains_around` (pre-mutation reads only). -/
def selStep (b : GoBoard) (c : Color) (acc : Int × Int) (n : Int) : Int × Int :=
  if b.point_color n = c then
    let chain := b.chainAt n
    if acc.2 < chain.num_stones then (b.chain_head n, chain.num_stones) else acc
  else acc

/-- One step of the merging loop of `_join_chains_around`: absorb the
chain of a same-colored neighbour `n` whose head differs from the
surviving head, by merging statistics, relabelling, and splicing the two
circular lists. -/
def mergeStep (c : Color) (largest_chain_head : Int) (b : GoBoard) (n : Int) : GoBoard :=
  if b.point_color n = c then
    if b.chain_head n ≠ largest_chain_head then
      let v1 := Function.update b.chains (b.chain_head largest_chain_head) ((b.chainAt largest_chain_head).merge (b.chainAt n))
      let b1 : GoBoard := { b with chains := v1 }
      let b2 := relabelAux largest_chain_head n VIRTUAL_BOARD_POINTS.toNat b1 n
      let t1 := (b2.board n).chain_next
      let t2 := (b2.board largest_chain_head).chain_next
      let v3 := Function.update b2.board largest_chain_head ({ b2.board largest_chain_head with chain_next := t1 })
      let b3 : GoBoard := { b2 with board := v3 }
      let v4 := Function.update b3.board n ({ b3.board n with chain_next := t2 })
      { b3 with board := v4 }
    else b
  else b

/-- The pointer surgery at the end of `_join_chains_around`: splice the
new stone `p` into the circular list right after the surviving head and
bump the surviving chain's stone count. -/
def spliceInsert (b : GoBoard) (p : Int) (largest_chain_head : Int) : GoBoard :=
  let w1 := Function.update b.board p ({ b.board p with chain_next := (b.board largest_chain_head).chain_next })
  let b1 : GoBoard := { b with board := w1 }
  let w2 := Function.update b1.board largest_chain_head ({ b1.board largest_chain_head with chain_next := p })
  let b2 : GoBoard := { b1 with board := w2 }
  let w3 := Function.update b2.board p ({ b2.board p with chain_head := largest_chain_head })
  let b3 : GoBoard := { b2 with board := w3 }
  let ch := b3.chainAt largest_chain_head
  let w4 := Function.update b3.chains (b3.chain_head largest_chain_head) ({ ch with num_stones := ch.num_stones + 1 })
  { b3 with chains := w4 }

/-- The merging branch of `_join_chains_around` (taken when a largest
neighbouring chain of head `largest_chain_head` was found): merge the
neighbouring chains, splice the new stone after the surviving head,
bump the stone count and add the stone's empty neighbours as
liberties. -/
def joinMergePart (b : GoBoard) (p : Int) (c : Color) (largest_chain_head : Int) : GoBoard :=
  let b := (neighbours p).foldl (mergeStep c largest_chain_head) b
  (neighbours p).foldl (joinLibStep largest_chain_head) (spliceInsert b p largest_chain_head)

/-- `GoBoard._join_chains_around`. -/
def GoBoard.join_chains_around (b : GoBoard) (p : Int) (c : Color) : GoBoard :=
  let sel := (neighbours p).foldl (selStep b c) (INVALID_POINT, 0)
  let largest_chain_head := sel.1
  let largest_chain_size := sel.2
  if largest_chain_size = 0 then b.init_new_chain p
  else joinMergePart b p c largest_chain_head

/-- One step of the liberty-restoring loop of `_remove_chain`: a
neighbour that is not (any longer) part of the chain being removed gets
the vacated point back as a liberty. -/
def grantLibStep (this_chain_head cur : Int) (b : GoBoard) (n : Int) : GoBoard :=
  if b.chain_head n ≠ this_chain_head ∨ b.is_empty n then
    { b with chains := Function.update b.chains (b.chain_head n) ((b.chainAt n).add_liberty cur) }
  else b

/-- One full iteration of the `_remove_chain` loop body at point `cur`:
vacate the stone, re-seed it as a fresh singleton chain, and grant the
vacated point back as a liberty to neighbouring chains outside the chain
being removed. -/
def removePointStep (zob : Int → Color → Nat) (thisHead : Int) (b : GoBoard) (cur : Int) : GoBoard :=
  (neighbours cur).foldl (grantLibStep thisHead cur) ((b.set_stone zob cur Color.empty).init_new_chain cur)

/-- The body-first `while True` loop of `_remove_chain`, with fuel: read
the successor, vacate the stone, re-seed it, grant liberties back. -/
def removeChainAux (zob : Int → Color → Nat) (this_chain_head start : Int) :
    Nat → GoBoard → Int → GoBoard
  | 0, b, _ => b
  | fuel + 1, b, cur =>
    let next_p := (b.board cur).chain_next
    let b3 := removePointStep zob this_chain_head b cur
    if next_p = start then b3 else removeChainAux zob this_chain_head start fuel b3 next_p

/-- `GoBoard._remove_chain`. -/
def GoBoard.remove_chain (b : GoBoard) (zob : Int → Color → Nat) (p : Int) : GoBoard :=
  removeChainAux zob (b.chain_head p) p VIRTUAL_BOARD_POINTS.toNat b p

/-- The loop of `_capture_dead_chains`, threading the board, the captured
stone count, and the next free `last_captures` slot. -/
def captureFold (zob : Int → Color → Nat) (c : Color) :
    List Int → GoBoard → Int → Nat → GoBoard × Int × Nat
  | [], b, stones, ci => (b, stones, ci)
  | n :: rest, b, stones, ci =>
    if b.point_color n = c.opponent ∧ (b.chainAt n).num_pseudo_liberties = 0 then
      let u1 := Function.update b.last_captures (ci : Int) (b.chain_head n)
      let b1 : GoBoard := { b with last_captures := u1 }
      let stones1 := stones + (b1.chainAt n).num_stones
      let b2 := b1.remove_chain zob n
      captureFold zob c rest b2 stones1 (ci + 1)
    else captureFold zob c rest b stones ci

/-- `GoBoard._capture_dead_chains`: returns the new state and the number
of stones captured; unused `last_captures` slots are reset to INVALID. -/
def GoBoard.capture_dead_chains (b : GoBoard) (zob : Int → Color → Nat) (p : Int) (c : Color) :
    GoBoard × Int :=
  let r := captureFold zob c (neighbours p) b 0 0
  let b1 := ((List.range 4).drop r.2.2).foldl
    (fun b i =>
      { b with last_captures := Function.update b.last_captures (i : Int) INVALID_POINT })
    r.1
  (b1, r.2.1)

/-- The eye test at the top of `GoBoard.play`: every neighbour of `p` is
neither own-colored nor empty (so enemy stone or border guard). -/
def playedInEnemyEye (b : GoBoard) (p : Int) (c : Color) : Bool :=
  (neighbours p).all fun n =>
    let nc := b.point_color n
    ¬ (nc = c ∨ nc = Color.empty)

/-- The placement phase of `GoBoard.play`: join the neighbouring chains
around the new stone, put it on the board, and remove the vacated
liberty from the neighbouring chains. -/
def playPlaced (b : GoBoard) (zob : Int → Color → Nat) (p : Int) (c : Color) : GoBoard :=
  let b1 := b.join_chains_around p c
  let b2 := b1.set_stone zob p c
  b2.remove_liberty_from_neighbouring_chains p

/-- `GoBoard.play`. -/
def GoBoard.play (b : GoBoard) (zob : Int → Color → Nat) (p : Int) (c : Color) : GoBoard :=
  if p = PASS then { b with last_ko_point := INVALID_POINT }
  else
    let r := (playPlaced b zob p c).capture_dead_chains zob p c
    let ko := if playedInEnemyEye b p c ∧ r.2 = 1 then r.1.last_captures 0 else INVALID_POINT
    { r.1 with last_ko_point := ko }

/-- One step of the first `__init__` loop: turn a real point empty and
reset its chain slot. -/
def vacantStep (b : GoBoard) (p : Int) : GoBoard :=
  { b with board := Function.update b.board p ({ b.board p with color := Color.empty }), chains := Function.update b.chains p (b.chains p).reset }

/-- One step of the second `__init__` loop: seed the liberties of the
chain slot of a real point from its empty neighbours. -/
def seedPointStep (b : GoBoard) (p : Int) : GoBoard :=
  (neighbours p).foldl (seedLibStep p) b

/-- The state at the top of `__init__`: every virtual point a guard
singleton with the border-sentinel chain record. -/
def initBase (board_size : Nat) : GoBoard :=
  { board_size := board_size,
    last_ko_point := INVALID_POINT,
    board := fun i => { chain_head := i, chain_next := i, color := Color.guard },
    chains := fun _ => {},
    last_captures := fun _ => INVALID_POINT,
    zobrist_hash := 0 }

/-- `GoBoard.__init__`: guard everywhere, then real points turned empty
with fresh chain slots, then liberties seeded from empty neighbours. -/
def GoBoard.init (board_size : Nat) : GoBoard :=
  let b1 := (board_points board_size).foldl vacantStep (initBase board_size)
  (board_points board_size).foldl seedPointStep b1

/-- `GoBoard.clone`: construct a fresh board of the same size and copy
every array entry and scalar field. -/
def GoBoard.clone (b : GoBoard) : GoBoard :=
  let other := GoBoard.init b.board_size
  { other with
    last_ko_point := b.last_ko_point,
    board := fun i => if 0 ≤ i ∧ i < VIRTUAL_BOARD_POINTS then b.board i else other.board i,
    chains := fun i => if 0 ≤ i ∧ i < VIRTUAL_BOARD_POINTS then b.chains i else other.chains i,
    last_captures := fun i => if 0 ≤ i ∧ i < 4 then b.last_captures i else other.last_captures i,
    zobrist_hash := b.zobrist_hash }

/-- Lower-casing of an ASCII character, the effect of Python `str.lower`
on the coordinate strings the parser handles. -/
def lowerChar (c : Char) : Char :=
  if 'A' ≤ c ∧ c ≤ 'Z' then Char.ofNat (c.toNat + 32) else c

/-- `s.lower()` on ASCII strings. -/
def lowerString (s : String) : String :=
  String.mk (s.data.map lowerChar)

/-- A digit list read as a natural number; `none` when empty or when a
non-digit occurs (Python `int` raises `ValueError` there). -/
def digitsToNat : List Char → Option Nat
  | [] => none
  | ds =>
    if ds.all Char.isDigit then
      some (ds.foldl (fun acc d => acc * 10 + (d.toNat - '0'.toNat)) 0)
    else none

/-- ASCII whitespace as stripped by Python `int`. -/
def isPySpace (c : Char) : Bool :=
  c = ' ' ∨ c = '\t' ∨ c = '\n' ∨ c = '\x0b' ∨ c = '\x0c' ∨ c = '\r'

/-- Strip leading and trailing whitespace from a character list. -/
def trimCharList (l : List Char) : List Char :=
  ((l.dropWhile isPySpace).reverse.dropWhile isPySpace).reverse

/-- Python's `int(s)`: optional surrounding whitespace, optional sign,
then decimal digits; `none` models a raised `ValueError`. -/
def pyInt (s : String) : Option Int :=
  match trimCharList s.data with
  | '+' :: ds => (digitsToNat ds).map fun n => (n : Int)
  | '-' :: ds => (digitsToNat ds).map fun n => -(n : Int)
  | ds => (digitsToNat ds).map fun n => (n : Int)

/-- `parse_point`: `none` models a raised exception (Python `int` fails on
the row part), `some INVALID_POINT` is the sentinel return. -/
def parse_point (s : String) : Option Int :=
  let t := lowerString s
  if t = "pass" then some PASS
  else if t.length < 2 ∨ 3 < t.length then some INVALID_POINT
  else
    match t.data with
    | [] => none
    | ch :: rest =>
      let col : Int := (ch.toNat : Int) - ('a'.toNat : Int) + (if ch ≤ 'i' then 1 else 0)
      match pyInt (String.mk rest) with
      | none => none
      | some row => some (row * VIRTUAL_BOARD_SIZE + col)

/-- The real-board-membership predicate: `in_board_area` as a `Prop`. -/
def InBoard (b : GoBoard) (p : Int) : Prop := b.in_board_area p = true

instance (b : GoBoard) (p : Int) : Decidable (InBoard b p) := by
  unfold InBoard; infer_instance

/-- Sum of squares of a list of coordinates. -/
def sumSq (l : List Int) : Int := (l.map fun x => x * x).sum

/-- The discriminant `n * Σx² - (Σx)²` of a coordinate list. -/
def libDisc (l : List Int) : Int := (l.length : Int) * sumSq l - l.sum * l.sum


/-- A chain record with the liberties of a list added. -/
def addLibs (c : Chain) (l : List Int) : Chain := l.foldl Chain.add_liberty c

/-- Number of empty neighbours of `p`. -/
def countEmptyNbrs (b : GoBoard) (p : Int) : Nat :=
  ((neighbours p).filter fun n => (b.board n).color = Color.empty).length

/-- A stone color: black or white. -/
def IsStone (c : Color) : Prop := c = Color.black ∨ c = Color.white

instance (c : Color) : Decidable (IsStone c) := by
  unfold IsStone; infer_instance

/-- `y` follows `x` on the circular chain list. -/
def NextEq (b : GoBoard) (x y : Int) : Prop := (b.board x).chain_next = y

/-- `L` lists a `chain_next` cycle in order, wrapping from its last
element back to its first. -/
def IsCycleList (b : GoBoard) : List Int → Prop
  | [] => False
  | a :: t => List.Chain (NextEq b) a (t ++ [a])

/-- `k`-fold iteration of `chain_next` from a point. -/
def nextIter (b : GoBoard) : Nat → Int → Int
  | 0, q => q
  | k + 1, q => nextIter b k ((b.board q).chain_next)

/-- The stone chain through `p`, as an ordered member list `L`: a nodup
`chain_next` cycle of same-colored in-board stones sharing `p`'s head,
which lies on the cycle and whose record counts the stones. -/
structure StoneChain (b : GoBoard) (p : Int) (L : List Int) : Prop where
  cyc : IsCycleList b L
  nodup : L.Nodup
  memp : p ∈ L
  members : ∀ q ∈ L, InBoard b q ∧ (b.board q).color = (b.board p).color ∧
    (b.board q).chain_head = (b.board p).chain_head
  head_mem : (b.board p).chain_head ∈ L
  count : (b.chains ((b.board p).chain_head)).num_stones = (L.length : Int)

/-- The zobrist hash value that the stone layout alone determines. -/
def stoneHash (zob : Int → Color → Nat) (b : GoBoard) : Nat :=
  (List.range 441).foldl
    (fun h i =>
      if (b.board (i : Int)).color = Color.black then h ^^^ zob (i : Int) Color.black
      else if (b.board (i : Int)).color = Color.white then h ^^^ zob (i : Int) Color.white
      else h)
    0

/-- The state invariant maintained by `play` starting from `init`:
the guard ring is intact, every real empty point is its own singleton
slot counting its empty neighbours, every stone lies on a well-formed
chain cycle, adjacent same-colored stones share their chain, and the
incremental hash equals the layout hash. -/
structure Inv (zob : Int → Color → Nat) (b : GoBoard) : Prop where
  size_le : b.board_size ≤ 19
  guard_vertex : ∀ p : Int, ¬ InBoard b p → b.board p = ⟨p, p, Color.guard⟩
  no_guard : ∀ p : Int, InBoard b p → (b.board p).color ≠ Color.guard
  empty_vertex : ∀ p : Int, InBoard b p → (b.board p).color = Color.empty →
    (b.board p).chain_head = p ∧ (b.board p).chain_next = p ∧
    (b.chains p).num_pseudo_liberties = (countEmptyNbrs b p : Int)
  stone_chain : ∀ p : Int, IsStone (b.board p).color → ∃ L, StoneChain b p L
  adj_same : ∀ p n : Int, n ∈ neighbours p → IsStone (b.board p).color →
    (b.board n).color = (b.board p).color →
    (b.board n).chain_head = (b.board p).chain_head
  hash_eq : b.zobrist_hash = stoneHash zob b

/-- Boards reachable from construction by legal play calls. -/
inductive Reachable (zob : Int → Color → Nat) : GoBoard → Prop where
  | base (n : Nat) (hn : n ≤ 19) : Reachable zob (GoBoard.init n)
  | step (b : GoBoard) (p : Int) (c : Color) (hb : Reachable zob b)
      (hc : IsStone c) (hl : b.is_legal_move p c = true) :
      Reachable zob (b.play zob p c)


/-- Loop invariant of the merging loop of `_join_chains_around`: `K`
lists the current surviving chain around head `H` in state `s`, grown
from board `b0`, which the loop otherwise leaves intact. -/
structure MergeMid (b0 : GoBoard) (c : Color) (H : Int) (s : GoBoard) (K : List Int) :
    Prop where
  cyc : IsCycleList s K
  nodup : K.Nodup
  hmem : H ∈ K
  col : ∀ q ∈ K, (s.board q).color = c
  heads : ∀ q ∈ K, (s.board q).chain_head = H
  inboard : ∀ q ∈ K, InBoard b0 q
  colors_pres : ∀ q : Int, (s.board q).color = (b0.board q).color
  size_pres : s.board_size = b0.board_size
  ko_pres : s.last_ko_point = b0.last_ko_point
  caps_pres : s.last_captures = b0.last_captures
  hash_pres : s.zobrist_hash = b0.zobrist_hash
  count : (s.chains H).num_stones = (K.length : Int)
  untouched : ∀ q : Int, q ∉ K → s.board q = b0.board q
  chains_pres : ∀ h2 : Int, h2 ≠ H → s.chains h2 = b0.chains h2
  orig_closed : ∀ q ∈ K, ∀ L2, StoneChain b0 q L2 → ∀ r ∈ L2, r ∈ K


/-- What `_join_chains_around` guarantees: in the output `bj` the new
stone `p` lies on a well-formed cycle `M` headed by `H` that has
absorbed every same-colored neighbouring chain, and everything else of
`b0` is untouched. -/
structure JoinSpec (b0 : GoBoard) (p : Int) (c : Color) (bj : GoBoard) (H : Int)
    (M : List Int) : Prop where
  cyc : IsCycleList bj M
  nodup : M.Nodup
  pmem : p ∈ M
  hmem : H ∈ M
  heads : ∀ q ∈ M, (bj.board q).chain_head = H
  col : ∀ q ∈ M, q ≠ p → (b0.board q).color = c
  inboard : ∀ q ∈ M, q ≠ p → InBoard b0 q
  colors_pres : ∀ q : Int, (bj.board q).color = (b0.board q).color
  size_pres : bj.board_size = b0.board_size
  ko_pres : bj.last_ko_point = b0.last_ko_point
  caps_pres : bj.last_captures = b0.last_captures
  hash_pres : bj.zobrist_hash = b0.zobrist_hash
  count : (bj.chains H).num_stones = (M.length : Int)
  untouched : ∀ q : Int, q ∉ M → bj.board q = b0.board q
  chains_pres : ∀ h2 : Int, h2 ≠ H → bj.chains h2 = b0.chains h2
  nbrs_mem : ∀ n ∈ neighbours p, (b0.board n).color = c → n ∈ M
  orig_closed : ∀ q ∈ M, q ≠ p → ∀ L2, StoneChain b0 q L2 → ∀ r ∈ L2, r ∈ M


/-- The zobrist-table contribution of one point's current color. -/
def contrib (zob : Int → Color → Nat) (b : GoBoard) (i : Int) : Nat :=
  if (b.board i).color = Color.black then zob i Color.black
  else if (b.board i).color = Color.white then zob i Color.white
  else 0



/-- The liberties granted back to slot `h` when the points of `P` are
vacated: one copy of each vacated point per neighbour whose chain head
(in the pre-removal state `s`) is `h`. -/
def grantsFor (s : GoBoard) (h : Int) (P : List Int) : List Int :=
  P.flatMap fun v => ((neighbours v).filter fun x => s.chain_head x = h).map fun _ => v

/-- Loop invariant of the `_remove_chain` walk over the doomed chain:
after vacating the prefix `P` of the chain (relative to pre-removal
state `s`, whose chain through the removed stones is headed by
`thisHead`), the vacated points are fresh empty singletons whose
recorded liberties are their vacated-or-originally-empty neighbours,
`thisHead`'s old slot survives until its own point is vacated, and every
other slot has received exactly the liberty grants of `grantsFor`. -/
structure RemoveMid (zob : Int → Color → Nat) (s : GoBoard) (thisHead : Int)
    (P : List Int) (m : GoBoard) : Prop where
  board_done : ∀ q ∈ P, m.board q = ⟨q, q, Color.empty⟩
  board_pres : ∀ q : Int, q ∉ P → m.board q = s.board q
  size_pres : m.board_size = s.board_size
  ko_pres : m.last_ko_point = s.last_ko_point
  caps_pres : m.last_captures = s.last_captures
  hash_ok : m.zobrist_hash = stoneHash zob m
  chains_done : ∀ q ∈ P, m.chains q =
    addLibs ⟨1, 0, 0, 0⟩ ((neighbours q).filter fun x => decide (x ∈ P) || s.is_empty x)
  chains_this : thisHead ∉ P → m.chains thisHead = s.chains thisHead
  chains_other : ∀ h : Int, h ∉ P → h ≠ thisHead →
    m.chains h = addLibs (s.chains h) (grantsFor s h P)


/-- A trivial zobrist table for concrete runs. -/
def zob0 : Int → Color → Nat := fun _ _ => 0

/-- The chain slots after a no-merge, no-capture play at `p` on `b`: the
new singleton at `p` seeded from its empty neighbours, and one liberty
for `p` removed from each slot that heads a neighbour of `p`. -/
def exChains (b : GoBoard) (p : Int) : Int → Chain := fun h =>
  { num_stones := (if h = p then addLibs ⟨1, 0, 0, 0⟩ ((neighbours p).filter fun n => b.is_empty n) else b.chains h).num_stones, num_pseudo_liberties := (if h = p then addLibs ⟨1, 0, 0, 0⟩ ((neighbours p).filter fun n => b.is_empty n) else b.chains h).num_pseudo_liberties - ((((neighbours p).filter fun n => b.chain_head n = h).length : Int)), liberty_vertex_sum := (if h = p then addLibs ⟨1, 0, 0, 0⟩ ((neighbours p).filter fun n => b.is_empty n) else b.chains h).liberty_vertex_sum - ((((neighbours p).filter fun n => b.chain_head n = h).length : Int)) * p, liberty_vertex_sum_squared := (if h = p then addLibs ⟨1, 0, 0, 0⟩ ((neighbours p).filter fun n => b.is_empty n) else b.chains h).liberty_vertex_sum_squared - ((((neighbours p).filter fun n => b.chain_head n = h).length : Int)) * (p * p) }

/-- The `last_captures` array after a play: slots 0..3 reset. -/
def exCaps (b : GoBoard) : Int → Int := fun i => if i = 0 ∨ i = 1 ∨ i = 2 ∨ i = 3 then INVALID_POINT else b.last_captures i

/-- The whole state after a no-merge, no-capture play of `c` at `p`. -/
def playSimpleState (b : GoBoard) (zob : Int → Color → Nat) (p : Int) (c : Color) : GoBoard :=
  { board_size := b.board_size, last_ko_point := INVALID_POINT, board := Function.update b.board p ⟨p, p, c⟩, chains := exChains b p, last_captures := exCaps b, zobrist_hash := b.zobrist_hash ^^^ zob p c }


/-- A fold-free replica of the freshly constructed 2x2 board, for fast
concrete evaluation. -/
def init2X : GoBoard :=
  { board_size := 2, last_ko_point := INVALID_POINT, board := fun q => if q ∈ board_points 2 then ⟨q, q, Color.empty⟩ else ⟨q, q, Color.guard⟩, chains := fun q => if q ∈ board_points 2 then addLibs ⟨0, 0, 0, 0⟩ ((neighbours q).filter fun m => decide (m ∈ board_points 2)) else {}, last_captures := fun _ => INVALID_POINT, zobrist_hash := 0 }


/-! ### Theorems -/

/-! ### Basic facts about points, neighbours and the board area -/

theorem point_from_2d_eval (r c : Int) : point_from_2d r c = 21 * r + c + 22 := by
  simp [point_from_2d, VIRTUAL_BOARD_SIZE]; ring

theorem mem_board_points {n : Nat} {p : Int} :
    p ∈ board_points n ↔ ∃ r : Nat, r < n ∧ ∃ c : Nat, c < n ∧ p = 21 * r + c + 22 := by
  constructor
  · intro hp
    obtain ⟨r, hr, hmem⟩ := List.mem_flatMap.1 hp
    obtain ⟨c, hc, hpc⟩ := List.mem_map.1 hmem
    exact ⟨r, List.mem_range.1 hr, c, List.mem_range.1 hc,
      by rw [← hpc, point_from_2d_eval]⟩
  · rintro ⟨r, hr, c, hc, rfl⟩
    refine List.mem_flatMap.2 ⟨r, List.mem_range.2 hr, List.mem_map.2 ⟨c, List.mem_range.2 hc, ?_⟩⟩
    rw [point_from_2d_eval]

theorem board_points_bounds {n : Nat} (hn : n ≤ 19) {p : Int} (hp : p ∈ board_points n) :
    22 ≤ p ∧ p ≤ 418 := by
  obtain ⟨r, hr, c, hc, rfl⟩ := mem_board_points.1 hp
  have hr' : (r : Int) ≤ 18 := by exact_mod_cast Nat.le_of_lt_succ (lt_of_lt_of_le hr hn)
  have hc' : (c : Int) ≤ 18 := by exact_mod_cast Nat.le_of_lt_succ (lt_of_lt_of_le hc hn)
  have hr0 : (0 : Int) ≤ r := Int.natCast_nonneg r
  have hc0 : (0 : Int) ≤ c := Int.natCast_nonneg c
  omega

theorem board_points_nodup {n : Nat} (hn : n ≤ 19) : (board_points n).Nodup := by
  rw [board_points, List.nodup_flatMap]
  refine ⟨fun r _ => ?_, ?_⟩
  · refine List.Nodup.map ?_ (List.nodup_range n)
    intro a b hab
    simp only [point_from_2d_eval] at hab
    exact_mod_cast (by omega : (a : Int) = b)
  · have h19 : ∀ x ∈ List.range n, x < 19 := fun x hx =>
      lt_of_lt_of_le (List.mem_range.1 hx) hn
    refine List.Pairwise.imp_of_mem ?_ (List.pairwise_lt_range n)
    intro r s hr hs hrs
    intro x hx hy
    obtain ⟨a, ha, rfl⟩ := List.mem_map.1 hx
    obtain ⟨e, he, hea⟩ := List.mem_map.1 hy
    rw [point_from_2d_eval, point_from_2d_eval] at hea
    have ha' : a < 19 := lt_of_lt_of_le (List.mem_range.1 ha) hn
    have he' : e < 19 := lt_of_lt_of_le (List.mem_range.1 he) hn
    have hr19 := h19 r hr
    have hs19 := h19 s hs
    have : (21 : Int) * r + a = 21 * s + e := by omega
    have hne : (r : Int) < s := by exact_mod_cast hrs
    have ha2 : (a : Int) < 19 := by exact_mod_cast ha'
    have he2 : (e : Int) < 19 := by exact_mod_cast he'
    have ha0 : (0 : Int) ≤ a := Int.natCast_nonneg a
    have he0 : (0 : Int) ≤ e := Int.natCast_nonneg e
    omega

theorem fdiv_vbs (p : Int) : p.fdiv VIRTUAL_BOARD_SIZE = p / 21 := by
  unfold VIRTUAL_BOARD_SIZE
  exact Int.fdiv_eq_ediv _ (by norm_num)

theorem fmod_vbs (p : Int) : p.fmod VIRTUAL_BOARD_SIZE = p % 21 := by
  unfold VIRTUAL_BOARD_SIZE
  exact Int.fmod_eq_emod _ (by norm_num)

theorem inBoard_iff_mem {b : GoBoard} (hsz : b.board_size ≤ 19) {p : Int} :
    InBoard b p ↔ p ∈ board_points b.board_size := by
  unfold InBoard GoBoard.in_board_area
  rw [decide_eq_true_eq]
  constructor
  · intro h
    by_cases hinv : p = INVALID_POINT ∨ p = PASS
    · exfalso
      simp only [point_to_2d, if_pos hinv] at h
      omega
    · simp only [point_to_2d, if_neg hinv, fdiv_vbs, fmod_vbs] at h
      rw [mem_board_points]
      refine ⟨(p / 21 - 1).toNat, by omega, (p % 21 - 1).toNat, by omega, by omega⟩
  · intro hp
    obtain ⟨r, hr, c, hc, rfl⟩ := mem_board_points.1 hp
    have hr' : (r : Int) < b.board_size := by exact_mod_cast hr
    have hc' : (c : Int) < b.board_size := by exact_mod_cast hc
    have hr0 : (0 : Int) ≤ r := Int.natCast_nonneg r
    have hc0 : (0 : Int) ≤ c := Int.natCast_nonneg c
    have hsz' : (b.board_size : Int) ≤ 19 := by exact_mod_cast hsz
    have hne : ¬ ((21 * (r:Int) + c + 22) = INVALID_POINT ∨ (21 * (r:Int) + c + 22) = PASS) := by
      unfold INVALID_POINT PASS VIRTUAL_BOARD_SIZE
      omega
    simp only [point_to_2d, if_neg hne, fdiv_vbs, fmod_vbs]
    constructor
    · omega
    refine ⟨?_, ?_, ?_⟩ <;> omega

theorem mem_neighbours {p q : Int} :
    q ∈ neighbours p ↔ q = p + 21 ∨ q = p - 1 ∨ q = p + 1 ∨ q = p - 21 := by
  simp [neighbours, VIRTUAL_BOARD_SIZE]

theorem neighbours_nodup (p : Int) : (neighbours p).Nodup := by
  simp only [neighbours, VIRTUAL_BOARD_SIZE]
  norm_num
  omega

theorem self_not_mem_neighbours (p : Int) : p ∉ neighbours p := by
  rw [mem_neighbours]; omega

theorem mem_neighbours_comm {p q : Int} : q ∈ neighbours p ↔ p ∈ neighbours q := by
  rw [mem_neighbours, mem_neighbours]; omega

theorem inBoard_bounds {b : GoBoard} (hsz : b.board_size ≤ 19) {p : Int}
    (hp : InBoard b p) : 22 ≤ p ∧ p ≤ 418 :=
  board_points_bounds hsz ((inBoard_iff_mem hsz).1 hp)

theorem inBoard_ne_pass {b : GoBoard} (hsz : b.board_size ≤ 19) {p : Int}
    (hp : InBoard b p) : p ≠ PASS := by
  have := inBoard_bounds hsz hp
  unfold PASS VIRTUAL_BOARD_SIZE
  omega

theorem inBoard_ne_invalid {b : GoBoard} (hsz : b.board_size ≤ 19) {p : Int}
    (hp : InBoard b p) : p ≠ INVALID_POINT := by
  have := inBoard_bounds hsz hp
  unfold INVALID_POINT
  omega

theorem neighbour_range {b : GoBoard} (hsz : b.board_size ≤ 19) {p q : Int}
    (hp : InBoard b p) (hq : q ∈ neighbours p) : 1 ≤ q ∧ q ≤ 439 := by
  have := inBoard_bounds hsz hp
  rw [mem_neighbours] at hq
  omega

/-- `in_board_area` only looks at `board_size`, so it transfers between
boards of equal size. -/
theorem inBoard_congr {b b2 : GoBoard} (hsz : b2.board_size = b.board_size) {p : Int} :
    InBoard b2 p ↔ InBoard b p := by
  unfold InBoard GoBoard.in_board_area
  rw [hsz]

/-! ### The atari trick: the equality case of Cauchy-Schwarz for a
multiset of liberty coordinates (claims about `Chain.in_atari` and
`Chain.single_liberty`) -/

theorem sum_map_sub_sq (a : Int) (t : List Int) :
    (t.map fun x => (a - x) * (a - x)).sum
      = (t.length : Int) * (a * a) - 2 * a * t.sum + sumSq t := by
  induction t with
  | nil => simp [sumSq]
  | cons y ys ih =>
    simp only [List.map_cons, List.sum_cons, List.length_cons, sumSq] at *
    push_cast
    rw [ih]
    ring

theorem sum_nonneg_of_sq (t : List Int) (a : Int) :
    0 ≤ (t.map fun x => (a - x) * (a - x)).sum := by
  induction t with
  | nil => simp
  | cons y ys ih =>
    simp only [List.map_cons, List.sum_cons]
    have : 0 ≤ (a - y) * (a - y) := mul_self_nonneg _
    omega

theorem sum_sq_eq_zero (a : Int) : ∀ (t : List Int),
    (t.map fun x => (a - x) * (a - x)).sum = 0 → ∀ x ∈ t, x = a := by
  intro t
  induction t with
  | nil => simp
  | cons y ys ih =>
    intro h x hx
    simp only [List.map_cons, List.sum_cons] at h
    have h1 : 0 ≤ (a - y) * (a - y) := mul_self_nonneg _
    have h2 : 0 ≤ (ys.map fun x => (a - x) * (a - x)).sum := sum_nonneg_of_sq ys a
    have hy : (a - y) * (a - y) = 0 := by omega
    have hys : (ys.map fun x => (a - x) * (a - x)).sum = 0 := by omega
    rcases List.mem_cons.1 hx with rfl | hx2
    · have := mul_self_eq_zero.1 hy
      omega
    · exact ih hys x hx2

theorem libDisc_cons (a : Int) (t : List Int) :
    libDisc (a :: t) = libDisc t + (t.map fun x => (a - x) * (a - x)).sum := by
  unfold libDisc
  simp only [List.length_cons, List.sum_cons, sumSq, List.map_cons]
  rw [sum_map_sub_sq]
  push_cast
  unfold sumSq
  ring

theorem sum_of_all_eq {v : Int} : ∀ {l : List Int}, (∀ x ∈ l, x = v) →
    l.sum = (l.length : Int) * v := by
  intro l
  induction l with
  | nil => simp
  | cons y ys ih =>
    intro h
    have hy : y = v := h y (List.mem_cons_self y ys)
    have hys := ih fun x hx => h x (List.mem_cons_of_mem y hx)
    simp only [List.sum_cons, List.length_cons, hy, hys]
    push_cast
    ring

theorem sumSq_of_all_eq {v : Int} : ∀ {l : List Int}, (∀ x ∈ l, x = v) →
    sumSq l = (l.length : Int) * (v * v) := by
  intro l
  induction l with
  | nil => simp [sumSq]
  | cons y ys ih =>
    intro h
    have hy : y = v := h y (List.mem_cons_self y ys)
    have hys := ih fun x hx => h x (List.mem_cons_of_mem y hx)
    simp only [sumSq, List.map_cons, List.sum_cons, List.length_cons, hy] at *
    rw [hys]
    push_cast
    ring

theorem libDisc_of_all_eq {v : Int} {l : List Int} (h : ∀ x ∈ l, x = v) :
    libDisc l = 0 := by
  unfold libDisc
  rw [sum_of_all_eq h, sumSq_of_all_eq h]
  ring

theorem libDisc_nonneg : ∀ (l : List Int), 0 ≤ libDisc l := by
  intro l
  induction l with
  | nil => simp [libDisc, sumSq]
  | cons y ys ih =>
    rw [libDisc_cons]
    have := sum_nonneg_of_sq ys y
    omega

theorem libDisc_eq_zero_iff (a : Int) (t : List Int) :
    libDisc (a :: t) = 0 ↔ ∀ x ∈ a :: t, x = a := by
  constructor
  · intro h
    rw [libDisc_cons] at h
    have h1 := libDisc_nonneg t
    have h2 := sum_nonneg_of_sq t a
    have hsq : (t.map fun x => (a - x) * (a - x)).sum = 0 := by omega
    intro x hx
    rcases List.mem_cons.1 hx with rfl | hx2
    · rfl
    · exact sum_sq_eq_zero a t hsq x hx2
  · exact libDisc_of_all_eq

/-- C2: for a `Chain` whose statistics aggregate a non-empty multiset of
liberty coordinates, `in_atari` holds iff the multiset has exactly one
distinct coordinate, and then `single_liberty` returns that coordinate,
the sum dividing evenly by the count. -/
theorem C2_atari_single_coordinate (ch : Chain) (l : List Int)
    (hne : l ≠ [])
    (hcount : ch.num_pseudo_liberties = (l.length : Int))
    (hsum : ch.liberty_vertex_sum = l.sum)
    (hsq : ch.liberty_vertex_sum_squared = sumSq l) :
    (ch.in_atari = true ↔ ∃ v : Int, ∀ x ∈ l, x = v) ∧
    (∀ v : Int, (∀ x ∈ l, x = v) →
      (ch.liberty_vertex_sum).fmod ch.num_pseudo_liberties = 0 ∧ ch.single_liberty = v) := by
  obtain ⟨a, t, rfl⟩ := List.exists_cons_of_ne_nil hne
  constructor
  · rw [Chain.in_atari, beq_iff_eq, hcount, hsum, hsq]
    constructor
    · intro h
      have hd : libDisc (a :: t) = 0 := by
        unfold libDisc
        omega
      exact ⟨a, (libDisc_eq_zero_iff a t).1 hd⟩
    · rintro ⟨v, hv⟩
      have ha : a = v := hv a (List.mem_cons_self a t)
      have hall : ∀ x ∈ a :: t, x = a := fun x hx => by
        rw [hv x hx, ha]
      have hd := libDisc_of_all_eq hall
      unfold libDisc at hd
      omega
  · intro v hv
    have hS : (a :: t).sum = ((a :: t).length : Int) * v := sum_of_all_eq hv
    have hn0 : ((a :: t).length : Int) ≠ 0 := by
      simp only [List.length_cons]
      push_cast
      have := Int.natCast_nonneg t.length
      omega
    rw [Chain.single_liberty, hcount, hsum, hS]
    refine ⟨?_, Int.mul_fdiv_cancel_left v hn0⟩
    rw [Int.mul_comm]
    exact Int.mul_fmod_left v _

/-! ### Coordinate parsing: error behaviour of `parse_point` -/

theorem lowerString_data (s : String) : (lowerString s).data = s.data.map lowerChar := rfl

theorem lowerString_length (s : String) : (lowerString s).length = s.length := by
  show (lowerString s).data.length = s.data.length
  rw [lowerString_data, List.length_map]

/-- C8 counterexample: on the two-character string "aa" the parser does
not return the INVALID sentinel: Python `int("a")` raises `ValueError`
(modelled by `none`). -/
theorem C8_counterexample_parse_aa_raises :
    parse_point "aa" = none ∧ parse_point "aa" ≠ some INVALID_POINT := by
  refine ⟨rfl, ?_⟩
  intro h
  rw [show parse_point "aa" = none from rfl] at h
  exact Option.noConfusion h

/-- C8 amended: a string other than case-insensitive "pass" whose length
is outside 2..3 characters parses to the INVALID sentinel without an
exception; length-2..3 strings with a malformed row part raise instead. -/
theorem C8_amended_length_out_of_range (s : String)
    (hpass : lowerString s ≠ "pass")
    (hlen : s.length < 2 ∨ 3 < s.length) :
    parse_point s = some INVALID_POINT := by
  unfold parse_point
  rw [if_neg hpass, if_pos]
  rw [lowerString_length]
  exact hlen

theorem C8_amended_length_out_of_range_witness :
    lowerString "a" ≠ "pass" ∧ ("a".length < 2 ∨ 3 < "a".length) ∧
      parse_point "a" = some INVALID_POINT :=
  ⟨by decide, by decide,
    C8_amended_length_out_of_range "a" (by decide) (by decide)⟩

/-! ### Folding helpers -/

theorem foldl_preserve {α : Type} (f : GoBoard → α → GoBoard) (P : GoBoard → Prop)
    (hf : ∀ b x, P b → P (f b x)) : ∀ (l : List α) (b : GoBoard), P b → P (l.foldl f b) := by
  intro l
  induction l with
  | nil => intro b hb; exact hb
  | cons x xs ih => intro b hb; exact ih (f b x) (hf b x hb)

theorem vacantStep_scalars (b : GoBoard) (p : Int) :
    (vacantStep b p).board_size = b.board_size ∧
    (vacantStep b p).last_ko_point = b.last_ko_point ∧
    (vacantStep b p).last_captures = b.last_captures ∧
    (vacantStep b p).zobrist_hash = b.zobrist_hash := by
  unfold vacantStep
  exact ⟨rfl, rfl, rfl, rfl⟩

theorem seedLibStep_board (h : Int) (b : GoBoard) (n : Int) :
    (seedLibStep h b n).board = b.board ∧
    (seedLibStep h b n).board_size = b.board_size ∧
    (seedLibStep h b n).last_ko_point = b.last_ko_point ∧
    (seedLibStep h b n).last_captures = b.last_captures ∧
    (seedLibStep h b n).zobrist_hash = b.zobrist_hash := by
  unfold seedLibStep
  by_cases hc : b.is_empty n
  · rw [if_pos hc]; exact ⟨rfl, rfl, rfl, rfl, rfl⟩
  · rw [if_neg hc]; exact ⟨rfl, rfl, rfl, rfl, rfl⟩

theorem seedPointStep_board (b : GoBoard) (p : Int) :
    (seedPointStep b p).board = b.board ∧
    (seedPointStep b p).board_size = b.board_size ∧
    (seedPointStep b p).last_ko_point = b.last_ko_point ∧
    (seedPointStep b p).last_captures = b.last_captures ∧
    (seedPointStep b p).zobrist_hash = b.zobrist_hash := by
  unfold seedPointStep
  refine foldl_preserve _
    (fun s => s.board = b.board ∧ s.board_size = b.board_size ∧
      s.last_ko_point = b.last_ko_point ∧ s.last_captures = b.last_captures ∧
      s.zobrist_hash = b.zobrist_hash) ?_ (neighbours p) b ⟨rfl, rfl, rfl, rfl, rfl⟩
  intro s n hs
  have := seedLibStep_board p s n
  exact ⟨this.1.trans hs.1, (this.2.1).trans hs.2.1, (this.2.2.1).trans hs.2.2.1,
    (this.2.2.2.1).trans hs.2.2.2.1, (this.2.2.2.2).trans hs.2.2.2.2⟩

theorem init_scalars (n : Nat) :
    (GoBoard.init n).board_size = n ∧
    (GoBoard.init n).last_ko_point = INVALID_POINT ∧
    (GoBoard.init n).last_captures = (fun _ => INVALID_POINT) ∧
    (GoBoard.init n).zobrist_hash = 0 := by
  unfold GoBoard.init
  exact foldl_preserve seedPointStep
    (fun s => s.board_size = n ∧ s.last_ko_point = INVALID_POINT ∧
      s.last_captures = (fun _ => INVALID_POINT) ∧ s.zobrist_hash = 0)
    (fun b x hb => by
      have := seedPointStep_board b x
      exact ⟨(this.2.1).trans hb.1, (this.2.2.1).trans hb.2.1,
        (this.2.2.2.1).trans hb.2.2.1, (this.2.2.2.2).trans hb.2.2.2⟩)
    (board_points n) _
    (foldl_preserve vacantStep
      (fun s => s.board_size = n ∧ s.last_ko_point = INVALID_POINT ∧
        s.last_captures = (fun _ => INVALID_POINT) ∧ s.zobrist_hash = 0)
      (fun b x hb => by
        have := vacantStep_scalars b x
        exact ⟨this.1.trans hb.1, (this.2.1).trans hb.2.1,
          (this.2.2.1).trans hb.2.2.1, (this.2.2.2).trans hb.2.2.2⟩)
      (board_points n) _ ⟨rfl, rfl, rfl, rfl⟩)

/-! ### Clone -/

/-- C7: a clone reproduces the hash, the ko point, the board size and
every entry of the vertex, chain and capture arrays.  In this pure
embedding boards are immutable values, so no operation on the clone can
alter the source board (and vice versa): the two share no state. -/
theorem C7_clone_spec (b : GoBoard) :
    b.clone.zobrist_hash = b.zobrist_hash ∧
    b.clone.last_ko_point = b.last_ko_point ∧
    b.clone.board_size = b.board_size ∧
    (∀ i : Int, 0 ≤ i → i < VIRTUAL_BOARD_POINTS →
      b.clone.board i = b.board i ∧ b.clone.chains i = b.chains i) ∧
    (∀ i : Int, 0 ≤ i → i < 4 → b.clone.last_captures i = b.last_captures i) := by
  unfold GoBoard.clone
  refine ⟨rfl, rfl, (init_scalars b.board_size).1, ?_, ?_⟩
  · intro i h0 h1
    constructor
    · show (if 0 ≤ i ∧ i < VIRTUAL_BOARD_POINTS then b.board i else _) = b.board i
      rw [if_pos ⟨h0, h1⟩]
    · show (if 0 ≤ i ∧ i < VIRTUAL_BOARD_POINTS then b.chains i else _) = b.chains i
      rw [if_pos ⟨h0, h1⟩]
  · intro i h0 h1
    show (if 0 ≤ i ∧ i < 4 then b.last_captures i else _) = b.last_captures i
    rw [if_pos ⟨h0, h1⟩]

theorem C7_clone_spec_witness :
    (GoBoard.init 2).clone.zobrist_hash = (GoBoard.init 2).zobrist_hash ∧
    (0:Int) ≤ 22 ∧ (22:Int) < VIRTUAL_BOARD_POINTS ∧
    (GoBoard.init 2).clone.board 22 = (GoBoard.init 2).board 22 :=
  ⟨(C7_clone_spec (GoBoard.init 2)).1, by decide, by decide,
    ((C7_clone_spec (GoBoard.init 2)).2.2.2.1 22 (by decide) (by decide)).1⟩

/-! ### Characterizing `GoBoard.init` -/

theorem foldl_vacantStep_board : ∀ (l : List Int) (b : GoBoard) (q : Int),
    (l.foldl vacantStep b).board q =
      if q ∈ l then { b.board q with color := Color.empty } else b.board q := by
  intro l
  induction l with
  | nil => intro b q; simp
  | cons x xs ih =>
    intro b q
    rw [List.foldl_cons, ih]
    have hx : (vacantStep b x).board q =
        if q = x then { b.board q with color := Color.empty } else b.board q := by
      unfold vacantStep
      by_cases hqx : q = x
      · subst hqx; simp [Function.update_same]
      · simp [Function.update_noteq hqx, hqx]
    by_cases hmem : q ∈ xs
    · rw [if_pos hmem, if_pos (List.mem_cons_of_mem x hmem), hx]
      by_cases hqx : q = x <;> simp [hqx]
    · rw [if_neg hmem, hx]
      by_cases hqx : q = x
      · subst hqx; simp
      · rw [if_neg hqx, if_neg]
        intro hc
        rcases List.mem_cons.1 hc with h | h
        · exact hqx h
        · exact hmem h

theorem foldl_vacantStep_chains : ∀ (l : List Int) (b : GoBoard) (q : Int),
    (l.foldl vacantStep b).chains q =
      if q ∈ l then { num_stones := 0, num_pseudo_liberties := 0,
                      liberty_vertex_sum := 0, liberty_vertex_sum_squared := 0 }
      else b.chains q := by
  intro l
  induction l with
  | nil => intro b q; simp
  | cons x xs ih =>
    intro b q
    rw [List.foldl_cons, ih]
    have hx : (vacantStep b x).chains q =
        if q = x then { num_stones := 0, num_pseudo_liberties := 0,
                        liberty_vertex_sum := 0, liberty_vertex_sum_squared := 0 }
        else b.chains q := by
      unfold vacantStep Chain.reset
      by_cases hqx : q = x
      · subst hqx; simp [Function.update_same]
      · simp [Function.update_noteq hqx, hqx]
    by_cases hmem : q ∈ xs
    · rw [if_pos hmem, if_pos (List.mem_cons_of_mem x hmem)]
    · rw [if_neg hmem, hx]
      by_cases hqx : q = x
      · subst hqx; simp
      · rw [if_neg hqx, if_neg]
        intro hc
        rcases List.mem_cons.1 hc with h | h
        · exact hqx h
        · exact hmem h

theorem foldl_seedLibStep_chains (p : Int) : ∀ (l : List Int) (b : GoBoard),
    (l.foldl (seedLibStep p) b).board = b.board ∧
    (l.foldl (seedLibStep p) b).chains p =
      addLibs (b.chains p) (l.filter fun n => b.is_empty n) := by
  intro l
  induction l with
  | nil => intro b; exact ⟨rfl, rfl⟩
  | cons n ns ih =>
    intro b
    rw [List.foldl_cons]
    obtain ⟨ihb, ihc⟩ := ih (seedLibStep p b n)
    have hb : (seedLibStep p b n).board = b.board := (seedLibStep_board p b n).1
    have hemp : (seedLibStep p b n).is_empty = b.is_empty := by
      funext q
      unfold GoBoard.is_empty GoBoard.point_color
      rw [hb]
    simp only [hemp] at ihc
    refine ⟨ihb.trans hb, ?_⟩
    rw [ihc, List.filter_cons]
    by_cases hc : b.is_empty n = true
    · rw [if_pos hc]
      have hstep : (seedLibStep p b n).chains p = (b.chains p).add_liberty n := by
        unfold seedLibStep
        rw [if_pos hc]
        simp [Function.update_same]
      rw [hstep]
      rfl
    · rw [if_neg hc]
      have hstep : (seedLibStep p b n).chains p = b.chains p := by
        unfold seedLibStep
        rw [if_neg hc]
      rw [hstep]

theorem seedPointStep_chains_other {b : GoBoard} {x q : Int} (hqx : q ≠ x) :
    (seedPointStep b x).chains q = b.chains q := by
  unfold seedPointStep
  refine foldl_preserve (seedLibStep x) (fun s => s.chains q = b.chains q) ?_ (neighbours x) b rfl
  intro s n hs
  unfold seedLibStep
  by_cases hc : s.is_empty n = true
  · rw [if_pos hc]
    show Function.update s.chains x _ q = _
    rw [Function.update_noteq hqx]
    exact hs
  · rw [if_neg hc]
    exact hs

theorem foldl_seedPointStep_board : ∀ (l : List Int) (b : GoBoard),
    (l.foldl seedPointStep b).board = b.board := by
  intro l b
  exact foldl_preserve seedPointStep (fun s => s.board = b.board)
    (fun s x hs => ((seedPointStep_board s x).1).trans hs) l b rfl

theorem foldl_seedPointStep_chains : ∀ (l : List Int), l.Nodup → ∀ (b : GoBoard) (q : Int),
    (l.foldl seedPointStep b).chains q =
      if q ∈ l then addLibs (b.chains q) ((neighbours q).filter fun n => b.is_empty n)
      else b.chains q := by
  intro l
  induction l with
  | nil => intro _ b q; simp
  | cons x xs ih =>
    intro hnd b q
    obtain ⟨hx, hxs⟩ := List.nodup_cons.1 hnd
    rw [List.foldl_cons]
    have hb : (seedPointStep b x).board = b.board := (seedPointStep_board b x).1
    have hemp : (seedPointStep b x).is_empty = b.is_empty := by
      funext m
      unfold GoBoard.is_empty GoBoard.point_color
      rw [hb]
    rw [ih hxs]
    by_cases hqx : q = x
    · subst hqx
      rw [if_neg hx, if_pos (List.mem_cons_self q xs)]
      exact (foldl_seedLibStep_chains q (neighbours q) b).2
    · by_cases hmem : q ∈ xs
      · rw [if_pos hmem, if_pos (List.mem_cons_of_mem x hmem),
          seedPointStep_chains_other hqx]
        simp only [hemp]
      · rw [if_neg hmem, if_neg (by
          intro hc
          rcases List.mem_cons.1 hc with h | h
          · exact hqx h
          · exact hmem h),
          seedPointStep_chains_other hqx]

theorem init_board_eval (n : Nat) (q : Int) :
    (GoBoard.init n).board q =
      if q ∈ board_points n then ⟨q, q, Color.empty⟩ else ⟨q, q, Color.guard⟩ := by
  unfold GoBoard.init
  rw [foldl_seedPointStep_board, foldl_vacantStep_board]
  by_cases hmem : q ∈ board_points n
  · rw [if_pos hmem, if_pos hmem]
    rfl
  · rw [if_neg hmem, if_neg hmem]
    rfl

theorem init_is_empty (n : Nat) (q : Int) :
    ((GoBoard.init n).is_empty q) = decide (q ∈ board_points n) := by
  unfold GoBoard.is_empty GoBoard.point_color
  rw [init_board_eval]
  by_cases hm : q ∈ board_points n
  · simp [hm]
  · simp [hm]

theorem init_chains_eval (n : Nat) (hn : n ≤ 19) (q : Int) :
    (GoBoard.init n).chains q =
      if q ∈ board_points n then
        addLibs { num_stones := 0, num_pseudo_liberties := 0,
                  liberty_vertex_sum := 0, liberty_vertex_sum_squared := 0 }
          ((neighbours q).filter fun m => decide (m ∈ board_points n))
      else {} := by
  have hemp : ∀ m : Int,
      (((board_points n).foldl vacantStep (initBase n)).is_empty m)
        = decide (m ∈ board_points n) := by
    intro m
    have : ((board_points n).foldl vacantStep (initBase n)).is_empty m
        = (GoBoard.init n).is_empty m := by
      unfold GoBoard.is_empty GoBoard.point_color GoBoard.init
      rw [foldl_seedPointStep_board]
    rw [this, init_is_empty]
  unfold GoBoard.init
  rw [foldl_seedPointStep_chains (board_points n) (board_points_nodup hn)]
  by_cases hmem : q ∈ board_points n
  · rw [if_pos hmem, if_pos hmem, foldl_vacantStep_chains, if_pos hmem]
    congr 1
    exact List.filter_congr fun m _ => hemp m
  · rw [if_neg hmem, if_neg hmem, foldl_vacantStep_chains, if_neg hmem]
    rfl

/-! ### Fresh-board liberties (claim C9) -/

theorem addLibs_eval (s k a e : Int) : ∀ (l : List Int),
    addLibs ⟨s, k, a, e⟩ l = ⟨s, k + l.length, a + l.sum, e + sumSq l⟩ := by
  intro l
  induction l generalizing k a e with
  | nil => simp [addLibs, sumSq]
  | cons x xs ih =>
    show addLibs ⟨s, k + 1, a + x, e + x * x⟩ xs = _
    rw [ih]
    simp only [List.length_cons, List.sum_cons, sumSq, List.map_cons, List.sum_cons,
      Chain.mk.injEq]
    refine ⟨trivial, ?_, ?_, ?_⟩ <;> push_cast <;> ring

set_option maxRecDepth 8000 in
theorem C9_counterexample :
    InBoard (GoBoard.init 9) 22 ∧
    (GoBoard.init 9).pseudo_liberty 22 = 2 ∧ (2 : Int) ≠ 4 := by
  have hsz : (GoBoard.init 9).board_size = 9 := (init_scalars 9).1
  have hb := init_board_eval 9 22
  have hc := init_chains_eval 9 (by norm_num) 22
  rw [if_pos (by decide : (22:Int) ∈ board_points 9)] at hb hc
  refine ⟨?_, ?_, by decide⟩
  · rw [inBoard_iff_mem (by rw [hsz]; norm_num), hsz]
    decide
  · unfold GoBoard.pseudo_liberty GoBoard.chainAt GoBoard.chain_head
    rw [hb, show ((⟨(22:Int), (22:Int), Color.empty⟩ : Vertex).chain_head) = (22:Int) from rfl, hc]
    decide

/-- C9 amended: on a fresh board of size 9, 13 or 19 every real point is
EMPTY, and every interior point (all four neighbours on the real board)
has exactly 4 pseudo-liberties; corner and edge points have fewer, as
the counterexample at the corner shows. -/
theorem C9_amended_fresh_board (n : Nat) (hn : n = 9 ∨ n = 13 ∨ n = 19) (p : Int)
    (hp : p ∈ board_points n) :
    ((GoBoard.init n).board p).color = Color.empty ∧
    ((∀ m ∈ neighbours p, m ∈ board_points n) →
      (GoBoard.init n).pseudo_liberty p = 4) := by
  have hn19 : n ≤ 19 := by rcases hn with h | h | h <;> omega
  have hb := init_board_eval n p
  rw [if_pos hp] at hb
  constructor
  · rw [hb]
  · intro hint
    have hc := init_chains_eval n hn19 p
    rw [if_pos hp] at hc
    have hfilter : (neighbours p).filter (fun m => decide (m ∈ board_points n))
        = neighbours p := by
      rw [List.filter_eq_self]
      intro m hm
      exact decide_eq_true (hint m hm)
    rw [hfilter, addLibs_eval] at hc
    have hdisc : libDisc (neighbours p) ≠ 0 := by
      rw [show neighbours p = (p + 21) :: [p - 1, p + 1, p - 21] from rfl]
      intro h
      have hall := (libDisc_eq_zero_iff (p + 21) [p - 1, p + 1, p - 21]).1 h
      have := hall (p - 1) (by simp)
      omega
    unfold GoBoard.pseudo_liberty GoBoard.chainAt GoBoard.chain_head
    rw [hb, show ((⟨p, p, Color.empty⟩ : Vertex).chain_head) = p from rfl, hc]
    have hlen : ((neighbours p).length : Int) = 4 := rfl
    have hatari : Chain.in_atari
        ⟨0, 0 + ((neighbours p).length : Int), 0 + (neighbours p).sum,
          0 + sumSq (neighbours p)⟩ = false := by
      unfold Chain.in_atari
      rw [beq_eq_false_iff_ne]
      unfold libDisc at hdisc
      intro hEq
      apply hdisc
      simp only [zero_add, hlen] at hEq
      rw [hlen]
      omega
    rw [hlen]
    norm_num
    simpa [hlen] using hatari

theorem C9_amended_fresh_board_witness :
    (9 = 9 ∨ 9 = 13 ∨ 9 = 19) ∧ (110:Int) ∈ board_points 9 ∧
    (∀ m ∈ neighbours (110:Int), m ∈ board_points 9) ∧
    ((GoBoard.init 9).board 110).color = Color.empty ∧
    (GoBoard.init 9).pseudo_liberty 110 = 4 := by
  have h := C9_amended_fresh_board 9 (Or.inl rfl) 110 (by decide)
  exact ⟨Or.inl rfl, by decide, by decide, h.1, h.2 (by decide)⟩

theorem C2_atari_single_coordinate_witness :
    (([(5:Int), 5] : List Int) ≠ []) ∧
    ((⟨0, 2, 10, 50⟩ : Chain).num_pseudo_liberties = (([(5:Int), 5]).length : Int)) ∧
    ((⟨0, 2, 10, 50⟩ : Chain).liberty_vertex_sum = ([(5:Int), 5]).sum) ∧
    ((⟨0, 2, 10, 50⟩ : Chain).liberty_vertex_sum_squared = sumSq [(5:Int), 5]) ∧
    (((⟨0, 2, 10, 50⟩ : Chain).in_atari = true ↔ ∃ v : Int, ∀ x ∈ [(5:Int), 5], x = v) ∧
     (∀ v : Int, (∀ x ∈ [(5:Int), 5], x = v) →
       ((⟨0, 2, 10, 50⟩ : Chain).liberty_vertex_sum).fmod
           (⟨0, 2, 10, 50⟩ : Chain).num_pseudo_liberties = 0 ∧
         (⟨0, 2, 10, 50⟩ : Chain).single_liberty = v)) :=
  ⟨by decide, by decide, by decide, by decide,
    C2_atari_single_coordinate ⟨0, 2, 10, 50⟩ [5, 5] (by decide) (by decide) (by decide) (by decide)⟩

/-! ### Circular chain lists -/

theorem cyc_cons {b : GoBoard} {a : Int} {t : List Int} :
    IsCycleList b (a :: t) ↔ List.Chain (NextEq b) a (t ++ [a]) := Iff.rfl

theorem cyc_ne_nil {b : GoBoard} {L : List Int} (h : IsCycleList b L) : L ≠ [] := by
  cases L with
  | nil => exact absurd h (fun h => h)
  | cons a t => exact List.cons_ne_nil a t

theorem cyc_rotate {b : GoBoard} {u v : List Int} {x : Int}
    (h : IsCycleList b (u ++ x :: v)) : IsCycleList b (x :: (v ++ u)) := by
  cases u with
  | nil => simpa using h
  | cons a u2 =>
    rw [List.cons_append, cyc_cons, List.append_assoc, List.cons_append,
      List.chain_split] at h
    obtain ⟨h1, h2⟩ := h
    rw [cyc_cons, List.append_assoc, List.cons_append, List.chain_split]
    exact ⟨h2, h1⟩

theorem cyc_next_mem {b : GoBoard} {L : List Int} (h : IsCycleList b L) {y : Int}
    (hy : y ∈ L) : (b.board y).chain_next ∈ L := by
  obtain ⟨u, v, rfl⟩ := List.append_of_mem hy
  have h2 := cyc_rotate h
  rw [cyc_cons] at h2
  cases hvu : v ++ u with
  | nil =>
    rw [hvu] at h2
    simp only [List.nil_append] at h2
    have h3 : NextEq b y y := List.chain_singleton.1 h2
    have h4 : (b.board y).chain_next = y := h3
    rw [h4]
    exact List.mem_append.2 (Or.inr (List.mem_cons_self y v))
  | cons z w =>
    rw [hvu, List.cons_append] at h2
    have h3 : (b.board y).chain_next = z := (List.chain_cons.1 h2).1
    rw [h3]
    have hz : z ∈ v ++ u := by
      rw [hvu]
      exact List.mem_cons_self z w
    rcases List.mem_append.1 hz with hmem | hmem
    · exact List.mem_append.2 (Or.inr (List.mem_cons_of_mem y hmem))
    · exact List.mem_append.2 (Or.inl hmem)

theorem nextIter_succ_left (b : GoBoard) (k : Nat) (q : Int) :
    nextIter b (k + 1) q = nextIter b k ((b.board q).chain_next) := rfl

theorem nextIter_succ_right (b : GoBoard) : ∀ (k : Nat) (q : Int),
    nextIter b (k + 1) q = (b.board (nextIter b k q)).chain_next := by
  intro k
  induction k with
  | zero => intro q; rfl
  | succ k ih =>
    intro q
    rw [nextIter_succ_left, ih, nextIter_succ_left]

theorem cyc_walk {b : GoBoard} : ∀ (k : Nat) (x : Int) (t : List Int),
    IsCycleList b (x :: t) → k ≤ t.length → nextIter b k x = (x :: t).getD k 0 := by
  intro k
  induction k with
  | zero => intro x t _ _; rfl
  | succ k ih =>
    intro x t hc hk
    cases t with
    | nil => simp at hk
    | cons z t2 =>
      have hch := cyc_cons.1 hc
      rw [List.cons_append] at hch
      have hnext : (b.board x).chain_next = z := (List.chain_cons.1 hch).1
      have hrot : IsCycleList b (z :: (t2 ++ [x])) := by
        have h0 : IsCycleList b (([x] : List Int) ++ z :: t2) := by
          simpa using hc
        simpa using cyc_rotate h0
      rw [nextIter_succ_left, hnext,
        ih z (t2 ++ [x]) hrot (by simp only [List.length_append, List.length_cons] at hk ⊢; omega)]
      rw [List.getD_cons_succ]
      rw [show z :: (t2 ++ [x]) = (z :: t2) ++ [x] from rfl]
      exact List.getD_append (z :: t2) [x] 0 k
        (by simp only [List.length_cons] at hk ⊢; omega)

theorem chain_last_link {b : GoBoard} {x : Int} : ∀ (l : List Int) (a : Int),
    List.Chain (NextEq b) a (l ++ [x]) →
    (b.board ((a :: l).getLast (List.cons_ne_nil a l))).chain_next = x := by
  intro l
  induction l with
  | nil =>
    intro a h
    simp only [List.nil_append] at h
    have h2 : NextEq b a x := List.chain_singleton.1 h
    exact h2
  | cons w l2 ih =>
    intro a h
    rw [List.cons_append, List.chain_cons] at h
    have h2 := ih w h.2
    rw [List.getLast_cons (List.cons_ne_nil w l2)]
    exact h2

theorem getD_last : ∀ (l : List Int) (h : l ≠ []), l.getD (l.length - 1) 0 = l.getLast h := by
  intro l
  induction l with
  | nil => intro h; exact absurd rfl h
  | cons a t ih =>
    intro h
    cases t with
    | nil => rfl
    | cons w t2 =>
      rw [List.length_cons, List.getLast_cons (List.cons_ne_nil w t2)]
      have h2 := ih (List.cons_ne_nil w t2)
      rw [List.length_cons] at h2
      rw [show (w :: t2).length + 1 - 1 = ((w :: t2).length - 1) + 1 from by
        simp only [List.length_cons]; omega]
      rw [List.getD_cons_succ]
      exact h2

theorem cyc_return {b : GoBoard} {x : Int} {t : List Int} (hc : IsCycleList b (x :: t)) :
    nextIter b (x :: t).length x = x := by
  have hwalk := cyc_walk t.length x t hc (le_refl _)
  rw [List.length_cons, nextIter_succ_right, hwalk]
  have hgl : (x :: t).getD t.length 0 = (x :: t).getLast (List.cons_ne_nil x t) := by
    have := getD_last (x :: t) (List.cons_ne_nil x t)
    rw [List.length_cons] at this
    simpa using this
  rw [hgl]
  exact chain_last_link t x (cyc_cons.1 hc)

theorem nextIter_mem {b : GoBoard} {L : List Int} (hc : IsCycleList b L) {y : Int}
    (hy : y ∈ L) : ∀ k, nextIter b k y ∈ L := by
  intro k
  induction k with
  | zero => exact hy
  | succ k ih =>
    rw [nextIter_succ_right]
    exact cyc_next_mem hc ih

theorem cyc_mem_iterate {b : GoBoard} {L : List Int} (hc : IsCycleList b L) {x y : Int}
    (hx : x ∈ L) (hy : y ∈ L) : ∃ k, k < L.length ∧ nextIter b k x = y := by
  obtain ⟨u, v, rfl⟩ := List.append_of_mem hx
  have hrot := cyc_rotate hc
  have hperm : (x :: (v ++ u)).Perm (u ++ x :: v) := by
    have h1 : (x :: (v ++ u)) = (x :: v) ++ u := by simp
    have h2 : List.Perm ((x :: v) ++ u) (u ++ (x :: v)) := List.perm_append_comm
    rw [h1]
    exact h2
  have hy2 : y ∈ x :: (v ++ u) := hperm.mem_iff.2 hy
  obtain ⟨i, hi, hget⟩ := List.getElem_of_mem hy2
  refine ⟨i, ?_, ?_⟩
  · rw [← hperm.length_eq]
    exact hi
  · rw [cyc_walk i x (v ++ u) hrot (by
      simp only [List.length_cons] at hi
      omega)]
    rw [List.getD_eq_getElem (x :: (v ++ u)) 0 hi]
    exact hget

theorem cyc_same_set {b : GoBoard} {L1 L2 : List Int} (h1 : IsCycleList b L1)
    (h2 : IsCycleList b L2) {x : Int} (hx1 : x ∈ L1) (hx2 : x ∈ L2) :
    ∀ y, y ∈ L1 ↔ y ∈ L2 := by
  intro y
  constructor
  · intro hy
    obtain ⟨k, _, hk⟩ := cyc_mem_iterate h1 hx1 hy
    rw [← hk]
    exact nextIter_mem h2 hx2 k
  · intro hy
    obtain ⟨k, _, hk⟩ := cyc_mem_iterate h2 hx2 hy
    rw [← hk]
    exact nextIter_mem h1 hx1 k

/-! ### Effect of the simple mutation stages -/

theorem cyc_nodup_iterates {b : GoBoard} {x : Int} {t : List Int}
    (hc : IsCycleList b (x :: t)) (hnd : (x :: t).Nodup) {k l : Nat}
    (hk : k < (x :: t).length) (hl : l < (x :: t).length) (hne : k ≠ l) :
    nextIter b k x ≠ nextIter b l x := by
  rw [cyc_walk k x t hc (by simp only [List.length_cons] at hk; omega),
    cyc_walk l x t hc (by simp only [List.length_cons] at hl; omega),
    List.getD_eq_getElem (x :: t) 0 hk, List.getD_eq_getElem (x :: t) 0 hl]
  intro h
  have hinj := List.nodup_iff_injective_getElem.1 hnd
  have h2 := @hinj ⟨k, hk⟩ ⟨l, hl⟩ (by simpa using h)
  exact hne (by simpa using congrArg Fin.val h2)

theorem board_points_length (n : Nat) : (board_points n).length = n * n := by
  rw [board_points, List.length_flatMap]
  simp only [Function.comp_def, List.length_map, List.length_range]
  have hconst : ∀ (k c : Nat), (List.map (fun _ => c) (List.range k)).sum = k * c := by
    intro k c
    induction k with
    | zero => simp
    | succ j ih =>
      rw [List.range_succ, List.map_append, List.sum_append, ih]
      simp [Nat.succ_mul]
  exact hconst n n

theorem cyc_length_le {b : GoBoard} {L : List Int} (hnd : L.Nodup)
    (hmem : ∀ q ∈ L, q ∈ board_points b.board_size) (hsz : b.board_size ≤ 19) :
    L.length ≤ 361 := by
  have hsub := List.subperm_of_subset hnd hmem
  have := hsub.length_le
  rw [board_points_length] at this
  have hle : b.board_size * b.board_size ≤ 361 := Nat.mul_le_mul hsz hsz
  omega

theorem set_stone_eval (b : GoBoard) (zob : Int → Color → Nat) (p : Int) (c : Color) :
    (b.set_stone zob p c).board = Function.update b.board p ({ b.board p with color := c }) ∧
    (b.set_stone zob p c).chains = b.chains ∧
    (b.set_stone zob p c).board_size = b.board_size ∧
    (b.set_stone zob p c).last_ko_point = b.last_ko_point ∧
    (b.set_stone zob p c).last_captures = b.last_captures ∧
    (b.set_stone zob p c).zobrist_hash =
      (if c = Color.empty then b.zobrist_hash ^^^ zob p (b.point_color p)
       else b.zobrist_hash ^^^ zob p c) :=
  ⟨rfl, rfl, rfl, rfl, rfl, rfl⟩



theorem foldl_removeLibStep_eval (p : Int) : ∀ (l : List Int) (b : GoBoard),
    (l.foldl (removeLibStep p) b).board = b.board ∧
    (l.foldl (removeLibStep p) b).board_size = b.board_size ∧
    (l.foldl (removeLibStep p) b).last_ko_point = b.last_ko_point ∧
    (l.foldl (removeLibStep p) b).last_captures = b.last_captures ∧
    (l.foldl (removeLibStep p) b).zobrist_hash = b.zobrist_hash ∧
    ∀ h : Int, (l.foldl (removeLibStep p) b).chains h =
      { num_stones := (b.chains h).num_stones,
        num_pseudo_liberties := (b.chains h).num_pseudo_liberties
          - ((l.filter fun n => b.chain_head n = h).length : Int),
        liberty_vertex_sum := (b.chains h).liberty_vertex_sum
          - ((l.filter fun n => b.chain_head n = h).length : Int) * p,
        liberty_vertex_sum_squared := (b.chains h).liberty_vertex_sum_squared
          - ((l.filter fun n => b.chain_head n = h).length : Int) * (p * p) } := by
  intro l
  induction l with
  | nil =>
    intro b
    refine ⟨rfl, rfl, rfl, rfl, rfl, fun h => ?_⟩
    simp
  | cons n ns ih =>
    intro b
    rw [List.foldl_cons]
    obtain ⟨ihb, ih1, ih2, ih3, ih4, ihc⟩ := ih (removeLibStep p b n)
    have hb : (removeLibStep p b n).board = b.board := rfl
    have hhead : (removeLibStep p b n).chain_head = b.chain_head := by
      funext q
      unfold GoBoard.chain_head
      rw [hb]
    refine ⟨ihb.trans hb, ih1, ih2, ih3, ih4, fun h => ?_⟩
    rw [ihc h]
    simp only [hhead]
    have hch : (removeLibStep p b n).chains h =
        if b.chain_head n = h then (b.chains h).remove_liberty p else b.chains h := by
      unfold removeLibStep GoBoard.chainAt
      by_cases hh : b.chain_head n = h
      · rw [if_pos hh]
        show Function.update b.chains (b.chain_head n) _ h = _
        rw [hh, Function.update_same]
      · rw [if_neg hh]
        show Function.update b.chains (b.chain_head n) _ h = _
        rw [Function.update_noteq (fun hc => hh hc.symm)]
    rw [hch, List.filter_cons]
    by_cases hh : b.chain_head n = h
    · rw [if_pos hh, if_pos (decide_eq_true hh), List.length_cons]
      unfold Chain.remove_liberty
      simp only [Chain.mk.injEq]
      refine ⟨trivial, ?_, ?_, ?_⟩ <;> push_cast <;> ring
    · rw [if_neg hh, if_neg (by simpa using hh)]

theorem init_new_chain_eval (b : GoBoard) (p : Int) :
    (b.init_new_chain p).board = Function.update b.board p ⟨p, p, (b.board p).color⟩ ∧
    (b.init_new_chain p).chains = Function.update b.chains p
      (addLibs ⟨1, 0, 0, 0⟩ ((neighbours p).filter fun n => b.is_empty n)) ∧
    (b.init_new_chain p).board_size = b.board_size ∧
    (b.init_new_chain p).last_ko_point = b.last_ko_point ∧
    (b.init_new_chain p).last_captures = b.last_captures ∧
    (b.init_new_chain p).zobrist_hash = b.zobrist_hash := by
  have hkey : b.init_new_chain p = seedPointStep
      { b with board := Function.update b.board p ⟨p, p, (b.board p).color⟩,
               chains := Function.update b.chains p ⟨1, 0, 0, 0⟩ } p := by
    unfold GoBoard.init_new_chain seedPointStep GoBoard.chainAt GoBoard.chain_head
    simp only [Function.update_same, Chain.reset]
    norm_num
  set b2 : GoBoard :=
    { b with board := Function.update b.board p ⟨p, p, (b.board p).color⟩,
             chains := Function.update b.chains p ⟨1, 0, 0, 0⟩ } with hb2
  have hboard : (seedPointStep b2 p).board = b2.board := (seedPointStep_board b2 p).1
  have hemp : ∀ q, b2.is_empty q = b.is_empty q := by
    intro q
    unfold GoBoard.is_empty GoBoard.point_color
    show decide (((Function.update b.board p ⟨p, p, (b.board p).color⟩) q).color = Color.empty) = _
    by_cases hq : q = p
    · subst hq
      rw [Function.update_same]
    · rw [Function.update_noteq hq]
  rw [hkey]
  refine ⟨hboard, ?_, (seedPointStep_board b2 p).2.1, (seedPointStep_board b2 p).2.2.1,
    (seedPointStep_board b2 p).2.2.2.1, (seedPointStep_board b2 p).2.2.2.2⟩
  funext h
  by_cases hq : h = p
  · subst hq
    rw [show (seedPointStep b2 h).chains h
        = addLibs (b2.chains h) ((neighbours h).filter fun n => b2.is_empty n) from
      (foldl_seedLibStep_chains h (neighbours h) b2).2]
    rw [Function.update_same]
    have h1 : b2.chains h = ⟨1, 0, 0, 0⟩ := by
      show Function.update b.chains h ⟨1, 0, 0, 0⟩ h = _
      rw [Function.update_same]
    rw [h1]
    congr 1
    exact List.filter_congr fun m _ => hemp m
  · rw [seedPointStep_chains_other hq, Function.update_noteq hq]
    show Function.update b.chains p ⟨1, 0, 0, 0⟩ h = b.chains h
    rw [Function.update_noteq hq]

/-! ### The relabelling walk of `_join_chains_around` -/

theorem relabelAux_walk (h start : Int) : ∀ (t : List Int) (fuel : Nat) (b : GoBoard)
    (cur : Int),
    List.Chain (NextEq b) cur (t ++ [start]) →
    (cur :: t).Nodup → start ∉ t → t.length < fuel →
    (relabelAux h start fuel b cur).board
        = (fun q => if q ∈ cur :: t then { b.board q with chain_head := h } else b.board q) ∧
    (relabelAux h start fuel b cur).chains = b.chains ∧
    (relabelAux h start fuel b cur).board_size = b.board_size ∧
    (relabelAux h start fuel b cur).last_ko_point = b.last_ko_point ∧
    (relabelAux h start fuel b cur).last_captures = b.last_captures ∧
    (relabelAux h start fuel b cur).zobrist_hash = b.zobrist_hash := by
  intro t
  induction t with
  | nil =>
    intro fuel b cur hch _ _ hfuel
    cases fuel with
    | zero => omega
    | succ f =>
      simp only [List.nil_append] at hch
      have hnext0 : NextEq b cur start := List.chain_singleton.1 hch
      have hnext : (b.board cur).chain_next = start := hnext0
      unfold relabelAux
      have hcur2 : ((Function.update b.board cur
          ({ b.board cur with chain_head := h })) cur).chain_next = start := by
        rw [Function.update_same]
        exact hnext
      rw [if_pos hcur2]
      refine ⟨?_, rfl, rfl, rfl, rfl, rfl⟩
      funext q
      dsimp only
      by_cases hq : q = cur
      · subst hq
        rw [Function.update_same, if_pos (List.mem_singleton.2 rfl)]
      · rw [Function.update_noteq hq, if_neg (by simpa using hq)]
  | cons z t2 ih =>
    intro fuel b cur hch hnd hstart hfuel
    cases fuel with
    | zero => simp at hfuel
    | succ f =>
      rw [List.cons_append, List.chain_cons] at hch
      obtain ⟨hz, hch2⟩ := hch
      have hznext : (b.board cur).chain_next = z := hz
      have hzstart : z ≠ start := fun hc => hstart (hc ▸ List.mem_cons_self z t2)
      unfold relabelAux
      have hcur2 : ((Function.update b.board cur
          ({ b.board cur with chain_head := h })) cur).chain_next = z := by
        rw [Function.update_same]
        exact hznext
      dsimp only
      rw [hcur2, if_neg hzstart]
      set b1 : GoBoard :=
        { b with board := Function.update b.board cur ({ b.board cur with chain_head := h }) }
        with hb1
      have hnexteq : ∀ x y : Int, NextEq b1 x y ↔ NextEq b x y := by
        intro x y
        unfold NextEq
        show ((Function.update b.board cur ({ b.board cur with chain_head := h })) x).chain_next = y ↔ _
        by_cases hx : x = cur
        · subst hx
          rw [Function.update_same]
        · rw [Function.update_noteq hx]
      have hch1 : List.Chain (NextEq b1) z (t2 ++ [start]) :=
        List.Chain.imp (fun a c hac => (hnexteq a c).2 hac) hch2
      have hnd2 : (z :: t2).Nodup := (List.nodup_cons.1 hnd).2
      have hstart2 : start ∉ t2 := fun hc => hstart (List.mem_cons_of_mem z hc)
      have hfuel2 : t2.length < f := by
        simp only [List.length_cons] at hfuel
        omega
      obtain ⟨ihb, ihc, ih1, ih2, ih3, ih4⟩ := ih f b1 z hch1 hnd2 hstart2 hfuel2
      have hcurnot : cur ∉ z :: t2 := (List.nodup_cons.1 hnd).1
      refine ⟨?_, ihc, ih1, ih2, ih3, ih4⟩
      rw [ihb]
      funext q
      by_cases hmem : q ∈ z :: t2
      · rw [if_pos hmem, if_pos (List.mem_cons_of_mem cur hmem)]
        have hqcur : q ≠ cur := fun hc => hcurnot (hc ▸ hmem)
        show { b1.board q with chain_head := h } = _
        rw [hb1]
        show { (Function.update b.board cur _ q) with chain_head := h } = _
        rw [Function.update_noteq hqcur]
      · rw [if_neg hmem]
        by_cases hqcur : q = cur
        · subst hqcur
          rw [if_pos (List.mem_cons_self q (z :: t2))]
          show (Function.update b.board q _ q) = _
          rw [Function.update_same]
        · rw [if_neg (by
            intro hc
            rcases List.mem_cons.1 hc with hcc | hcc
            · exact hqcur hcc
            · exact hmem hcc)]
          show (Function.update b.board cur _ q) = _
          rw [Function.update_noteq hqcur]

/-! ### Splicing two circular lists (`_join_chains_around`) -/

theorem chain_imp_sources {R S : Int → Int → Prop} : ∀ (l : List Int) (a : Int),
    List.Chain R a l → (∀ x, (x = a ∨ x ∈ l.dropLast) → ∀ y, R x y → S x y) →
    List.Chain S a l := by
  intro l
  induction l with
  | nil =>
    intro a _ _
    exact List.Chain.nil
  | cons w l2 ih =>
    intro a hch himp
    rw [List.chain_cons] at hch ⊢
    cases l2 with
    | nil => exact ⟨himp a (Or.inl rfl) w hch.1, List.Chain.nil⟩
    | cons u l3 =>
      refine ⟨himp a (Or.inl rfl) w hch.1, ih w hch.2 ?_⟩
      intro x hx y hxy
      refine himp x ?_ y hxy
      right
      rw [show (w :: u :: l3).dropLast = w :: (u :: l3).dropLast from rfl]
      rcases hx with rfl | hx2
      · exact List.mem_cons_self x ((u :: l3).dropLast)
      · exact List.mem_cons_of_mem w hx2

theorem splice_cycle {b b2 : GoBoard} {H n : Int} {A B : List Int}
    (hK : IsCycleList b (H :: A)) (hL : IsCycleList b (n :: B))
    (hdisj : ∀ x, x ∈ H :: A → x ∉ n :: B)
    (hndK : (H :: A).Nodup) (hndL : (n :: B).Nodup)
    (hH : (b2.board H).chain_next = (b.board n).chain_next)
    (hn : (b2.board n).chain_next = (b.board H).chain_next)
    (hother : ∀ x, x ≠ H → x ≠ n → (b2.board x).chain_next = (b.board x).chain_next) :
    IsCycleList b2 (H :: (B ++ n :: A)) := by
  have hHn : H ≠ n := by
    intro hc
    exact hdisj H (List.mem_cons_self H A) (by rw [hc]; exact List.mem_cons_self n B)
  have hKch := cyc_cons.1 hK
  have hLch := cyc_cons.1 hL
  rw [cyc_cons, List.append_assoc, List.cons_append, List.chain_split]
  constructor
  · -- Chain (NextEq b2) H (B ++ [n])
    cases B with
    | nil =>
      simp only [List.nil_append] at hLch ⊢
      rw [List.chain_singleton]
      have hnn : (b.board n).chain_next = n := by
        have h0 : NextEq b n n := List.chain_singleton.1 hLch
        exact h0
      show (b2.board H).chain_next = n
      rw [hH, hnn]
    | cons w B2 =>
      rw [List.cons_append, List.chain_cons] at hLch ⊢
      obtain ⟨hnw, hrest⟩ := hLch
      constructor
      · show (b2.board H).chain_next = w
        rw [hH]
        exact hnw
      · refine chain_imp_sources (B2 ++ [n]) w hrest ?_
        intro x hx y hxy
        have hxB : x ∈ w :: B2 := by
          rcases hx with rfl | hx2
          · exact List.mem_cons_self x B2
          · rw [List.dropLast_concat] at hx2
            exact List.mem_cons_of_mem w hx2
        have hxn : x ≠ n := by
          intro hc
          subst hc
          have := (List.nodup_cons.1 hndL).1
          exact this (by
            rcases List.mem_cons.1 hxB with h1 | h1
            · exact (h1 ▸ List.mem_cons_self w B2)
            · exact List.mem_cons_of_mem w h1)
        have hxH : x ≠ H := by
          intro hc
          subst hc
          exact hdisj x (List.mem_cons_self x A) (List.mem_cons_of_mem n hxB)
        show (b2.board x).chain_next = y
        rw [hother x hxH hxn]
        exact hxy
  · -- Chain (NextEq b2) n (A ++ [H])
    cases A with
    | nil =>
      simp only [List.nil_append] at hKch ⊢
      rw [List.chain_singleton]
      have hHH : (b.board H).chain_next = H := by
        have h0 : NextEq b H H := List.chain_singleton.1 hKch
        exact h0
      show (b2.board n).chain_next = H
      rw [hn, hHH]
    | cons a A2 =>
      rw [List.cons_append, List.chain_cons] at hKch ⊢
      obtain ⟨hHa, hrest⟩ := hKch
      constructor
      · show (b2.board n).chain_next = a
        rw [hn]
        exact hHa
      · refine chain_imp_sources (A2 ++ [H]) a hrest ?_
        intro x hx y hxy
        have hxA : x ∈ a :: A2 := by
          rcases hx with rfl | hx2
          · exact List.mem_cons_self x A2
          · rw [List.dropLast_concat] at hx2
            exact List.mem_cons_of_mem a hx2
        have hxH : x ≠ H := by
          intro hc
          subst hc
          exact (List.nodup_cons.1 hndK).1 hxA
        have hxn : x ≠ n := by
          intro hc
          subst hc
          exact hdisj x (List.mem_cons_of_mem H hxA) (List.mem_cons_self x B)
        show (b2.board x).chain_next = y
        rw [hother x hxH hxn]
        exact hxy

theorem cyc_congr {b b2 : GoBoard} {L : List Int}
    (h : ∀ x ∈ L, (b2.board x).chain_next = (b.board x).chain_next)
    (hc : IsCycleList b L) : IsCycleList b2 L := by
  cases L with
  | nil => exact hc
  | cons a t =>
    rw [cyc_cons] at hc ⊢
    refine chain_imp_sources (t ++ [a]) a hc ?_
    intro x hx y hxy
    have hxmem : x ∈ a :: t := by
      rcases hx with rfl | hx2
      · exact List.mem_cons_self _ _
      · rw [List.dropLast_concat] at hx2
        exact List.mem_cons_of_mem a hx2
    show (b2.board x).chain_next = y
    rw [h x hxmem]
    exact hxy

theorem selFold_none (b : GoBoard) (c : Color) :
    ∀ (l : List Int) (acc : Int × Int), (∀ n ∈ l, b.point_color n ≠ c) →
    l.foldl (selStep b c) acc = acc := by
  intro l
  induction l with
  | nil => intro acc _; rfl
  | cons n ns ih =>
    intro acc hl
    rw [List.foldl_cons]
    have : selStep b c acc n = acc := by
      unfold selStep
      rw [if_neg (hl n (List.mem_cons_self n ns))]
    rw [this]
    exact ih acc fun m hm => hl m (List.mem_cons_of_mem n hm)

theorem selFold_spec (b : GoBoard) (c : Color) :
    ∀ (l : List Int) (acc : Int × Int),
    (l.foldl (selStep b c) acc = acc ∨
      ∃ n ∈ l, b.point_color n = c ∧
        (l.foldl (selStep b c) acc).1 = b.chain_head n ∧
        (l.foldl (selStep b c) acc).2 = (b.chainAt n).num_stones) ∧
    acc.2 ≤ (l.foldl (selStep b c) acc).2 ∧
    (∀ n ∈ l, b.point_color n = c →
      (b.chainAt n).num_stones ≤ (l.foldl (selStep b c) acc).2) := by
  intro l
  induction l with
  | nil =>
    intro acc
    refine ⟨Or.inl rfl, le_refl _, ?_⟩
    intro n hn
    exact absurd hn (List.not_mem_nil n)
  | cons n ns ih =>
    intro acc
    rw [List.foldl_cons]
    obtain ⟨ih1, ih2, ih3⟩ := ih (selStep b c acc n)
    have hstep : selStep b c acc n = acc ∨
        (b.point_color n = c ∧ selStep b c acc n = (b.chain_head n, (b.chainAt n).num_stones) ∧
          acc.2 ≤ (b.chainAt n).num_stones) := by
      unfold selStep
      by_cases hcol : b.point_color n = c
      · rw [if_pos hcol]
        by_cases hlt : acc.2 < (b.chainAt n).num_stones
        · rw [if_pos hlt]
          exact Or.inr ⟨hcol, rfl, le_of_lt hlt⟩
        · rw [if_neg hlt]
          exact Or.inl rfl
      · rw [if_neg hcol]
        exact Or.inl rfl
    have haccle : acc.2 ≤ (selStep b c acc n).2 := by
      rcases hstep with h | ⟨_, h, hle⟩
      · rw [h]
      · rw [h]
        exact hle
    refine ⟨?_, le_trans haccle ih2, ?_⟩
    · rcases ih1 with h | ⟨m, hm, hcol, h1, h2⟩
      · rcases hstep with h2 | ⟨hcol, h2, _⟩
        · rw [h] at *
          exact Or.inl h2
        · rw [h] at *
          exact Or.inr ⟨n, List.mem_cons_self n ns, hcol, by rw [h2], by rw [h2]⟩
      · exact Or.inr ⟨m, List.mem_cons_of_mem n hm, hcol, h1, h2⟩
    · intro m hm hcol
      rcases List.mem_cons.1 hm with rfl | hm2
      · refine le_trans ?_ ih2
        rcases hstep with h | ⟨_, h, _⟩
        · -- selStep acc m = acc: then since color matches, acc.2 was not < stones m
          unfold selStep at h
          rw [if_pos hcol] at h
          by_cases hlt : acc.2 < (b.chainAt m).num_stones
          · rw [if_pos hlt] at h
            have := congrArg Prod.snd h
            simp at this
            omega
          · rw [if_neg hlt] at h
            rw [h]
            omega
        · rw [h]
      · exact ih3 m hm2 hcol

theorem StoneChain_transfer {b : GoBoard} {p : Int} {L : List Int}
    (h : StoneChain b p L) {q : Int} (hq : q ∈ L) : StoneChain b q L := by
  obtain ⟨hcol, hhead⟩ : (b.board q).color = (b.board p).color ∧
      (b.board q).chain_head = (b.board p).chain_head :=
    ⟨(h.members q hq).2.1, (h.members q hq).2.2⟩
  refine ⟨h.cyc, h.nodup, hq, ?_, ?_, ?_⟩
  · intro r hr
    exact ⟨(h.members r hr).1, (h.members r hr).2.1.trans hcol.symm,
      (h.members r hr).2.2.trans hhead.symm⟩
  · rw [hhead]
    exact h.head_mem
  · rw [hhead]
    exact h.count

theorem cyc_rotate_at {b : GoBoard} {L : List Int} (hc : IsCycleList b L) {x : Int}
    (hx : x ∈ L) : ∃ t, IsCycleList b (x :: t) ∧ List.Perm (x :: t) L := by
  obtain ⟨u, v, rfl⟩ := List.append_of_mem hx
  refine ⟨v ++ u, cyc_rotate hc, ?_⟩
  have h1 : (x :: (v ++ u)) = (x :: v) ++ u := by simp
  rw [h1]
  exact List.perm_append_comm

theorem goboard_ext (a b : GoBoard) (h1 : a.board_size = b.board_size)
    (h2 : a.last_ko_point = b.last_ko_point) (h3 : a.board = b.board)
    (h4 : a.chains = b.chains) (h5 : a.last_captures = b.last_captures)
    (h6 : a.zobrist_hash = b.zobrist_hash) : a = b := by
  cases a
  cases b
  simp only at h1 h2 h3 h4 h5 h6
  subst h1 h2 h3 h4 h5 h6
  rfl

theorem vbp_toNat : VIRTUAL_BOARD_POINTS.toNat = 441 := rfl

theorem mergeStep_spec (b0 : GoBoard) (c : Color) (H : Int) (hc : IsStone c)
    (hstone : ∀ q : Int, IsStone (b0.board q).color → ∃ L, StoneChain b0 q L)
    (hsz : b0.board_size ≤ 19)
    (s : GoBoard) (K : List Int) (hmid : MergeMid b0 c H s K) (n : Int) :
    ∃ K2, MergeMid b0 c H (mergeStep c H s n) K2 ∧ (∀ q ∈ K, q ∈ K2) ∧
      ((b0.board n).color = c → n ∈ K2) := by
  have hcoln : s.point_color n = (b0.board n).color := hmid.colors_pres n
  by_cases h1 : s.point_color n = c
  swap
  · refine ⟨K, ?_, fun q hq => hq, fun hc0 => absurd (hcoln.trans hc0) h1⟩
    have : mergeStep c H s n = s := by
      unfold mergeStep
      rw [if_neg h1]
    rw [this]
    exact hmid
  by_cases h2 : s.chain_head n ≠ H
  swap
  · push_neg at h2
    have hms : mergeStep c H s n = s := by
      unfold mergeStep
      rw [if_pos h1, if_neg (by simpa using h2)]
    rw [hms]
    refine ⟨K, hmid, fun q hq => hq, fun hc0 => ?_⟩
    by_cases hnK : n ∈ K
    · exact hnK
    · have hbn : s.board n = b0.board n := hmid.untouched n hnK
      have hstn : IsStone (b0.board n).color := by
        rw [hc0]
        exact hc
      obtain ⟨Ln, hLn⟩ := hstone n hstn
      have hHcol : (b0.board H).color = c :=
        (hmid.colors_pres H).symm.trans (hmid.col H hmid.hmem)
      have hstH : IsStone (b0.board H).color := by
        rw [hHcol]
        exact hc
      obtain ⟨LH, hLH⟩ := hstone H hstH
      have hHLn : H ∈ Ln := by
        have := hLn.head_mem
        rw [show (b0.board n).chain_head = H from ?_] at this
        · exact this
        · have : s.chain_head n = (b0.board n).chain_head := by
            unfold GoBoard.chain_head
            rw [hbn]
          rw [← this, h2]
      have hsame := cyc_same_set hLn.cyc hLH.cyc hHLn hLH.memp
      exact hmid.orig_closed H hmid.hmem LH hLH n ((hsame n).1 hLn.memp)
  -- the real merge case
  have hnK : n ∉ K := fun hK => h2 (hmid.heads n hK)
  have hbn : s.board n = b0.board n := hmid.untouched n hnK
  have hcol0 : (b0.board n).color = c := hcoln.symm.trans h1
  have hstn : IsStone (b0.board n).color := by
    rw [hcol0]
    exact hc
  obtain ⟨Ln, hLn⟩ := hstone n hstn
  have hLnK : ∀ r ∈ Ln, r ∉ K := by
    intro r hr hrK
    exact hnK (hmid.orig_closed r hrK Ln (StoneChain_transfer hLn hr) n hLn.memp)
  obtain ⟨A, hKcyc, hKperm⟩ := cyc_rotate_at hmid.cyc hmid.hmem
  obtain ⟨B, hLcyc0, hLperm⟩ := cyc_rotate_at hLn.cyc hLn.memp
  have hndK2 : (H :: A).Nodup := hKperm.nodup_iff.2 hmid.nodup
  have hndL2 : (n :: B).Nodup := hLperm.nodup_iff.2 hLn.nodup
  have hmemK2 : ∀ q, q ∈ H :: A ↔ q ∈ K := fun q => hKperm.mem_iff
  have hmemL2 : ∀ q, q ∈ n :: B ↔ q ∈ Ln := fun q => hLperm.mem_iff
  have hLcyc : IsCycleList s (n :: B) := by
    refine cyc_congr ?_ hLcyc0
    intro x hx
    rw [hmid.untouched x (hLnK x ((hmemL2 x).1 hx))]
  have hlenLn : Ln.length ≤ 361 := by
    refine cyc_length_le (b := b0) hLn.nodup ?_ hsz
    intro q hq
    exact (inBoard_iff_mem hsz).1 (hLn.members q hq).1
  have hlenB : B.length < VIRTUAL_BOARD_POINTS.toNat := by
    rw [vbp_toNat]
    have := hLperm.length_eq
    simp only [List.length_cons] at this
    omega
  have hnB : n ∉ B := (List.nodup_cons.1 hndL2).1
  have hHA : H ∉ A := (List.nodup_cons.1 hndK2).1
  have hHnotL : H ∉ n :: B := by
    intro hcc
    exact hLnK H ((hmemL2 H).1 hcc) hmid.hmem
  have hHn : H ≠ n := fun hcc => hHnotL (hcc ▸ List.mem_cons_self n B)
  have hdisj : ∀ x, x ∈ H :: A → x ∉ n :: B := by
    intro x hxK hxL
    exact hLnK x ((hmemL2 x).1 hxL) ((hmemK2 x).1 hxK)
  -- the key of the merged-statistics slot
  have hkeyH : s.chain_head H = H := hmid.heads H hmid.hmem
  have hheadn : s.chain_head n = (b0.board n).chain_head := by
    unfold GoBoard.chain_head
    rw [hbn]
  have hchainAtH : s.chainAt H = s.chains H := by
    unfold GoBoard.chainAt
    rw [hkeyH]
  have hchainAtn : s.chainAt n = b0.chains ((b0.board n).chain_head) := by
    unfold GoBoard.chainAt
    rw [hheadn]
    exact hmid.chains_pres _ (by rw [← hheadn]; exact h2)
  -- the state after the merge update of the chain record
  set v1 : Int → Chain := Function.update s.chains H ((s.chains H).merge (b0.chains ((b0.board n).chain_head))) with hv1def
  set b1 : GoBoard := { s with chains := v1 } with hb1def
  have hwalk := relabelAux_walk H n B VIRTUAL_BOARD_POINTS.toNat b1 n
    (cyc_cons.1 hLcyc) hndL2 hnB hlenB
  obtain ⟨hw_board, hw_chains, hw_size, hw_ko, hw_caps, hw_hash⟩ := hwalk
  set b2 := relabelAux H n VIRTUAL_BOARD_POINTS.toNat b1 n with hb2def
  have hb2H : b2.board H = s.board H := by
    rw [hw_board]
    show (if H ∈ n :: B then { b1.board H with chain_head := H } else b1.board H) = s.board H
    rw [if_neg hHnotL]
  have hb2n : b2.board n = { s.board n with chain_head := H } := by
    rw [hw_board]
    show (if n ∈ n :: B then { b1.board n with chain_head := H } else b1.board n)
      = { s.board n with chain_head := H }
    rw [if_pos (List.mem_cons_self n B)]
  have hb2q : ∀ q : Int, q ∈ B → b2.board q = { s.board q with chain_head := H } := by
    intro q hq
    rw [hw_board]
    show (if q ∈ n :: B then { b1.board q with chain_head := H } else b1.board q)
      = { s.board q with chain_head := H }
    rw [if_pos (List.mem_cons_of_mem n hq)]
  have hb2o : ∀ q : Int, q ∉ n :: B → b2.board q = s.board q := by
    intro q hq
    rw [hw_board]
    show (if q ∈ n :: B then { b1.board q with chain_head := H } else b1.board q) = s.board q
    rw [if_neg hq]
  have hb2next : ∀ q : Int, (b2.board q).chain_next = (s.board q).chain_next := by
    intro q
    by_cases hq : q ∈ n :: B
    · rw [hw_board]
      show (if q ∈ n :: B then { b1.board q with chain_next := (b1.board q).chain_next, chain_head := H } else b1.board q).chain_next = _
      rw [if_pos hq]
    · rw [hb2o q hq]
  set sB : Int → Vertex := fun q =>
    if q = n then { s.board n with chain_head := H, chain_next := (s.board H).chain_next }
    else if q = H then { s.board H with chain_next := (s.board n).chain_next }
    else if q ∈ B then { s.board q with chain_head := H }
    else s.board q
    with hsBdef
  set sfin : GoBoard := { s with board := sB, chains := v1 } with hsfindef
  have hms : mergeStep c H s n = sfin := by
    unfold mergeStep
    rw [if_pos h1, if_pos h2]
    dsimp only
    rw [hkeyH, hchainAtH, hchainAtn, ← hv1def, ← hb1def, ← hb2def]
    refine goboard_ext _ _ ?_ ?_ ?_ ?_ ?_ ?_
    · exact hw_size
    · exact hw_ko
    · show Function.update (Function.update b2.board H _) n _ = sB
      funext q
      by_cases hqn : q = n
      · subst hqn
        rw [Function.update_same, hsBdef]
        show _ = (if q = q then ({ s.board q with chain_head := H, chain_next := (s.board H).chain_next } : Vertex) else _)
        rw [if_pos rfl, Function.update_noteq (fun hcc => hHn hcc.symm), hb2n, hb2H]
      · rw [Function.update_noteq hqn]
        by_cases hqH : q = H
        · subst hqH
          rw [Function.update_same, hsBdef]
          show _ = (if q = n then _ else if q = q then ({ s.board q with chain_next := (s.board n).chain_next } : Vertex) else _)
          rw [if_neg hqn, if_pos rfl, hb2H, hb2n]
        · rw [Function.update_noteq hqH, hsBdef]
          show b2.board q = (if q = n then _ else if q = H then _ else if q ∈ B then ({ s.board q with chain_head := H } : Vertex) else s.board q)
          rw [if_neg hqn, if_neg hqH]
          by_cases hqB : q ∈ B
          · rw [if_pos hqB, hb2q q hqB]
          · rw [if_neg hqB, hb2o q (by
              intro hcc
              rcases List.mem_cons.1 hcc with h | h
              · exact hqn h
              · exact hqB h)]
    · exact hw_chains
    · exact hw_caps
    · exact hw_hash
  rw [hms]
  have hsB_next : ∀ q : Int, q ≠ n → q ≠ H → (sB q).chain_next = (s.board q).chain_next := by
    intro q hqn hqH
    rw [hsBdef]
    show (if q = n then _ else if q = H then _ else if q ∈ B then ({ s.board q with chain_head := H } : Vertex) else s.board q).chain_next = _
    rw [if_neg hqn, if_neg hqH]
    by_cases hqB : q ∈ B
    · rw [if_pos hqB]
    · rw [if_neg hqB]
  have hsB_color : ∀ q : Int, (sB q).color = (s.board q).color := by
    intro q
    rw [hsBdef]
    show (if q = n then ({ s.board n with chain_head := H, chain_next := (s.board H).chain_next } : Vertex) else if q = H then ({ s.board H with chain_next := (s.board n).chain_next } : Vertex) else if q ∈ B then ({ s.board q with chain_head := H } : Vertex) else s.board q).color = _
    by_cases hqn : q = n
    · subst hqn
      rw [if_pos rfl]
    · rw [if_neg hqn]
      by_cases hqH : q = H
      · subst hqH
        rw [if_pos rfl]
      · rw [if_neg hqH]
        by_cases hqB : q ∈ B
        · rw [if_pos hqB]
        · rw [if_neg hqB]
  have hsB_head : ∀ q : Int, (sB q).chain_head = (if q ∈ n :: B then H else (s.board q).chain_head) := by
    intro q
    rw [hsBdef]
    show (if q = n then ({ s.board n with chain_head := H, chain_next := (s.board H).chain_next } : Vertex) else if q = H then ({ s.board H with chain_next := (s.board n).chain_next } : Vertex) else if q ∈ B then ({ s.board q with chain_head := H } : Vertex) else s.board q).chain_head = _
    by_cases hqn : q = n
    · subst hqn
      rw [if_pos rfl, if_pos (List.mem_cons_self q B)]
    · rw [if_neg hqn]
      by_cases hqH : q = H
      · subst hqH
        rw [if_pos rfl, if_neg hHnotL]
      · rw [if_neg hqH]
        by_cases hqB : q ∈ B
        · rw [if_pos hqB, if_pos (List.mem_cons_of_mem n hqB)]
        · rw [if_neg hqB, if_neg (by
            intro hcc
            rcases List.mem_cons.1 hcc with h | h
            · exact hqn h
            · exact hqB h)]
  have hfin_cyc : IsCycleList sfin (H :: (B ++ n :: A)) := by
    have hcycK2 : IsCycleList b2 (H :: A) := by
      refine cyc_congr (fun x _ => hb2next x) hKcyc
    have hcycL2 : IsCycleList b2 (n :: B) := by
      refine cyc_congr (fun x _ => hb2next x) hLcyc
    refine splice_cycle hcycK2 hcycL2 hdisj hndK2 hndL2 ?_ ?_ ?_
    · show (sB H).chain_next = (b2.board n).chain_next
      rw [hsBdef]
      show (if H = n then _ else if H = H then ({ s.board H with chain_next := (s.board n).chain_next } : Vertex) else _).chain_next = _
      rw [if_neg hHn, if_pos rfl, hb2n]
    · show (sB n).chain_next = (b2.board H).chain_next
      rw [hsBdef]
      show (if n = n then ({ s.board n with chain_head := H, chain_next := (s.board H).chain_next } : Vertex) else _).chain_next = _
      rw [if_pos rfl, hb2H]
    · intro x hxH hxn
      show (sB x).chain_next = (b2.board x).chain_next
      rw [hsB_next x hxn hxH, hb2next x]
  have hK2nodup : (H :: (B ++ n :: A)).Nodup := by
    rw [List.nodup_cons]
    constructor
    · intro hcc
      rcases List.mem_append.1 hcc with h | h
      · exact hHnotL (List.mem_cons_of_mem n h)
      · rcases List.mem_cons.1 h with h2 | h2
        · exact hHn h2
        · exact hHA h2
    · rw [List.nodup_append]
      refine ⟨(List.nodup_cons.1 hndL2).2, ?_, ?_⟩
      · rw [List.nodup_cons]
        refine ⟨?_, (List.nodup_cons.1 hndK2).2⟩
        intro hcc
        exact hdisj n (List.mem_cons_of_mem H hcc) (List.mem_cons_self n B)
      · intro x hxB hxnA
        rcases List.mem_cons.1 hxnA with h2 | h2
        · subst h2
          exact hnB hxB
        · exact hdisj x (List.mem_cons_of_mem H h2) (List.mem_cons_of_mem n hxB)
  have hmemK2set : ∀ q : Int, q ∈ H :: (B ++ n :: A) ↔ (q ∈ K ∨ q ∈ Ln) := by
    intro q
    constructor
    · intro hq
      rcases List.mem_cons.1 hq with rfl | hq2
      · exact Or.inl hmid.hmem
      · rcases List.mem_append.1 hq2 with h | h
        · exact Or.inr ((hmemL2 q).1 (List.mem_cons_of_mem n h))
        · rcases List.mem_cons.1 h with rfl | h2
          · exact Or.inr ((hmemL2 q).1 (List.mem_cons_self q B))
          · exact Or.inl ((hmemK2 q).1 (List.mem_cons_of_mem H h2))
    · intro hq
      rcases hq with hq | hq
      · rcases List.mem_cons.1 ((hmemK2 q).2 hq) with rfl | h2
        · exact List.mem_cons_self q _
        · exact List.mem_cons_of_mem H (List.mem_append.2 (Or.inr (List.mem_cons_of_mem n h2)))
      · rcases List.mem_cons.1 ((hmemL2 q).2 hq) with rfl | h2
        · exact List.mem_cons_of_mem H (List.mem_append.2 (Or.inr (List.mem_cons_self q A)))
        · exact List.mem_cons_of_mem H (List.mem_append.2 (Or.inl h2))
  refine ⟨H :: (B ++ n :: A), ?_, ?_, ?_⟩
  · refine ⟨hfin_cyc, hK2nodup, List.mem_cons_self H _, ?_, ?_, ?_, ?_, ?_, ?_, ?_, ?_, ?_, ?_, ?_, ?_⟩
    · intro q hq
      show (sB q).color = c
      rw [hsB_color q]
      rcases (hmemK2set q).1 hq with h | h
      · exact hmid.col q h
      · rw [hmid.colors_pres q]
        rw [(hLn.members q h).2.1]
        exact hcol0
    · intro q hq
      show (sB q).chain_head = H
      rw [hsB_head q]
      by_cases hqL : q ∈ n :: B
      · rw [if_pos hqL]
      · rw [if_neg hqL]
        rcases (hmemK2set q).1 hq with h | h
        · exact hmid.heads q h
        · exact absurd ((hmemL2 q).2 h) hqL
    · intro q hq
      rcases (hmemK2set q).1 hq with h | h
      · exact hmid.inboard q h
      · exact (hLn.members q h).1
    · intro q
      show (sB q).color = (b0.board q).color
      rw [hsB_color q]
      exact hmid.colors_pres q
    · exact hmid.size_pres
    · exact hmid.ko_pres
    · exact hmid.caps_pres
    · exact hmid.hash_pres
    · show (v1 H).num_stones = _
      rw [hv1def, Function.update_same]
      unfold Chain.merge
      show (s.chains H).num_stones + (b0.chains ((b0.board n).chain_head)).num_stones = _
      rw [hmid.count, hLn.count]
      have hlk : (H :: A).length = K.length := hKperm.length_eq
      have hll : (n :: B).length = Ln.length := hLperm.length_eq
      simp only [List.length_cons, List.length_append] at hlk hll ⊢
      push_cast
      omega
    · intro q hq
      have hqn : q ≠ n := fun hcc => hq (by
        rw [hcc]
        exact (hmemK2set n).2 (Or.inr hLn.memp))
      have hqH : q ≠ H := fun hcc => hq (by
        rw [hcc]
        exact List.mem_cons_self H _)
      have hqB : q ∉ B := fun hcc =>
        hq (List.mem_cons_of_mem H (List.mem_append.2 (Or.inl hcc)))
      have hqK : q ∉ K := fun hcc => hq ((hmemK2set q).2 (Or.inl hcc))
      show sB q = b0.board q
      rw [hsBdef]
      show (if q = n then _ else if q = H then _ else if q ∈ B then ({ s.board q with chain_head := H } : Vertex) else s.board q) = b0.board q
      rw [if_neg hqn, if_neg hqH, if_neg hqB]
      exact hmid.untouched q hqK
    · intro h2x hh2
      show v1 h2x = b0.chains h2x
      rw [hv1def, Function.update_noteq hh2]
      exact hmid.chains_pres h2x hh2
    · intro q hq L2 hL2 r hr
      rcases (hmemK2set q).1 hq with h | h
      · exact (hmemK2set r).2 (Or.inl (hmid.orig_closed q h L2 hL2 r hr))
      · have hqLn : StoneChain b0 q Ln := StoneChain_transfer hLn h
        have hsame := cyc_same_set hL2.cyc hqLn.cyc hL2.memp hqLn.memp
        exact (hmemK2set r).2 (Or.inr ((hsame r).1 hr))
  · intro q hq
    exact (hmemK2set q).2 (Or.inl hq)
  · intro _
    exact (hmemK2set n).2 (Or.inr hLn.memp)

theorem mergeFold_spec (b0 : GoBoard) (c : Color) (H : Int) (hc : IsStone c)
    (hstone : ∀ q : Int, IsStone (b0.board q).color → ∃ L, StoneChain b0 q L)
    (hsz : b0.board_size ≤ 19) :
    ∀ (l : List Int) (s : GoBoard) (K : List Int), MergeMid b0 c H s K →
    ∃ K2, MergeMid b0 c H (l.foldl (mergeStep c H) s) K2 ∧
      (∀ q ∈ K, q ∈ K2) ∧ (∀ n ∈ l, (b0.board n).color = c → n ∈ K2) := by
  intro l
  induction l with
  | nil =>
    intro s K hmid
    exact ⟨K, hmid, fun q hq => hq, fun n hn => absurd hn (List.not_mem_nil n)⟩
  | cons n ns ih =>
    intro s K hmid
    obtain ⟨K1, hmid1, hsub1, hn1⟩ := mergeStep_spec b0 c H hc hstone hsz s K hmid n
    obtain ⟨K2, hmid2, hsub2, hns2⟩ := ih (mergeStep c H s n) K1 hmid1
    rw [List.foldl_cons]
    refine ⟨K2, hmid2, fun q hq => hsub2 q (hsub1 q hq), ?_⟩
    intro m hm hcolm
    rcases List.mem_cons.1 hm with rfl | hm2
    · exact hsub2 m (hn1 hcolm)
    · exact hns2 m hm2 hcolm

theorem addLibs_num_stones (ch : Chain) (l : List Int) :
    (addLibs ch l).num_stones = ch.num_stones := by
  obtain ⟨s, k, a, e⟩ := ch
  rw [addLibs_eval]

theorem foldl_joinLibStep_eval (H : Int) : ∀ (l : List Int) (b : GoBoard),
    (l.foldl (joinLibStep H) b).board = b.board ∧
    (l.foldl (joinLibStep H) b).board_size = b.board_size ∧
    (l.foldl (joinLibStep H) b).last_ko_point = b.last_ko_point ∧
    (l.foldl (joinLibStep H) b).last_captures = b.last_captures ∧
    (l.foldl (joinLibStep H) b).zobrist_hash = b.zobrist_hash ∧
    (l.foldl (joinLibStep H) b).chains = Function.update b.chains (b.chain_head H)
      (addLibs (b.chains (b.chain_head H)) (l.filter fun n => b.is_empty n)) := by
  intro l
  induction l with
  | nil =>
    intro b
    refine ⟨rfl, rfl, rfl, rfl, rfl, ?_⟩
    funext q
    by_cases hq : q = b.chain_head H
    · subst hq
      rw [Function.update_same]
      rfl
    · rw [Function.update_noteq hq]
      rfl
  | cons n ns ih =>
    intro b
    rw [List.foldl_cons]
    obtain ⟨ihb, ih1, ih2, ih3, ih4, ihc⟩ := ih (joinLibStep H b n)
    have hsb : (joinLibStep H b n).board = b.board := by
      unfold joinLibStep
      by_cases hc : b.is_empty n = true
      · rw [if_pos hc]
      · rw [if_neg hc]
    have hshead : (joinLibStep H b n).chain_head = b.chain_head := by
      funext q
      unfold GoBoard.chain_head
      rw [hsb]
    have hsemp : (joinLibStep H b n).is_empty = b.is_empty := by
      funext q
      unfold GoBoard.is_empty GoBoard.point_color
      rw [hsb]
    have hss : (joinLibStep H b n).board_size = b.board_size ∧
        (joinLibStep H b n).last_ko_point = b.last_ko_point ∧
        (joinLibStep H b n).last_captures = b.last_captures ∧
        (joinLibStep H b n).zobrist_hash = b.zobrist_hash := by
      unfold joinLibStep
      by_cases hc : b.is_empty n = true
      · rw [if_pos hc]
        exact ⟨rfl, rfl, rfl, rfl⟩
      · rw [if_neg hc]
        exact ⟨rfl, rfl, rfl, rfl⟩
    refine ⟨ihb.trans hsb, ih1.trans hss.1, ih2.trans hss.2.1, ih3.trans hss.2.2.1,
      ih4.trans hss.2.2.2, ?_⟩
    rw [ihc]
    simp only [hshead, hsemp]
    have hstepc : (joinLibStep H b n).chains =
        if b.is_empty n = true then
          Function.update b.chains (b.chain_head H) ((b.chainAt H).add_liberty n)
        else b.chains := by
      unfold joinLibStep
      by_cases hc : b.is_empty n = true
      · rw [if_pos hc, if_pos hc]
      · rw [if_neg hc, if_neg hc]
    rw [hstepc, List.filter_cons]
    by_cases hc : b.is_empty n = true
    · rw [if_pos hc, if_pos hc]
      funext q
      by_cases hq : q = b.chain_head H
      · subst hq
        rw [Function.update_same, Function.update_same, Function.update_same]
        show addLibs ((b.chainAt H).add_liberty n) _ = _
        unfold GoBoard.chainAt
        rfl
      · rw [Function.update_noteq hq, Function.update_noteq hq, Function.update_noteq hq]
    · rw [if_neg hc, if_neg hc]

theorem spliceInsert_eval (s : GoBoard) (p H : Int) (hHp : H ≠ p) :
    (spliceInsert s p H).board_size = s.board_size ∧
    (spliceInsert s p H).last_ko_point = s.last_ko_point ∧
    (spliceInsert s p H).last_captures = s.last_captures ∧
    (spliceInsert s p H).zobrist_hash = s.zobrist_hash ∧
    (spliceInsert s p H).board p = { s.board p with chain_head := H, chain_next := (s.board H).chain_next } ∧
    (spliceInsert s p H).board H = { s.board H with chain_next := p } ∧
    (∀ q : Int, q ≠ p → q ≠ H → (spliceInsert s p H).board q = s.board q) ∧
    (spliceInsert s p H).chains = Function.update s.chains ((s.board H).chain_head)
      { s.chains ((s.board H).chain_head) with num_stones := (s.chains ((s.board H).chain_head)).num_stones + 1 } := by
  have hpH : p ≠ H := fun h => hHp h.symm
  refine ⟨rfl, rfl, rfl, rfl, ?_, ?_, ?_, ?_⟩
  · show (Function.update (Function.update (Function.update s.board p
        ({ s.board p with chain_next := (s.board H).chain_next })) H _) p _) p = _
    rw [Function.update_same]
    show { (Function.update (Function.update s.board p
        ({ s.board p with chain_next := (s.board H).chain_next })) H _) p
        with chain_head := H } = _
    rw [Function.update_noteq hpH, Function.update_same]
  · show (Function.update (Function.update (Function.update s.board p
        ({ s.board p with chain_next := (s.board H).chain_next })) H _) p _) H = _
    rw [Function.update_noteq hHp, Function.update_same]
    show { (Function.update s.board p _) H with chain_next := p } = _
    rw [Function.update_noteq hHp]
  · intro q hqp hqH
    show (Function.update (Function.update (Function.update s.board p
        ({ s.board p with chain_next := (s.board H).chain_next })) H _) p _) q = _
    rw [Function.update_noteq hqp, Function.update_noteq hqH, Function.update_noteq hqp]
  · have hbH : (spliceInsert s p H).board H = { s.board H with chain_next := p } := by
      show (Function.update (Function.update (Function.update s.board p
          ({ s.board p with chain_next := (s.board H).chain_next })) H _) p _) H = _
      rw [Function.update_noteq hHp, Function.update_same]
      show { (Function.update s.board p _) H with chain_next := p } = _
      rw [Function.update_noteq hHp]
    show Function.update s.chains ((spliceInsert s p H).board H).chain_head _ = _
    rw [hbH]
    show Function.update s.chains (s.board H).chain_head
      { s.chains ((spliceInsert s p H).board H).chain_head with
        num_stones := (s.chains ((spliceInsert s p H).board H).chain_head).num_stones + 1 } = _
    rw [hbH]

theorem joinMergePart_spec (b0 : GoBoard) (p : Int) (c : Color) (H : Int) (hc : IsStone c)
    (hstone : ∀ q : Int, IsStone (b0.board q).color → ∃ L, StoneChain b0 q L)
    (hsz : b0.board_size ≤ 19)
    (hpempty : (b0.board p).color = Color.empty)
    (hpnext : (b0.board p).chain_next = p)
    (K : List Int) (hmid : MergeMid b0 c H b0 K) :
    ∃ M, JoinSpec b0 p c (joinMergePart b0 p c H) H M := by
  obtain ⟨Kf, hmidf, hsubK, hnbrsK⟩ :=
    mergeFold_spec b0 c H hc hstone hsz (neighbours p) b0 K hmid
  have hcne : c ≠ Color.empty := by
    rcases hc with h | h
    · subst h; intro hx; exact Color.noConfusion hx
    · subst h; intro hx; exact Color.noConfusion hx
  set sm := (neighbours p).foldl (mergeStep c H) b0 with hsm
  have hpK : p ∉ Kf := fun hp =>
    hcne ((hmidf.col p hp).symm.trans ((hmidf.colors_pres p).trans hpempty))
  have hHK : H ∈ Kf := hmidf.hmem
  have hHp : H ≠ p := fun h => hpK (h ▸ hHK)
  obtain ⟨Af, hcycA, hpermA⟩ := cyc_rotate_at hmidf.cyc hHK
  have hndA : (H :: Af).Nodup := hpermA.nodup_iff.2 hmidf.nodup
  have hsmp : sm.board p = b0.board p := hmidf.untouched p hpK
  have hheadH : (sm.board H).chain_head = H := hmidf.heads H hHK
  obtain ⟨he1, he2, he3, he4, hbp, hbH, hbo, hch⟩ := spliceInsert_eval sm p H hHp
  set si := spliceInsert sm p H with hsi
  have hjoin : joinMergePart b0 p c H = (neighbours p).foldl (joinLibStep H) si := rfl
  obtain ⟨hfb, hf1, hf2, hf3, hf4, hfc⟩ := foldl_joinLibStep_eval H (neighbours p) si
  set bj := (neighbours p).foldl (joinLibStep H) si with hbj
  -- membership bookkeeping between Kf, H :: Af and the final cycle
  have hpAf : p ∉ Af := fun hp => hpK (hpermA.mem_iff.1 (List.mem_cons_of_mem H hp))
  obtain ⟨hHAf, hndAf⟩ := List.nodup_cons.1 hndA
  have hndM : (H :: p :: Af).Nodup := by
    refine List.nodup_cons.2 ⟨?_, List.nodup_cons.2 ⟨hpAf, hndAf⟩⟩
    intro hmem
    rcases List.mem_cons.1 hmem with h | h
    · exact hHp h
    · exact hHAf h
  have hMtoKf : ∀ q ∈ H :: p :: Af, q ≠ p → q ∈ Kf := by
    intro q hq hqp
    rcases List.mem_cons.1 hq with rfl | hq2
    · exact hHK
    · rcases List.mem_cons.1 hq2 with rfl | hq3
      · exact absurd rfl hqp
      · exact hpermA.mem_iff.1 (List.mem_cons_of_mem H hq3)
  have hKftoM : ∀ q ∈ Kf, q ∈ H :: p :: Af := by
    intro q hq
    rcases List.mem_cons.1 (hpermA.mem_iff.2 hq) with rfl | hq2
    · exact List.mem_cons_self _ _
    · exact List.mem_cons_of_mem H (List.mem_cons_of_mem p hq2)
  -- final board values
  have hbjp : bj.board p = { sm.board p with chain_head := H, chain_next := (sm.board H).chain_next } := by
    rw [hfb]; exact hbp
  have hbjH : bj.board H = { sm.board H with chain_next := p } := by
    rw [hfb]; exact hbH
  have hbjo : ∀ q : Int, q ≠ p → q ≠ H → bj.board q = sm.board q := by
    intro q h1 h2; rw [hfb]; exact hbo q h1 h2
  -- the spliced cycle
  have hLp : IsCycleList sm [p] := by
    rw [cyc_cons]
    simp only [List.nil_append]
    rw [List.chain_singleton]
    show (sm.board p).chain_next = p
    rw [hsmp]; exact hpnext
  have hcycM : IsCycleList bj (H :: p :: Af) := by
    have h0 : IsCycleList bj (H :: ([] ++ p :: Af)) := by
      refine splice_cycle hcycA hLp ?_ hndA (List.nodup_singleton p) ?_ ?_ ?_
      · intro x hx hxp
        rw [List.mem_singleton] at hxp
        exact hpK (hxp ▸ hpermA.mem_iff.1 hx)
      · rw [hbjH]
        show p = (sm.board p).chain_next
        rw [hsmp, hpnext]
      · rw [hbjp]
      · intro x hx1 hx2
        rw [hbjo x hx2 hx1]
    simpa using h0
  -- chains of the final state
  have hsiH : si.chain_head H = H := by
    show (si.board H).chain_head = H
    rw [hbH]
    exact hheadH
  have hsic : si.chains = Function.update sm.chains H
      { sm.chains H with num_stones := (sm.chains H).num_stones + 1 } := by
    rw [hch, hheadH]
  have hbjcH : (bj.chains H).num_stones = (sm.chains H).num_stones + 1 := by
    rw [hfc, hsiH, Function.update_same, addLibs_num_stones, hsic, Function.update_same]
  have hbjco : ∀ h2 : Int, h2 ≠ H → bj.chains h2 = b0.chains h2 := by
    intro h2 hh2
    rw [hfc, hsiH, Function.update_noteq hh2, hsic, Function.update_noteq hh2]
    exact hmidf.chains_pres h2 hh2
  refine ⟨H :: p :: Af, ?_⟩
  rw [hjoin]
  refine ⟨hcycM, hndM, List.mem_cons_of_mem H (List.mem_cons_self p Af),
    List.mem_cons_self _ _, ?_, ?_, ?_, ?_, ?_, ?_, ?_, ?_, ?_, ?_, ?_, ?_, ?_⟩
  · -- heads
    intro q hq
    by_cases hqp : q = p
    · subst hqp
      rw [hbjp]
    · by_cases hqH : q = H
      · subst hqH
        rw [hbjH]
        exact hheadH
      · rw [hbjo q hqp hqH]
        exact hmidf.heads q (hMtoKf q hq hqp)
  · -- col
    intro q hq hqp
    rw [← hmidf.colors_pres q]
    exact hmidf.col q (hMtoKf q hq hqp)
  · -- inboard
    intro q hq hqp
    exact hmidf.inboard q (hMtoKf q hq hqp)
  · -- colors_pres
    intro q
    by_cases hqp : q = p
    · subst hqp
      rw [hbjp]
      show (sm.board q).color = _
      exact hmidf.colors_pres q
    · by_cases hqH : q = H
      · subst hqH
        rw [hbjH]
        show (sm.board q).color = _
        exact hmidf.colors_pres q
      · rw [hbjo q hqp hqH]
        exact hmidf.colors_pres q
  · exact hf1.trans (he1.trans hmidf.size_pres)
  · exact hf2.trans (he2.trans hmidf.ko_pres)
  · exact hf3.trans (he3.trans hmidf.caps_pres)
  · exact hf4.trans (he4.trans hmidf.hash_pres)
  · -- count
    rw [hbjcH, hmidf.count]
    have hlen : Kf.length = Af.length + 1 := by
      rw [← hpermA.length_eq]
      rfl
    rw [hlen]
    simp only [List.length_cons]
    push_cast
    ring
  · -- untouched
    intro q hq
    have hqp : q ≠ p := fun h => hq (by rw [h]; exact List.mem_cons_of_mem H (List.mem_cons_self p Af))
    have hqH : q ≠ H := fun h => hq (by rw [h]; exact List.mem_cons_self _ _)
    have hqK : q ∉ Kf := fun h => hq (hKftoM q h)
    rw [hbjo q hqp hqH]
    exact hmidf.untouched q hqK
  · exact hbjco
  · -- nbrs_mem
    intro n hn hcol
    exact hKftoM n (hnbrsK n hn hcol)
  · -- orig_closed
    intro q hq hqp L2 hL2 r hr
    exact hKftoM r (hmidf.orig_closed q (hMtoKf q hq hqp) L2 hL2 r hr)

theorem join_spec (b0 : GoBoard) (p : Int) (c : Color) (hc : IsStone c)
    (hstone : ∀ q : Int, IsStone (b0.board q).color → ∃ L, StoneChain b0 q L)
    (hsz : b0.board_size ≤ 19)
    (hpempty : (b0.board p).color = Color.empty)
    (hpnext : (b0.board p).chain_next = p) :
    ∃ H M, JoinSpec b0 p c (b0.join_chains_around p c) H M := by
  obtain ⟨hsel1, hsel2, hsel3⟩ := selFold_spec b0 c (neighbours p) (INVALID_POINT, 0)
  by_cases hz : ((neighbours p).foldl (selStep b0 c) (INVALID_POINT, 0)).2 = 0
  · -- no same-colored neighbour: the init branch
    have hno : ∀ n ∈ neighbours p, (b0.board n).color ≠ c := by
      intro n hn hcol
      have hstn : IsStone (b0.board n).color := by rw [hcol]; exact hc
      obtain ⟨L, hL⟩ := hstone n hstn
      have h1 : (b0.chainAt n).num_stones ≤ 0 := by
        have h := hsel3 n hn (show b0.point_color n = c from hcol)
        rw [hz] at h
        exact h
      have h2 : (b0.chainAt n).num_stones = (L.length : Int) := hL.count
      have h3 : 0 < L.length := List.length_pos.2 (List.ne_nil_of_mem hL.memp)
      rw [h2] at h1
      omega
    have hbr : b0.join_chains_around p c = b0.init_new_chain p := by
      simp only [GoBoard.join_chains_around]
      rw [if_pos hz]
    rw [hbr]
    obtain ⟨hbd, hch, hs1, hs2, hs3, hs4⟩ := init_new_chain_eval b0 p
    have hbp : (b0.init_new_chain p).board p = ⟨p, p, (b0.board p).color⟩ := by
      rw [hbd, Function.update_same]
    have hbq : ∀ q : Int, q ≠ p → (b0.init_new_chain p).board q = b0.board q := by
      intro q hq
      rw [hbd, Function.update_noteq hq]
    refine ⟨p, [p], ?_, List.nodup_singleton p, List.mem_singleton_self p,
      List.mem_singleton_self p, ?_, ?_, ?_, ?_, hs1, hs2, hs3, hs4, ?_, ?_, ?_, ?_, ?_⟩
    · rw [cyc_cons]
      simp only [List.nil_append]
      rw [List.chain_singleton]
      show ((b0.init_new_chain p).board p).chain_next = p
      rw [hbp]
    · intro q hq
      rw [List.mem_singleton] at hq
      subst hq
      rw [hbp]
    · intro q hq hqp
      rw [List.mem_singleton] at hq
      exact absurd hq hqp
    · intro q hq hqp
      rw [List.mem_singleton] at hq
      exact absurd hq hqp
    · intro q
      by_cases hq : q = p
      · subst hq
        rw [hbp]
      · rw [hbq q hq]
    · rw [hch, Function.update_same, addLibs_num_stones]
      rfl
    · intro q hq
      rw [List.mem_singleton] at hq
      exact hbq q hq
    · intro h2 hh2
      rw [hch, Function.update_noteq hh2]
    · intro n hn hcol
      exact absurd hcol (hno n hn)
    · intro q hq hqp
      rw [List.mem_singleton] at hq
      exact absurd hq hqp
  · -- a largest neighbouring chain exists: the merge branch
    rcases hsel1 with heq | ⟨n0, hn0, hcol0, hh1, hh2⟩
    · exact absurd (by rw [heq]) hz
    · have hbr : b0.join_chains_around p c =
          joinMergePart b0 p c ((neighbours p).foldl (selStep b0 c) (INVALID_POINT, 0)).1 := by
        simp only [GoBoard.join_chains_around]
        rw [if_neg hz]
      rw [hbr, hh1]
      have hcol0' : (b0.board n0).color = c := hcol0
      have hstn : IsStone (b0.board n0).color := by rw [hcol0']; exact hc
      obtain ⟨L0, hL0⟩ := hstone n0 hstn
      have hHL0 : b0.chain_head n0 ∈ L0 := hL0.head_mem
      obtain ⟨A0, hcyc0, hperm0⟩ := cyc_rotate_at hL0.cyc hHL0
      have hmid0 : MergeMid b0 c (b0.chain_head n0) b0 (b0.chain_head n0 :: A0) := by
        refine ⟨hcyc0, hperm0.nodup_iff.2 hL0.nodup, List.mem_cons_self _ _, ?_, ?_, ?_,
          fun q => rfl, rfl, rfl, rfl, rfl, ?_, fun q _ => rfl, fun h2 _ => rfl, ?_⟩
        · intro q hq
          exact ((hL0.members q (hperm0.mem_iff.1 hq)).2.1).trans hcol0'
        · intro q hq
          exact (hL0.members q (hperm0.mem_iff.1 hq)).2.2
        · intro q hq
          exact (hL0.members q (hperm0.mem_iff.1 hq)).1
        · show (b0.chains ((b0.board n0).chain_head)).num_stones = _
          rw [hL0.count, hperm0.length_eq]
        · intro q hq L2 hL2 r hr
          have hqL0 : q ∈ L0 := hperm0.mem_iff.1 hq
          have hsc : StoneChain b0 q L0 := StoneChain_transfer hL0 hqL0
          have hiff := cyc_same_set hL2.cyc hsc.cyc hL2.memp hsc.memp
          exact hperm0.mem_iff.2 ((hiff r).1 hr)
      obtain ⟨M, hM⟩ := joinMergePart_spec b0 p c (b0.chain_head n0) hc hstone hsz
        hpempty hpnext (b0.chain_head n0 :: A0) hmid0
      exact ⟨b0.chain_head n0, M, hM⟩

theorem xor_foldl_shift (f : Nat → Nat) :
    ∀ (l : List Nat) (a : Nat),
    l.foldl (fun h i => h ^^^ f i) a = a ^^^ l.foldl (fun h i => h ^^^ f i) 0 := by
  intro l
  induction l with
  | nil => intro a; rw [List.foldl_nil, List.foldl_nil, Nat.xor_zero]
  | cons x xs ih =>
    intro a
    rw [List.foldl_cons, List.foldl_cons, ih (a ^^^ f x), ih (0 ^^^ f x),
      Nat.zero_xor, Nat.xor_assoc]

theorem xor_foldl_congr (f g : Nat → Nat) :
    ∀ (l : List Nat), (∀ i ∈ l, f i = g i) →
    l.foldl (fun h i => h ^^^ f i) 0 = l.foldl (fun h i => h ^^^ g i) 0 := by
  intro l
  induction l with
  | nil => intro _; rfl
  | cons x xs ih =>
    intro h
    rw [List.foldl_cons, List.foldl_cons, h x (List.mem_cons_self x xs),
      xor_foldl_shift f, xor_foldl_shift g, ih fun i hi => h i (List.mem_cons_of_mem x hi)]

theorem xor_foldl_update (f g : Nat → Nat) (q : Nat) :
    ∀ (l : List Nat), l.Nodup → q ∈ l → (∀ i ∈ l, i ≠ q → f i = g i) →
    l.foldl (fun h i => h ^^^ g i) 0 =
      ((l.foldl (fun h i => h ^^^ f i) 0) ^^^ f q) ^^^ g q := by
  intro l hnd hq hfg
  obtain ⟨l1, l2, rfl⟩ := List.append_of_mem hq
  have hnd' := hnd
  rw [List.nodup_append] at hnd'
  obtain ⟨hnd1, hnd2, hdisj⟩ := hnd'
  have hq1 : q ∉ l1 := fun h => hdisj h (List.mem_cons_self q l2)
  have hq2 : q ∉ l2 := fun h => (List.nodup_cons.1 hnd2).1 h
  have hA : l1.foldl (fun h i => h ^^^ f i) 0 = l1.foldl (fun h i => h ^^^ g i) 0 :=
    xor_foldl_congr f g l1 fun i hi =>
      hfg i (List.mem_append.2 (Or.inl hi)) (fun he => hq1 (he ▸ hi))
  have hB : l2.foldl (fun h i => h ^^^ f i) 0 = l2.foldl (fun h i => h ^^^ g i) 0 :=
    xor_foldl_congr f g l2 fun i hi =>
      hfg i (List.mem_append.2 (Or.inr (List.mem_cons_of_mem q hi)))
        (fun he => hq2 (he ▸ hi))
  set A := l1.foldl (fun h i => h ^^^ f i) 0 with hAdef
  set B := l2.foldl (fun h i => h ^^^ f i) 0 with hBdef
  rw [List.foldl_append, List.foldl_append, List.foldl_cons, List.foldl_cons,
    ← hA, xor_foldl_shift g l2, ← hB, xor_foldl_shift f l2]
  calc (A ^^^ g q) ^^^ B
      = A ^^^ (g q ^^^ B) := Nat.xor_assoc A (g q) B
    _ = A ^^^ (B ^^^ g q) := by rw [Nat.xor_comm (g q) B]
    _ = (A ^^^ B) ^^^ g q := (Nat.xor_assoc A B (g q)).symm
    _ = ((A ^^^ (f q ^^^ f q)) ^^^ B) ^^^ g q := by rw [Nat.xor_self, Nat.xor_zero]
    _ = (((A ^^^ f q) ^^^ f q) ^^^ B) ^^^ g q := by rw [Nat.xor_assoc A (f q) (f q)]
    _ = ((A ^^^ f q) ^^^ (f q ^^^ B)) ^^^ g q := by rw [Nat.xor_assoc (A ^^^ f q) (f q) B]
    _ = ((A ^^^ f q) ^^^ (B ^^^ f q)) ^^^ g q := by rw [Nat.xor_comm (f q) B]
    _ = (((A ^^^ f q) ^^^ B) ^^^ f q) ^^^ g q := by rw [Nat.xor_assoc (A ^^^ f q) B (f q)]

set_option maxRecDepth 2000 in
theorem stoneHash_as_xor (zob : Int → Color → Nat) (b : GoBoard) :
    stoneHash zob b = (List.range 441).foldl (fun h i => h ^^^ contrib zob b (i : Int)) 0 := by
  unfold stoneHash
  congr 1
  funext h i
  unfold contrib
  by_cases hb : (b.board (i : Int)).color = Color.black
  · rw [if_pos hb, if_pos hb]
  · rw [if_neg hb, if_neg hb]
    by_cases hw : (b.board (i : Int)).color = Color.white
    · rw [if_pos hw, if_pos hw]
    · rw [if_neg hw, if_neg hw, Nat.xor_zero]

set_option maxRecDepth 4000 in
theorem stoneHash_congr (zob : Int → Color → Nat) {b b2 : GoBoard}
    (h : ∀ i : Int, (b2.board i).color = (b.board i).color) :
    stoneHash zob b2 = stoneHash zob b := by
  refine (stoneHash_as_xor zob b2).trans (Eq.trans ?_ (stoneHash_as_xor zob b).symm)
  refine xor_foldl_congr (fun i => contrib zob b2 (i : Int)) (fun i => contrib zob b (i : Int))
    (List.range 441) ?_
  intro i _
  show contrib zob b2 (i : Int) = contrib zob b (i : Int)
  unfold contrib
  rw [h (i : Int)]

set_option maxRecDepth 4000 in
theorem stoneHash_update (zob : Int → Color → Nat) (b b2 : GoBoard) (q : Nat) (hq : q < 441)
    (hcol : ∀ i : Nat, i ≠ q → (b2.board (i : Int)).color = (b.board (i : Int)).color) :
    stoneHash zob b2 =
      (stoneHash zob b ^^^ contrib zob b (q : Int)) ^^^ contrib zob b2 (q : Int) := by
  have h1 := stoneHash_as_xor zob b2
  have h2 := stoneHash_as_xor zob b
  rw [h1, h2]
  refine xor_foldl_update (fun i => contrib zob b (i : Int)) (fun i => contrib zob b2 (i : Int))
    q (List.range 441) (List.nodup_range 441) (List.mem_range.2 hq) ?_
  intro i _ hiq
  show contrib zob b (i : Int) = contrib zob b2 (i : Int)
  unfold contrib
  rw [hcol i hiq]

theorem set_stone_hash_ok (zob : Int → Color → Nat) (b : GoBoard) (p : Int) (c : Color)
    (hp0 : 0 ≤ p) (hp1 : p < 441)
    (hok : b.zobrist_hash = stoneHash zob b)
    (hcase : ((b.board p).color = Color.empty ∧ IsStone c) ∨
             (IsStone (b.board p).color ∧ c = Color.empty)) :
    (b.set_stone zob p c).zobrist_hash = stoneHash zob (b.set_stone zob p c) := by
  obtain ⟨hb, hchains, _, _, _, hh⟩ := set_stone_eval b zob p c
  set b2 := b.set_stone zob p c with hb2
  have hq : p.toNat < 441 := by omega
  have hcast : ((p.toNat : Nat) : Int) = p := Int.toNat_of_nonneg hp0
  have hcol : ∀ i : Nat, i ≠ p.toNat → (b2.board (i : Int)).color = (b.board (i : Int)).color := by
    intro i hi
    rw [hb, Function.update_noteq]
    intro he
    exact hi (by omega)
  have hupd := stoneHash_update zob b b2 p.toNat hq hcol
  rw [hcast] at hupd
  have hnew : (b2.board p).color = c := by rw [hb, Function.update_same]
  rcases hcase with ⟨hemp, hst⟩ | ⟨hst, hcemp⟩
  · have hc1 : contrib zob b p = 0 := by
      unfold contrib
      rw [hemp]
      rfl
    have hc2 : contrib zob b2 p = zob p c := by
      unfold contrib
      rw [hnew]
      rcases hst with rfl | rfl
      · rfl
      · rfl
    have hcne : ¬ c = Color.empty := by
      rcases hst with rfl | rfl
      · exact fun h => Color.noConfusion h
      · exact fun h => Color.noConfusion h
    rw [hupd, hc1, hc2, Nat.xor_zero, hh, if_neg hcne, hok]
  · have hc2 : contrib zob b2 p = 0 := by
      unfold contrib
      rw [hnew, hcemp]
      rfl
    have hc1 : contrib zob b p = zob p (b.point_color p) := by
      unfold contrib GoBoard.point_color
      rcases hst with h | h
      · rw [h, if_pos rfl]
      · rw [h, if_neg (fun hx => Color.noConfusion hx), if_pos rfl]
    rw [hupd, hc2, Nat.xor_zero, hc1, hh, if_pos hcemp, hok]

theorem foldl_grantLibStep_eval (T cur : Int) : ∀ (l : List Int) (b : GoBoard),
    (l.foldl (grantLibStep T cur) b).board = b.board ∧
    (l.foldl (grantLibStep T cur) b).board_size = b.board_size ∧
    (l.foldl (grantLibStep T cur) b).last_ko_point = b.last_ko_point ∧
    (l.foldl (grantLibStep T cur) b).last_captures = b.last_captures ∧
    (l.foldl (grantLibStep T cur) b).zobrist_hash = b.zobrist_hash ∧
    ∀ h : Int, (l.foldl (grantLibStep T cur) b).chains h =
      { num_stones := (b.chains h).num_stones,
        num_pseudo_liberties := (b.chains h).num_pseudo_liberties
          + ((l.filter fun n => b.chain_head n = h ∧ (b.chain_head n ≠ T ∨ b.is_empty n)).length : Int),
        liberty_vertex_sum := (b.chains h).liberty_vertex_sum
          + ((l.filter fun n => b.chain_head n = h ∧ (b.chain_head n ≠ T ∨ b.is_empty n)).length : Int) * cur,
        liberty_vertex_sum_squared := (b.chains h).liberty_vertex_sum_squared
          + ((l.filter fun n => b.chain_head n = h ∧ (b.chain_head n ≠ T ∨ b.is_empty n)).length : Int) * (cur * cur) } := by
  intro l
  induction l with
  | nil =>
    intro b
    refine ⟨rfl, rfl, rfl, rfl, rfl, fun h => ?_⟩
    simp
  | cons n ns ih =>
    intro b
    rw [List.foldl_cons]
    obtain ⟨ihb, ih1, ih2, ih3, ih4, ihc⟩ := ih (grantLibStep T cur b n)
    have hb : (grantLibStep T cur b n).board = b.board := by
      unfold grantLibStep
      by_cases hc : b.chain_head n ≠ T ∨ b.is_empty n = true
      · rw [if_pos hc]
      · rw [if_neg hc]
    have hsc : (grantLibStep T cur b n).board_size = b.board_size ∧
        (grantLibStep T cur b n).last_ko_point = b.last_ko_point ∧
        (grantLibStep T cur b n).last_captures = b.last_captures ∧
        (grantLibStep T cur b n).zobrist_hash = b.zobrist_hash := by
      unfold grantLibStep
      by_cases hc : b.chain_head n ≠ T ∨ b.is_empty n = true
      · rw [if_pos hc]; exact ⟨rfl, rfl, rfl, rfl⟩
      · rw [if_neg hc]; exact ⟨rfl, rfl, rfl, rfl⟩
    have hhead : (grantLibStep T cur b n).chain_head = b.chain_head := by
      funext q
      unfold GoBoard.chain_head
      rw [hb]
    have hemp : (grantLibStep T cur b n).is_empty = b.is_empty := by
      funext q
      unfold GoBoard.is_empty GoBoard.point_color
      rw [hb]
    refine ⟨ihb.trans hb, ih1.trans hsc.1, ih2.trans hsc.2.1, ih3.trans hsc.2.2.1,
      ih4.trans hsc.2.2.2, fun h => ?_⟩
    rw [ihc h]
    simp only [hhead, hemp]
    have hch : (grantLibStep T cur b n).chains h =
        if b.chain_head n = h ∧ (b.chain_head n ≠ T ∨ b.is_empty n = true)
        then (b.chains h).add_liberty cur else b.chains h := by
      unfold grantLibStep GoBoard.chainAt
      by_cases hc : b.chain_head n ≠ T ∨ b.is_empty n = true
      · rw [if_pos hc]
        by_cases hh : b.chain_head n = h
        · rw [if_pos ⟨hh, hc⟩]
          show Function.update b.chains (b.chain_head n) _ h = _
          rw [hh, Function.update_same]
        · rw [if_neg (fun hx => hh hx.1)]
          show Function.update b.chains (b.chain_head n) _ h = _
          rw [Function.update_noteq (fun hx => hh hx.symm)]
      · rw [if_neg hc, if_neg (fun hx => hc hx.2)]
    rw [hch, List.filter_cons]
    by_cases hcond : b.chain_head n = h ∧ (b.chain_head n ≠ T ∨ b.is_empty n = true)
    · rw [if_pos hcond, if_pos (by simpa using hcond), List.length_cons]
      unfold Chain.add_liberty
      simp only [Chain.mk.injEq]
      refine ⟨trivial, ?_, ?_, ?_⟩ <;> push_cast <;> ring
    · rw [if_neg hcond, if_neg (by simpa using hcond)]

theorem removePointStep_board (zob : Int → Color → Nat) (thisHead : Int) (b : GoBoard)
    (cur : Int) :
    (∀ q : Int, q ≠ cur → (removePointStep zob thisHead b cur).board q = b.board q) ∧
    (removePointStep zob thisHead b cur).board cur = ⟨cur, cur, Color.empty⟩ ∧
    (removePointStep zob thisHead b cur).board_size = b.board_size ∧
    (removePointStep zob thisHead b cur).last_ko_point = b.last_ko_point ∧
    (removePointStep zob thisHead b cur).last_captures = b.last_captures := by
  obtain ⟨hsb, hsc, hs1, hs2, hs3, _⟩ := set_stone_eval b zob cur Color.empty
  obtain ⟨hib, hic, hi1, hi2, hi3, _⟩ := init_new_chain_eval (b.set_stone zob cur Color.empty) cur
  obtain ⟨hgb, hg1, hg2, hg3, _, hgc⟩ :=
    foldl_grantLibStep_eval thisHead cur (neighbours cur)
      ((b.set_stone zob cur Color.empty).init_new_chain cur)
  refine ⟨?_, ?_, ?_, ?_, ?_⟩
  · intro q hq
    show (removePointStep zob thisHead b cur).board q = _
    unfold removePointStep
    rw [hgb, hib, Function.update_noteq hq, hsb, Function.update_noteq hq]
  · show (removePointStep zob thisHead b cur).board cur = _
    unfold removePointStep
    rw [hgb, hib, Function.update_same]
    have : ((b.set_stone zob cur Color.empty).board cur).color = Color.empty := by
      rw [hsb, Function.update_same]
    rw [this]
  · unfold removePointStep
    rw [hg1, hi1, hs1]
  · unfold removePointStep
    rw [hg2, hi2, hs2]
  · unfold removePointStep
    rw [hg3, hi3, hs3]

set_option maxHeartbeats 1000000 in
theorem removeChainAux_succ (zob : Int → Color → Nat) (thisHead start : Int) (f : Nat)
    (b : GoBoard) (cur : Int) :
    removeChainAux zob thisHead start (f + 1) b cur =
      if (b.board cur).chain_next = start then removePointStep zob thisHead b cur
      else removeChainAux zob thisHead start f (removePointStep zob thisHead b cur)
        ((b.board cur).chain_next) := by
  show (if (b.board cur).chain_next = start then removePointStep zob thisHead b cur
    else removeChainAux zob thisHead start f (removePointStep zob thisHead b cur)
      ((b.board cur).chain_next)) =
    (if (b.board cur).chain_next = start then removePointStep zob thisHead b cur
    else removeChainAux zob thisHead start f (removePointStep zob thisHead b cur)
      ((b.board cur).chain_next))
  rfl

theorem removeChainAux_walk (zob : Int → Color → Nat) (thisHead start : Int) :
    ∀ (t : List Int) (fuel : Nat) (b : GoBoard) (cur : Int),
    t.length + 1 ≤ fuel → (cur :: t).Nodup → start ∉ t →
    List.Chain (NextEq b) cur (t ++ [start]) →
    removeChainAux zob thisHead start fuel b cur =
      (cur :: t).foldl (removePointStep zob thisHead) b := by
  intro t
  induction t with
  | nil =>
    intro fuel b cur hfuel hnd hstart hchain
    cases fuel with
    | zero => omega
    | succ f =>
      have hnext : (b.board cur).chain_next = start := by
        simp only [List.nil_append] at hchain
        have h := List.chain_singleton.1 hchain
        exact h
      rw [removeChainAux_succ, if_pos hnext, List.foldl_cons, List.foldl_nil]
  | cons w t2 ih =>
    intro fuel b cur hfuel hnd hstart hchain
    cases fuel with
    | zero => simp at hfuel
    | succ f =>
      rw [List.cons_append, List.chain_cons] at hchain
      obtain ⟨hlink, hrest⟩ := hchain
      have hnext : (b.board cur).chain_next = w := hlink
      have hws : w ≠ start := by
        intro h
        exact hstart (h ▸ List.mem_cons_self w t2)
      rw [removeChainAux_succ, if_neg (by rw [hnext]; exact hws), hnext]
      have hcur_nmem : cur ∉ w :: t2 := (List.nodup_cons.1 hnd).1
      have hchain3 : List.Chain (NextEq (removePointStep zob thisHead b cur)) w (t2 ++ [start]) := by
        refine chain_imp_sources (t2 ++ [start]) w hrest ?_
        intro x hx y hxy
        have hxmem : x ∈ w :: t2 := by
          rcases hx with rfl | hx2
          · exact List.mem_cons_self _ _
          · rw [List.dropLast_concat] at hx2
            exact List.mem_cons_of_mem w hx2
        have hxcur : x ≠ cur := fun h => hcur_nmem (h ▸ hxmem)
        show ((removePointStep zob thisHead b cur).board x).chain_next = y
        rw [(removePointStep_board zob thisHead b cur).1 x hxcur]
        exact hxy
      have hih := ih f (removePointStep zob thisHead b cur) w
        (by simp at hfuel ⊢; omega)
        ((List.nodup_cons.1 hnd).2)
        (fun h => hstart (List.mem_cons_of_mem w h))
        hchain3
      rw [List.foldl_cons]
      exact hih

theorem sum_map_const (l : List Int) (v : Int) :
    (l.map fun _ => v).sum = (l.length : Int) * v := by
  induction l with
  | nil => simp
  | cons x xs ih =>
    simp only [List.map_cons, List.sum_cons, List.length_cons, ih]
    push_cast
    ring

theorem sumSq_map_const (l : List Int) (v : Int) :
    sumSq (l.map fun _ => v) = (l.length : Int) * (v * v) := by
  unfold sumSq
  rw [List.map_map]
  exact sum_map_const l (v * v)

theorem sumSq_perm {l1 l2 : List Int} (h : List.Perm l1 l2) : sumSq l1 = sumSq l2 :=
  List.Perm.sum_eq (List.Perm.map _ h)

theorem filter_insert_perm {p1 p2 : Int → Bool} : ∀ {l : List Int}, l.Nodup →
    ∀ {x0 : Int}, x0 ∈ l → p1 x0 = false → p2 x0 = true →
    (∀ x ∈ l, x ≠ x0 → p1 x = p2 x) →
    List.Perm (l.filter p2) (x0 :: l.filter p1) := by
  intro l hl x0 hx0 h1 h2 hagree
  obtain ⟨l1, l2, rfl⟩ := List.append_of_mem hx0
  rw [List.nodup_append] at hl
  obtain ⟨hnd1, hnd2, hdisj⟩ := hl
  have hx1 : x0 ∉ l1 := fun h => hdisj h (List.mem_cons_self x0 l2)
  have hx2 : x0 ∉ l2 := (List.nodup_cons.1 hnd2).1
  have hf1 : l1.filter p2 = l1.filter p1 := by
    refine List.filter_congr ?_
    intro x hx
    rw [hagree x (List.mem_append.2 (Or.inl hx)) (fun he => hx1 (he ▸ hx))]
  have hf2 : l2.filter p2 = l2.filter p1 := by
    refine List.filter_congr ?_
    intro x hx
    rw [hagree x (List.mem_append.2 (Or.inr (List.mem_cons_of_mem x0 hx)))
      (fun he => hx2 (he ▸ hx))]
  rw [List.filter_append, List.filter_append, List.filter_cons, List.filter_cons, h2, h1]
  simp only [if_true, if_false, hf1, hf2]
  exact List.perm_middle

theorem grant_filter_congr (b : GoBoard) (h T : Int) (l : List Int) (p2 : Int → Bool)
    (hpt : ∀ x ∈ l,
      ((b.chain_head x = h ∧ (b.chain_head x ≠ T ∨ b.is_empty x = true)) ↔ p2 x = true)) :
    (l.filter fun n => b.chain_head n = h ∧ (b.chain_head n ≠ T ∨ b.is_empty n)) =
      l.filter p2 := by
  refine List.filter_congr ?_
  intro x hx
  have hiff := hpt x hx
  by_cases hc : b.chain_head x = h ∧ (b.chain_head x ≠ T ∨ b.is_empty x = true)
  · rw [decide_eq_true hc, (hiff.1 hc).symm]
  · have h2 : p2 x = false := by
      cases hp : p2 x
      · rfl
      · exact absurd (hiff.2 hp) hc
    rw [decide_eq_false hc, h2]

theorem filter_decide_eq : ∀ (l : List Int), l.Nodup → ∀ (a : Int),
    (l.filter fun x => decide (x = a)) = if a ∈ l then [a] else [] := by
  intro l
  induction l with
  | nil =>
    intro _ a
    rw [List.filter_nil, if_neg (List.not_mem_nil a)]
  | cons x xs ih =>
    intro hnd a
    obtain ⟨hx, hnd2⟩ := List.nodup_cons.1 hnd
    rw [List.filter_cons]
    by_cases hxa : x = a
    · subst hxa
      rw [if_pos (by simp), if_pos (List.mem_cons_self x xs), ih hnd2 x, if_neg hx]
    · rw [if_neg (by simpa using hxa), ih hnd2 a]
      by_cases ha : a ∈ xs
      · rw [if_pos ha, if_pos (List.mem_cons_of_mem x ha)]
      · rw [if_neg ha, if_neg (by
          intro hmem
          rcases List.mem_cons.1 hmem with he | he
          · exact hxa he.symm
          · exact ha he)]

theorem is_empty_false_of_stone {s : GoBoard} {x : Int} (h : IsStone (s.board x).color) :
    s.is_empty x = false := by
  unfold GoBoard.is_empty GoBoard.point_color
  rcases h with hc | hc
  · rw [hc]; rfl
  · rw [hc]; rfl

theorem grantsFor_append (s : GoBoard) (h : Int) (P Q : List Int) :
    grantsFor s h (P ++ Q) = grantsFor s h P ++ grantsFor s h Q := by
  unfold grantsFor
  rw [List.flatMap_append]

theorem grantsFor_single (s : GoBoard) (h v : Int) :
    grantsFor s h [v] = ((neighbours v).filter fun x => s.chain_head x = h).map fun _ => v := by
  unfold grantsFor
  simp

set_option maxHeartbeats 2000000 in
theorem removePointStep_mid (zob : Int → Color → Nat) (s : GoBoard) (thisHead : Int)
    (L : List Int) (co : Color) (hco : IsStone co) (hsz : s.board_size ≤ 19)
    (hmemL : ∀ q ∈ L, InBoard s q ∧ (s.board q).color = co ∧ s.chain_head q = thisHead)
    (hstoneL : ∀ x : Int, IsStone (s.board x).color → s.chain_head x ∈ L → x ∈ L)
    (hU2 : ∀ x : Int, ¬ IsStone (s.board x).color → s.chain_head x = x)
    (hthisL : thisHead ∈ L)
    (P : List Int) (v : Int) (hvL : v ∈ L) (hvP : v ∉ P) (hPL : ∀ q ∈ P, q ∈ L)
    (m : GoBoard) (hmid : RemoveMid zob s thisHead P m) :
    RemoveMid zob s thisHead (P ++ [v]) (removePointStep zob thisHead m v) := by
  obtain ⟨hvIn, hvCol, hvHead⟩ := hmemL v hvL
  have hvStone : IsStone (s.board v).color := by rw [hvCol]; exact hco
  have hvNE : s.is_empty v = false := is_empty_false_of_stone hvStone
  have hthisStone : IsStone (s.board thisHead).color := by
    rw [(hmemL thisHead hthisL).2.1]; exact hco
  obtain ⟨hsb, hsc, hss1, hss2, hss3, hsh⟩ := set_stone_eval m zob v Color.empty
  set m1 := m.set_stone zob v Color.empty with hm1def
  obtain ⟨hib, hic, his1, his2, his3, hih⟩ := init_new_chain_eval m1 v
  set m2 := m1.init_new_chain v with hm2def
  have hm1v : m1.board v = { m.board v with color := Color.empty } := by
    rw [hsb, Function.update_same]
  have hm2b : m2.board = Function.update m.board v ⟨v, v, Color.empty⟩ := by
    rw [hib]
    funext q
    by_cases hq : q = v
    · subst hq
      rw [Function.update_same, Function.update_same,
        show (m1.board q).color = Color.empty from by rw [hm1v]]
    · rw [Function.update_noteq hq, Function.update_noteq hq, hsb, Function.update_noteq hq]
  have hm2c : m2.chains = Function.update m.chains v
      (addLibs ⟨1, 0, 0, 0⟩ ((neighbours v).filter fun x => decide (x ∈ P) || s.is_empty x)) := by
    rw [hic, hsc]
    have hfe : List.filter (fun n => m1.is_empty n) (neighbours v)
        = List.filter (fun x => decide (x ∈ P) || s.is_empty x) (neighbours v) := by
      refine List.filter_congr ?_
      intro x hx
      have hxv : x ≠ v := fun h => self_not_mem_neighbours v (h ▸ hx)
      show m1.is_empty x = _
      unfold GoBoard.is_empty GoBoard.point_color
      rw [hsb, Function.update_noteq hxv]
      by_cases hxP : x ∈ P
      · rw [hmid.board_done x hxP]
        simp [hxP]
      · rw [hmid.board_pres x hxP]
        simp [hxP, GoBoard.is_empty, GoBoard.point_color]
    rw [hfe]
  obtain ⟨hgb, hg1, hg2, hg3, hg4, hgc⟩ := foldl_grantLibStep_eval thisHead v (neighbours v) m2
  set mf := (neighbours v).foldl (grantLibStep thisHead v) m2 with hmfdef
  have hmf : removePointStep zob thisHead m v = mf := rfl
  rw [hmf]
  -- head and emptiness bookkeeping in m2
  have hhead2 : ∀ x : Int, m2.chain_head x =
      (if x = v then v else if x ∈ P then x else s.chain_head x) := by
    intro x
    show (m2.board x).chain_head = _
    rw [hm2b]
    by_cases hx : x = v
    · subst hx
      rw [Function.update_same, if_pos rfl]
    · rw [Function.update_noteq hx, if_neg hx]
      by_cases hxP : x ∈ P
      · rw [hmid.board_done x hxP, if_pos hxP]
      · rw [hmid.board_pres x hxP, if_neg hxP]
        rfl
  have hemp2 : ∀ x : Int, (m2.is_empty x = true) ↔ (x = v ∨ x ∈ P ∨ s.is_empty x = true) := by
    intro x
    show (decide ((m2.board x).color = Color.empty) = true) ↔ _
    rw [hm2b]
    by_cases hx : x = v
    · subst hx
      rw [Function.update_same]
      simp
    · rw [Function.update_noteq hx]
      by_cases hxP : x ∈ P
      · rw [hmid.board_done x hxP]
        simp [hx, hxP]
      · rw [hmid.board_pres x hxP]
        simp [hx, hxP, GoBoard.is_empty, GoBoard.point_color]
  -- classification of chain-head targets
  have hsheadv : ∀ x : Int, x ≠ v → x ∉ P → s.chain_head x ∈ L →
      IsStone (s.board x).color → x ∈ L ∧ s.chain_head x = thisHead := by
    intro x _ _ hin hst
    have hxL : x ∈ L := hstoneL x hst hin
    exact ⟨hxL, (hmemL x hxL).2.2⟩
  -- the four filter computations
  have hfilterA : ((neighbours v).filter fun n =>
      m2.chain_head n = v ∧ (m2.chain_head n ≠ thisHead ∨ m2.is_empty n)) = [] := by
    rw [grant_filter_congr m2 v thisHead (neighbours v) (fun _ => false) ?_]
    · simp
    · intro x hx
      have hxv : x ≠ v := fun h => self_not_mem_neighbours v (h ▸ hx)
      simp only [Bool.false_eq_true, iff_false]
      rintro ⟨h1, h2⟩
      rw [hhead2 x, if_neg hxv] at h1
      by_cases hxP : x ∈ P
      · rw [if_pos hxP] at h1
        exact hvP (by rw [← h1]; exact hxP)
      · rw [if_neg hxP] at h1
        by_cases hst : IsStone (s.board x).color
        · obtain ⟨hxL, hxhead⟩ := hsheadv x hxv hxP (by rw [h1]; exact hvL) hst
          have hvthis : v = thisHead := by rw [← h1, hxhead]
          rcases h2 with h2 | h2
          · rw [hhead2 x, if_neg hxv, if_neg hxP, hxhead] at h2
            exact h2 rfl
          · rcases (hemp2 x).1 h2 with he | he | he
            · exact hxv he
            · exact hxP he
            · rw [is_empty_false_of_stone hst] at he
              exact Bool.noConfusion he
        · rw [hU2 x hst] at h1
          exact hxv h1
  have hfilterB : ∀ q ∈ P, ((neighbours v).filter fun n =>
      m2.chain_head n = q ∧ (m2.chain_head n ≠ thisHead ∨ m2.is_empty n)) =
      (if q ∈ neighbours v then [q] else []) := by
    intro q hqP
    have hqv : q ≠ v := fun h => hvP (h ▸ hqP)
    rw [grant_filter_congr m2 q thisHead (neighbours v) (fun x => decide (x = q)) ?_]
    · exact filter_decide_eq (neighbours v) (neighbours_nodup v) q
    · intro x hx
      have hxv : x ≠ v := fun h => self_not_mem_neighbours v (h ▸ hx)
      rw [decide_eq_true_eq]
      constructor
      · rintro ⟨h1, h2⟩
        rw [hhead2 x, if_neg hxv] at h1
        by_cases hxP : x ∈ P
        · rw [if_pos hxP] at h1
          exact h1
        · rw [if_neg hxP] at h1
          by_cases hst : IsStone (s.board x).color
          · obtain ⟨hxL, hxhead⟩ := hsheadv x hxv hxP (by rw [h1]; exact hPL q hqP) hst
            exfalso
            rcases h2 with h2 | h2
            · rw [hhead2 x, if_neg hxv, if_neg hxP, hxhead] at h2
              exact h2 rfl
            · rcases (hemp2 x).1 h2 with he | he | he
              · exact hxv he
              · exact hxP he
              · rw [is_empty_false_of_stone hst] at he
                exact Bool.noConfusion he
          · rw [hU2 x hst] at h1
            exact absurd (by rw [h1]; exact hqP) hxP
      · intro hxq
        subst hxq
        refine ⟨by rw [hhead2 x, if_neg hxv, if_pos hqP], Or.inr ?_⟩
        exact (hemp2 x).2 (Or.inr (Or.inl hqP))
  have hfilterC : thisHead ∉ P → thisHead ≠ v → ((neighbours v).filter fun n =>
      m2.chain_head n = thisHead ∧ (m2.chain_head n ≠ thisHead ∨ m2.is_empty n)) = [] := by
    intro hTP hTv
    rw [grant_filter_congr m2 thisHead thisHead (neighbours v) (fun _ => false) ?_]
    · simp
    · intro x hx
      have hxv : x ≠ v := fun h => self_not_mem_neighbours v (h ▸ hx)
      simp only [Bool.false_eq_true, iff_false]
      rintro ⟨h1, h2⟩
      rw [hhead2 x, if_neg hxv] at h1
      by_cases hxP : x ∈ P
      · rw [if_pos hxP] at h1
        exact hTP (by rw [← h1]; exact hxP)
      · rw [if_neg hxP] at h1
        by_cases hst : IsStone (s.board x).color
        · obtain ⟨hxL, hxhead⟩ := hsheadv x hxv hxP (by rw [h1]; exact hthisL) hst
          rcases h2 with h2 | h2
          · rw [hhead2 x, if_neg hxv, if_neg hxP, hxhead] at h2
            exact h2 rfl
          · rcases (hemp2 x).1 h2 with he | he | he
            · exact hxv he
            · exact hxP he
            · rw [is_empty_false_of_stone hst] at he
              exact Bool.noConfusion he
        · rw [hU2 x hst] at h1
          subst h1
          exact hst hthisStone
  have hfilterD : ∀ h : Int, h ∉ P → h ≠ thisHead → h ≠ v → ((neighbours v).filter fun n =>
      m2.chain_head n = h ∧ (m2.chain_head n ≠ thisHead ∨ m2.is_empty n)) =
      ((neighbours v).filter fun x => s.chain_head x = h) := by
    intro h hhP hhT hhv
    rw [grant_filter_congr m2 h thisHead (neighbours v) (fun x => decide (s.chain_head x = h)) ?_]
    intro x hx
    have hxv : x ≠ v := fun h2 => self_not_mem_neighbours v (h2 ▸ hx)
    rw [decide_eq_true_eq]
    constructor
    · rintro ⟨h1, _⟩
      rw [hhead2 x, if_neg hxv] at h1
      by_cases hxP : x ∈ P
      · rw [if_pos hxP] at h1
        exact absurd (by rw [← h1]; exact hxP) hhP
      · rw [if_neg hxP] at h1
        exact h1
    · intro hsx
      have hxP : x ∉ P := by
        intro hxP
        exact hhT (by rw [← hsx, (hmemL x (hPL x hxP)).2.2])
      refine ⟨by rw [hhead2 x, if_neg hxv, if_neg hxP]; exact hsx, Or.inl ?_⟩
      rw [hhead2 x, if_neg hxv, if_neg hxP, hsx]
      exact hhT
  -- the delta-free slot helper
  have hzero : ∀ (X : Chain),
      ({ num_stones := X.num_stones,
         num_pseudo_liberties := X.num_pseudo_liberties + ((([] : List Int)).length : Int),
         liberty_vertex_sum := X.liberty_vertex_sum + ((([] : List Int)).length : Int) * v,
         liberty_vertex_sum_squared :=
           X.liberty_vertex_sum_squared + ((([] : List Int)).length : Int) * (v * v) } : Chain)
        = X := by
    intro X
    simp
  refine ⟨?_, ?_, ?_, ?_, ?_, ?_, ?_, ?_, ?_⟩
  · -- board_done
    intro q hq
    rw [hgb, hm2b]
    rcases List.mem_append.1 hq with hq | hq
    · have hqv : q ≠ v := fun h => hvP (h ▸ hq)
      rw [Function.update_noteq hqv]
      exact hmid.board_done q hq
    · rw [List.mem_singleton.1 hq, Function.update_same]
  · -- board_pres
    intro q hq
    have hqP : q ∉ P := fun h => hq (List.mem_append.2 (Or.inl h))
    have hqv : q ≠ v := fun h => hq (List.mem_append.2 (Or.inr (by rw [h]; exact List.mem_singleton_self v)))
    rw [hgb, hm2b, Function.update_noteq hqv]
    exact hmid.board_pres q hqP
  · rw [hg1, his1, hss1]
    exact hmid.size_pres
  · rw [hg2, his2, hss2]
    exact hmid.ko_pres
  · rw [hg3, his3, hss3]
    exact hmid.caps_pres
  · -- hash_ok
    have hcolv : (m.board v).color = co := by
      rw [hmid.board_pres v hvP, hvCol]
    have hmstone : IsStone (m.board v).color := by rw [hcolv]; exact hco
    have hb1 : m1.zobrist_hash = stoneHash zob m1 := by
      refine set_stone_hash_ok zob m v Color.empty ?_ ?_ hmid.hash_ok (Or.inr ⟨hmstone, rfl⟩)
      · have := (inBoard_bounds hsz hvIn).1
        omega
      · have := (inBoard_bounds hsz hvIn).2
        omega
    have hb2 : m2.zobrist_hash = stoneHash zob m2 := by
      rw [hih, hb1]
      refine (stoneHash_congr zob ?_).symm
      intro i
      rw [hib]
      by_cases hi : i = v
      · subst hi
        rw [Function.update_same, show (m1.board i).color = Color.empty from by rw [hm1v]]
      · rw [Function.update_noteq hi]
    rw [hg4, hb2]
    refine stoneHash_congr zob ?_
    intro i
    rw [hgb]
  · -- chains_done
    intro q hq
    rcases List.mem_append.1 hq with hqP | hqv2
    · -- q previously vacated
      have hqv : q ≠ v := fun h => hvP (h ▸ hqP)
      rw [hgc q, hfilterB q hqP]
      have hm2cq : m2.chains q = addLibs ⟨1, 0, 0, 0⟩
          ((neighbours q).filter fun x => decide (x ∈ P) || s.is_empty x) := by
        rw [hm2c, Function.update_noteq hqv]
        exact hmid.chains_done q hqP
      by_cases hadj : q ∈ neighbours v
      · rw [if_pos hadj, hm2cq]
        have hvadj : v ∈ neighbours q := mem_neighbours_comm.1 hadj
        have hperm := @filter_insert_perm (fun x => decide (x ∈ P) || s.is_empty x)
          (fun x => decide (x ∈ P ++ [v]) || s.is_empty x) (neighbours q)
          (neighbours_nodup q) v hvadj ?_ ?_ ?_
        · rw [addLibs_eval, addLibs_eval]
          have hlen := hperm.length_eq
          have hsum := hperm.sum_eq
          have hsq := sumSq_perm hperm
          rw [List.length_cons] at hlen
          rw [List.sum_cons] at hsum
          rw [show sumSq (v :: ((neighbours q).filter fun x => decide (x ∈ P) || s.is_empty x))
              = v * v + sumSq ((neighbours q).filter fun x => decide (x ∈ P) || s.is_empty x)
              from by unfold sumSq; rw [List.map_cons, List.sum_cons]] at hsq
          simp only [List.length_cons, List.length_nil, Chain.mk.injEq]
          refine ⟨trivial, ?_, ?_, ?_⟩
          · rw [hlen]
            push_cast
            ring
          · rw [hsum]
            push_cast
            ring
          · rw [hsq]
            push_cast
            ring
        · simp [hvP, hvNE]
        · simp
        · intro x hx hxv
          by_cases hxP : x ∈ P
          · simp [hxP]
          · have : x ∉ P ++ [v] := by
              intro hmem
              rcases List.mem_append.1 hmem with h | h
              · exact hxP h
              · exact hxv (List.mem_singleton.1 h)
            simp [hxP, this]
      · rw [if_neg hadj]
        refine (hzero (m2.chains q)).trans ?_
        rw [hm2cq]
        congr 1
        refine List.filter_congr ?_
        intro x hx
        have hxv : x ≠ v := by
          intro h
          exact hadj (h ▸ mem_neighbours_comm.1 hx)
        by_cases hxP : x ∈ P
        · simp [hxP]
        · have : x ∉ P ++ [v] := by
            intro hmem
            rcases List.mem_append.1 hmem with h | h
            · exact hxP h
            · exact hxv (List.mem_singleton.1 h)
          simp [hxP, this]
    · -- q = v, freshly vacated
      rw [List.mem_singleton.1 hqv2]
      rw [hgc v, hfilterA]
      refine (hzero (m2.chains v)).trans ?_
      rw [hm2c, Function.update_same]
      congr 1
      refine List.filter_congr ?_
      intro x hx
      have hxv : x ≠ v := fun h => self_not_mem_neighbours v (h ▸ hx)
      by_cases hxP : x ∈ P
      · have : x ∈ P ++ [v] := List.mem_append.2 (Or.inl hxP)
        simp [hxP, this]
      · have : (x ∈ P ++ [v]) ↔ False := by
          constructor
          · intro hmem
            rcases List.mem_append.1 hmem with h | h
            · exact hxP h
            · exact hxv (List.mem_singleton.1 h)
          · exact False.elim
        simp [hxP, this]
  · -- chains_this
    intro hT
    have hTP : thisHead ∉ P := fun h => hT (List.mem_append.2 (Or.inl h))
    have hTv : thisHead ≠ v := fun h => hT (List.mem_append.2 (Or.inr (by rw [h]; exact List.mem_singleton_self v)))
    rw [hgc thisHead, hfilterC hTP hTv]
    refine (hzero (m2.chains thisHead)).trans ?_
    rw [hm2c, Function.update_noteq hTv]
    exact hmid.chains_this hTP
  · -- chains_other
    intro h hhP2 hhT
    have hhP : h ∉ P := fun hx => hhP2 (List.mem_append.2 (Or.inl hx))
    have hhv : h ≠ v := fun hx => hhP2 (List.mem_append.2 (Or.inr (by rw [hx]; exact List.mem_singleton_self v)))
    rw [hgc h, hfilterD h hhP hhT hhv, hm2c, Function.update_noteq hhv,
      hmid.chains_other h hhP hhT, grantsFor_append, grantsFor_single]
    obtain ⟨a, k, u, e⟩ := s.chains h
    rw [addLibs_eval, addLibs_eval]
    rw [show sumSq (grantsFor s h P ++ ((neighbours v).filter fun x => s.chain_head x = h).map (fun _ => v))
          = sumSq (grantsFor s h P) + sumSq (((neighbours v).filter fun x => s.chain_head x = h).map (fun _ => v))
          from by unfold sumSq; rw [List.map_append, List.sum_append]]
    simp only [List.length_append, List.sum_append, List.length_map, Chain.mk.injEq]
    rw [sum_map_const, sumSq_map_const]
    refine ⟨trivial, ?_, ?_, ?_⟩
    · push_cast
      ring
    · push_cast
      ring
    · push_cast
      ring

theorem removeFold_mid (zob : Int → Color → Nat) (s : GoBoard) (thisHead : Int)
    (L : List Int) (co : Color) (hco : IsStone co) (hsz : s.board_size ≤ 19)
    (hmemL : ∀ q ∈ L, InBoard s q ∧ (s.board q).color = co ∧ s.chain_head q = thisHead)
    (hstoneL : ∀ x : Int, IsStone (s.board x).color → s.chain_head x ∈ L → x ∈ L)
    (hU2 : ∀ x : Int, ¬ IsStone (s.board x).color → s.chain_head x = x)
    (hthisL : thisHead ∈ L) (hnd : L.Nodup) :
    ∀ (R P : List Int) (m : GoBoard), P ++ R = L → RemoveMid zob s thisHead P m →
    RemoveMid zob s thisHead L (R.foldl (removePointStep zob thisHead) m) := by
  intro R
  induction R with
  | nil =>
    intro P m hPR hmid
    rw [List.foldl_nil]
    have hPL : P = L := by simpa using hPR
    subst hPL
    exact hmid
  | cons v R2 ih =>
    intro P m hPR hmid
    rw [List.foldl_cons]
    have hvL : v ∈ L := by
      rw [← hPR]
      exact List.mem_append.2 (Or.inr (List.mem_cons_self v R2))
    have hndPR : (P ++ v :: R2).Nodup := by rw [hPR]; exact hnd
    have hvP : v ∉ P := by
      rw [List.nodup_append] at hndPR
      exact fun h => hndPR.2.2 h (List.mem_cons_self v R2)
    have hPL : ∀ q ∈ P, q ∈ L := by
      intro q hq
      rw [← hPR]
      exact List.mem_append.2 (Or.inl hq)
    have hmid2 := removePointStep_mid zob s thisHead L co hco hsz hmemL hstoneL hU2 hthisL
      P v hvL hvP hPL m hmid
    refine ih (P ++ [v]) _ ?_ hmid2
    rw [List.append_assoc]
    exact hPR

theorem remove_chain_spec (zob : Int → Color → Nat) (s : GoBoard) (hsz : s.board_size ≤ 19)
    (hash_eq : s.zobrist_hash = stoneHash zob s)
    (hU2 : ∀ x : Int, ¬ IsStone (s.board x).color → s.chain_head x = x)
    (hstone : ∀ q : Int, IsStone (s.board q).color → ∃ L, StoneChain s q L)
    (n : Int) (hn : IsStone (s.board n).color)
    (Ln : List Int) (hL : StoneChain s n Ln) :
    ∃ L2, List.Perm L2 Ln ∧ RemoveMid zob s (s.chain_head n) L2 (s.remove_chain zob n) := by
  obtain ⟨T, hcycT, hpermT⟩ := cyc_rotate_at hL.cyc hL.memp
  have hndT : (n :: T).Nodup := hpermT.nodup_iff.2 hL.nodup
  have hmemLn : ∀ q ∈ Ln, InBoard s q ∧ (s.board q).color = (s.board n).color ∧
      s.chain_head q = s.chain_head n := fun q hq => hL.members q hq
  have hmemT : ∀ q ∈ n :: T, InBoard s q ∧ (s.board q).color = (s.board n).color ∧
      s.chain_head q = s.chain_head n := fun q hq => hmemLn q (hpermT.mem_iff.1 hq)
  have hstoneT : ∀ x : Int, IsStone (s.board x).color → s.chain_head x ∈ n :: T → x ∈ n :: T := by
    intro x hx hmem
    obtain ⟨Lx, hLx⟩ := hstone x hx
    have hLnmem : s.chain_head x ∈ Ln := hpermT.mem_iff.1 hmem
    have hLxmem : s.chain_head x ∈ Lx := by
      have := hLx.head_mem
      exact this
    have hiff := cyc_same_set hLx.cyc hL.cyc hLxmem hLnmem
    exact hpermT.mem_iff.2 ((hiff x).1 hLx.memp)
  have hthisT : s.chain_head n ∈ n :: T := hpermT.mem_iff.2 hL.head_mem
  have hlen : (n :: T).length ≤ 361 := by
    refine cyc_length_le hndT ?_ hsz
    intro q hq
    exact (inBoard_iff_mem hsz).1 (hmemT q hq).1
  have hmid0 : RemoveMid zob s (s.chain_head n) [] s := by
    refine ⟨?_, fun q _ => rfl, rfl, rfl, rfl, hash_eq, ?_, fun _ => rfl, ?_⟩
    · intro q hq
      exact absurd hq (List.not_mem_nil q)
    · intro q hq
      exact absurd hq (List.not_mem_nil q)
    · intro h _ _
      rfl
  have hwalk : s.remove_chain zob n = (n :: T).foldl (removePointStep zob (s.chain_head n)) s := by
    show removeChainAux zob (s.chain_head n) n VIRTUAL_BOARD_POINTS.toNat s n = _
    rw [vbp_toNat]
    refine removeChainAux_walk zob (s.chain_head n) n T 441 s n ?_ hndT
      (List.nodup_cons.1 hndT).1 ?_
    · have := hlen
      simp only [List.length_cons] at this
      omega
    · exact cyc_cons.1 hcycT
  refine ⟨n :: T, hpermT, ?_⟩
  rw [hwalk]
  exact removeFold_mid zob s (s.chain_head n) (n :: T) (s.board n).color hn hsz hmemT
    hstoneT hU2 hthisT hndT (n :: T) [] s rfl hmid0

theorem Inv_head_self (zob : Int → Color → Nat) {b : GoBoard} (hInv : Inv zob b) :
    ∀ x : Int, ¬ IsStone (b.board x).color → b.chain_head x = x := by
  intro x hx
  by_cases hin : InBoard b x
  · have hng := hInv.no_guard x hin
    cases hc : (b.board x).color with
    | black => exact absurd (Or.inl hc) hx
    | white => exact absurd (Or.inr hc) hx
    | empty => exact (hInv.empty_vertex x hin hc).1
    | guard => exact absurd hc hng
  · show (b.board x).chain_head = x
    rw [hInv.guard_vertex x hin]

theorem Inv_head_eq_self_target (zob : Int → Color → Nat) {b : GoBoard} (hInv : Inv zob b) :
    ∀ x t : Int, b.chain_head x = t → ¬ IsStone (b.board t).color → x = t := by
  intro x t hxt ht
  by_cases hx : IsStone (b.board x).color
  · obtain ⟨Lx, hLx⟩ := hInv.stone_chain x hx
    have htm : t ∈ Lx := by rw [← hxt]; exact hLx.head_mem
    have hcol := (hLx.members t htm).2.1
    exact absurd (by rw [hcol]; exact hx) ht
  · rw [Inv_head_self zob hInv x hx] at hxt
    exact hxt

theorem grantsFor_nonstone (zob : Int → Color → Nat) {s : GoBoard} (hInv : Inv zob s)
    (p : Int) (hp : ¬ IsStone (s.board p).color) :
    ∀ P : List Int, grantsFor s p P = P.filter fun v => decide (p ∈ neighbours v) := by
  intro P
  induction P with
  | nil => rfl
  | cons v P2 ih =>
    show (((neighbours v).filter fun x => s.chain_head x = p).map fun _ => v)
        ++ grantsFor s p P2 = _
    rw [ih, List.filter_cons]
    have hfe : ((neighbours v).filter fun x => s.chain_head x = p)
        = (neighbours v).filter fun x => decide (x = p) := by
      refine List.filter_congr ?_
      intro x _
      by_cases hx : s.chain_head x = p
      · rw [decide_eq_true hx, decide_eq_true (Inv_head_eq_self_target zob hInv x p hx hp)]
      · have hxp : ¬ x = p := by
          intro he
          subst he
          exact hx (Inv_head_self zob hInv x hp)
        rw [decide_eq_false hx, decide_eq_false hxp]
    rw [hfe, filter_decide_eq (neighbours v) (neighbours_nodup v) p]
    by_cases hmem : p ∈ neighbours v
    · rw [if_pos hmem, if_pos (by simpa using hmem)]
      rfl
    · rw [if_neg hmem, if_neg (by simpa using hmem)]
      rfl

theorem filter_or_length (p q : Int → Bool) : ∀ (l : List Int),
    (∀ x ∈ l, ¬(p x = true ∧ q x = true)) →
    (l.filter fun x => p x || q x).length = (l.filter p).length + (l.filter q).length := by
  intro l
  induction l with
  | nil => intro _; rfl
  | cons x xs ih =>
    intro hdisj
    have ihx := ih fun y hy => hdisj y (List.mem_cons_of_mem x hy)
    rw [List.filter_cons, List.filter_cons, List.filter_cons]
    by_cases hp : p x = true
    · have hq : ¬ q x = true := fun hq => hdisj x (List.mem_cons_self x xs) ⟨hp, hq⟩
      rw [if_pos (show (p x || q x) = true by simp [hp]), if_pos hp, if_neg hq,
        List.length_cons, List.length_cons, ihx]
      omega
    · by_cases hq : q x = true
      · rw [if_pos (show (p x || q x) = true by simp [hq]), if_neg hp, if_pos hq,
          List.length_cons, List.length_cons, ihx]
        omega
      · rw [if_neg (show ¬ (p x || q x) = true by simp [hp, hq]), if_neg hp, if_neg hq, ihx]



theorem addLibs_libs (ch : Chain) (l : List Int) :
    (addLibs ch l).num_pseudo_liberties = ch.num_pseudo_liberties + (l.length : Int) := by
  obtain ⟨s, k, a, e⟩ := ch
  rw [addLibs_eval]

theorem remove_chain_inv (zob : Int → Color → Nat) (s : GoBoard) (hInv : Inv zob s)
    (n : Int) (hn : IsStone (s.board n).color)
    (Ln : List Int) (hL : StoneChain s n Ln) :
    Inv zob (s.remove_chain zob n) ∧
    (∀ q : Int, ((s.remove_chain zob n).board q).color
       = if q ∈ Ln then Color.empty else (s.board q).color) ∧
    (s.remove_chain zob n).board_size = s.board_size ∧
    (s.remove_chain zob n).last_ko_point = s.last_ko_point ∧
    (s.remove_chain zob n).last_captures = s.last_captures := by
  obtain ⟨L2, hperm, hmid⟩ := remove_chain_spec zob s hInv.size_le hInv.hash_eq
    (Inv_head_self zob hInv) hInv.stone_chain n hn Ln hL
  set br := s.remove_chain zob n with hbrdef
  have hmemiff : ∀ q : Int, q ∈ L2 ↔ q ∈ Ln := fun q => hperm.mem_iff
  have hndL2 : L2.Nodup := hperm.nodup_iff.2 hL.nodup
  have hmemL2 : ∀ q ∈ L2, InBoard s q ∧ (s.board q).color = (s.board n).color ∧
      s.chain_head q = s.chain_head n := fun q hq => hL.members q ((hmemiff q).1 hq)
  have hthisL2 : s.chain_head n ∈ L2 := (hmemiff _).2 hL.head_mem
  have hcolors : ∀ q : Int, (br.board q).color =
      if q ∈ Ln then Color.empty else (s.board q).color := by
    intro q
    by_cases hq : q ∈ Ln
    · rw [if_pos hq, hmid.board_done q ((hmemiff q).2 hq)]
    · rw [if_neg hq, hmid.board_pres q (fun h => hq ((hmemiff q).1 h))]
  have hinb : ∀ q : Int, InBoard br q ↔ InBoard s q := fun q => inBoard_congr hmid.size_pres
  have hstoneLn : ∀ q ∈ Ln, IsStone (s.board q).color := by
    intro q hq
    rw [(hL.members q hq).2.1]
    exact hn
  have hfe : ∀ p : Int, (neighbours p).filter (fun x => (br.board x).color = Color.empty)
      = (neighbours p).filter (fun x => decide (x ∈ L2) || s.is_empty x) := by
    intro p
    refine List.filter_congr ?_
    intro x _
    rw [hcolors x]
    by_cases hx : x ∈ Ln
    · rw [if_pos hx]
      have hx2 : x ∈ L2 := (hmemiff x).2 hx
      simp [hx2]
    · rw [if_neg hx]
      have hx2 : x ∉ L2 := fun h => hx ((hmemiff x).1 h)
      simp [hx2, GoBoard.is_empty, GoBoard.point_color]
  have hcnt : ∀ p : Int, ¬ IsStone (s.board p).color →
      (countEmptyNbrs br p : Int) = (countEmptyNbrs s p : Int)
        + ((grantsFor s p L2).length : Int) := by
    intro p hp
    unfold countEmptyNbrs
    rw [hfe p, grantsFor_nonstone zob hInv p hp L2]
    rw [filter_or_length (fun x => decide (x ∈ L2)) (fun x => s.is_empty x) (neighbours p) ?_]
    · have hpermf : List.Perm ((neighbours p).filter fun x => decide (x ∈ L2))
          (L2.filter fun v => decide (p ∈ neighbours v)) := by
        refine (List.perm_ext_iff_of_nodup ?_ ?_).2 ?_
        · exact List.Nodup.filter _ (neighbours_nodup p)
        · exact List.Nodup.filter _ hndL2
        · intro x
          rw [List.mem_filter, List.mem_filter, decide_eq_true_eq, decide_eq_true_eq]
          constructor
          · rintro ⟨h1, h2⟩
            exact ⟨h2, mem_neighbours_comm.1 h1⟩
          · rintro ⟨h1, h2⟩
            exact ⟨mem_neighbours_comm.2 h2, h1⟩
      rw [hpermf.length_eq, show List.filter (fun x => s.is_empty x) (neighbours p)
          = List.filter (fun x2 => decide ((s.board x2).color = Color.empty)) (neighbours p)
          from List.filter_congr (fun x _ => rfl)]
      push_cast
      ring
    · intro x _ hx
      obtain ⟨h1, h2⟩ := hx
      rw [decide_eq_true_eq] at h1
      have hst := hstoneLn x ((hmemiff x).1 h1)
      have h2b : s.is_empty x = true := h2
      rw [is_empty_false_of_stone hst] at h2b
      exact Bool.noConfusion h2b
  have hInv2 : Inv zob br := by
    refine ⟨?_, ?_, ?_, ?_, ?_, ?_, hmid.hash_ok⟩
    · rw [hmid.size_pres]
      exact hInv.size_le
    · intro p hp
      have hps : ¬ InBoard s p := fun h => hp ((hinb p).2 h)
      have hpL : p ∉ L2 := fun h => hps (hmemL2 p h).1
      rw [hmid.board_pres p hpL]
      exact hInv.guard_vertex p hps
    · intro p hp
      rw [hcolors p]
      by_cases hpL : p ∈ Ln
      · rw [if_pos hpL]
        exact fun h => Color.noConfusion h
      · rw [if_neg hpL]
        exact hInv.no_guard p ((hinb p).1 hp)
    · intro p hp hempty
      have hps : InBoard s p := (hinb p).1 hp
      by_cases hpL : p ∈ Ln
      · have hpL2 : p ∈ L2 := (hmemiff p).2 hpL
        have hbd := hmid.board_done p hpL2
        refine ⟨by rw [hbd], by rw [hbd], ?_⟩
        rw [hmid.chains_done p hpL2, addLibs_eval]
        show (0 : Int) + _ = _
        unfold countEmptyNbrs
        rw [hfe p]
        ring
      · have hpL2 : p ∉ L2 := fun h => hpL ((hmemiff p).1 h)
        have hscol : (s.board p).color = Color.empty := by
          rw [hcolors p, if_neg hpL] at hempty
          exact hempty
        have hpns : ¬ IsStone (s.board p).color := by
          rw [hscol]
          rintro (h | h) <;> exact Color.noConfusion h
        have hpT : p ≠ s.chain_head n := fun h => hpL2 (by rw [h]; exact hthisL2)
        obtain ⟨he1, he2, he3⟩ := hInv.empty_vertex p hps hscol
        refine ⟨by rw [hmid.board_pres p hpL2]; exact he1,
          by rw [hmid.board_pres p hpL2]; exact he2, ?_⟩
        rw [hmid.chains_other p hpL2 hpT, addLibs_libs, he3, hcnt p hpns]
    · intro p hpst
      have hpLn : p ∉ Ln := by
        intro h
        rw [hcolors p, if_pos h] at hpst
        rcases hpst with h2 | h2 <;> exact Color.noConfusion h2
      have hpL2 : p ∉ L2 := fun h => hpLn ((hmemiff p).1 h)
      have hbp : br.board p = s.board p := hmid.board_pres p hpL2
      have hsst : IsStone (s.board p).color := by rw [← hbp]; exact hpst
      obtain ⟨Lp, hLp⟩ := hInv.stone_chain p hsst
      have hdisj : ∀ x ∈ Lp, x ∉ L2 := by
        intro x hx hx2
        have hxLn : x ∈ Ln := (hmemiff x).1 hx2
        have hiff := cyc_same_set hLp.cyc hL.cyc hx hxLn
        exact hpLn ((hiff p).1 hLp.memp)
      refine ⟨Lp, ?_, hLp.nodup, hLp.memp, ?_, ?_, ?_⟩
      · refine cyc_congr ?_ hLp.cyc
        intro x hx
        rw [hmid.board_pres x (hdisj x hx)]
      · intro x hx
        have hbx : br.board x = s.board x := hmid.board_pres x (hdisj x hx)
        refine ⟨(hinb x).2 (hLp.members x hx).1, ?_, ?_⟩
        · rw [hbx, hbp]
          exact (hLp.members x hx).2.1
        · rw [hbx, hbp]
          exact (hLp.members x hx).2.2
      · rw [hbp]
        exact hLp.head_mem
      · rw [hbp]
        have hhead_mem : (s.board p).chain_head ∈ Lp := hLp.head_mem
        have hheadL2 : (s.board p).chain_head ∉ L2 := hdisj _ hhead_mem
        have hheadT : (s.board p).chain_head ≠ s.chain_head n :=
          fun h => hheadL2 (by rw [h]; exact hthisL2)
        rw [hmid.chains_other _ hheadL2 hheadT, addLibs_num_stones]
        exact hLp.count
    · intro p m hm hpst hcol
      have hpLn : p ∉ Ln := by
        intro h
        rw [hcolors p, if_pos h] at hpst
        rcases hpst with h2 | h2 <;> exact Color.noConfusion h2
      have hmLn : m ∉ Ln := by
        intro h
        rw [hcolors m, if_pos h] at hcol
        rw [← hcol] at hpst
        rcases hpst with h2 | h2 <;> exact Color.noConfusion h2
      have hbp : br.board p = s.board p := hmid.board_pres p (fun h => hpLn ((hmemiff p).1 h))
      have hbm : br.board m = s.board m := hmid.board_pres m (fun h => hmLn ((hmemiff m).1 h))
      rw [hbp] at hpst
      rw [hbm, hbp] at hcol
      rw [hbp, hbm]
      exact hInv.adj_same p m hm hpst hcol
  exact ⟨hInv2, hcolors, hmid.size_pres, hmid.ko_pres, hmid.caps_pres⟩

theorem place_inv (zob : Int → Color → Nat) (b0 : GoBoard) (p : Int) (c : Color)
    (hInv : Inv zob b0) (hc : IsStone c) (hpin : InBoard b0 p)
    (hpe : (b0.board p).color = Color.empty) (b3 : GoBoard)
    (hb3 : b3 = ((b0.join_chains_around p c).set_stone zob p c).remove_liberty_from_neighbouring_chains p) :
    Inv zob b3 ∧ b3.board_size = b0.board_size ∧ b3.last_ko_point = b0.last_ko_point ∧
    b3.last_captures = b0.last_captures ∧
    (∀ q : Int, (b3.board q).color = if q = p then c else (b0.board q).color) := by
  have hpnext : (b0.board p).chain_next = p := (hInv.empty_vertex p hpin hpe).2.1
  obtain ⟨H, M, hJ⟩ := join_spec b0 p c hc hInv.stone_chain hInv.size_le hpe hpnext
  set bj := b0.join_chains_around p c with hbj
  obtain ⟨hsb, hsc, hss1, hss2, hss3, hsh⟩ := set_stone_eval bj zob p c
  set b2 := bj.set_stone zob p c with hb2
  obtain ⟨hrb, hr1, hr2, hr3, hr4, hrc⟩ := foldl_removeLibStep_eval p (neighbours p) b2
  rw [show ((b0.join_chains_around p c).set_stone zob p c).remove_liberty_from_neighbouring_chains p
      = (neighbours p).foldl (removeLibStep p) b2 from rfl] at hb3
  -- basic facts about M
  have hMnotp : ∀ q ∈ M, q ≠ p → (b0.board q).color = c := hJ.col
  have hcne : c ≠ Color.empty := by
    rcases hc with rfl | rfl
    · exact fun h => Color.noConfusion h
    · exact fun h => Color.noConfusion h
  have hMin : ∀ q ∈ M, InBoard b0 q := by
    intro q hq
    by_cases hqp : q = p
    · rw [hqp]; exact hpin
    · exact hJ.inboard q hq hqp
  have hempty_notM : ∀ q : Int, (b0.board q).color = Color.empty → q ≠ p → q ∉ M := by
    intro q hqe hqp hqM
    exact hcne ((hJ.col q hqM hqp).symm.trans hqe ▸ rfl)
  -- board characterization
  have hb3b : b3.board = Function.update bj.board p ({ bj.board p with color := c }) := by
    rw [hb3, hrb, hsb]
  have hcolors : ∀ q : Int, (b3.board q).color = if q = p then c else (b0.board q).color := by
    intro q
    rw [hb3b]
    by_cases hq : q = p
    · subst hq
      rw [Function.update_same, if_pos rfl]
    · rw [Function.update_noteq hq, if_neg hq]
      exact hJ.colors_pres q
  have hnext3 : ∀ q : Int, (b3.board q).chain_next = (bj.board q).chain_next := by
    intro q
    rw [hb3b]
    by_cases hq : q = p
    · subst hq
      rw [Function.update_same]
    · rw [Function.update_noteq hq]
  have hhead3 : ∀ q : Int, (b3.board q).chain_head = (bj.board q).chain_head := by
    intro q
    rw [hb3b]
    by_cases hq : q = p
    · subst hq
      rw [Function.update_same]
    · rw [Function.update_noteq hq]
  have hb3rec : ∀ q : Int, q ∉ M → b3.board q = b0.board q := by
    intro q hq
    have hqp : q ≠ p := fun h => hq (h ▸ hJ.pmem)
    rw [hb3b, Function.update_noteq hqp]
    exact hJ.untouched q hq
  -- chains characterization
  have hchains3 : ∀ h : Int, b3.chains h =
      { num_stones := (bj.chains h).num_stones,
        num_pseudo_liberties := (bj.chains h).num_pseudo_liberties
          - (((neighbours p).filter fun n2 => b2.chain_head n2 = h).length : Int),
        liberty_vertex_sum := (bj.chains h).liberty_vertex_sum
          - (((neighbours p).filter fun n2 => b2.chain_head n2 = h).length : Int) * p,
        liberty_vertex_sum_squared := (bj.chains h).liberty_vertex_sum_squared
          - (((neighbours p).filter fun n2 => b2.chain_head n2 = h).length : Int) * (p * p) } := by
    intro h
    rw [hb3, hrc h, hsc]
  have hnum3 : ∀ h : Int, (b3.chains h).num_stones = (bj.chains h).num_stones := by
    intro h
    rw [hchains3 h]
  have hb2head : ∀ q : Int, b2.chain_head q = (bj.board q).chain_head := by
    intro q
    show (b2.board q).chain_head = _
    rw [hsb]
    by_cases hq : q = p
    · subst hq
      rw [Function.update_same]
    · rw [Function.update_noteq hq]
  -- scalars
  have hsz3 : b3.board_size = b0.board_size := by
    rw [hb3, hr1, hss1, hJ.size_pres]
  have hko3 : b3.last_ko_point = b0.last_ko_point := by
    rw [hb3, hr2, hss2, hJ.ko_pres]
  have hca3 : b3.last_captures = b0.last_captures := by
    rw [hb3, hr3, hss3, hJ.caps_pres]
  have hinb3 : ∀ q : Int, InBoard b3 q ↔ InBoard b0 q := fun q => inBoard_congr hsz3
  -- membership closure for untouched chains
  have hchain_closed : ∀ q : Int, q ∉ M → IsStone (b0.board q).color →
      ∀ Lq, StoneChain b0 q Lq → ∀ r ∈ Lq, r ∉ M := by
    intro q hqM hqst Lq hLq r hr hrM
    have hrp : r ≠ p := by
      intro h
      subst h
      have := (hLq.members r hr).2.1
      rw [hpe] at this
      rcases hqst with h2 | h2 <;> rw [h2] at this <;> exact Color.noConfusion this
    exact hqM (hJ.orig_closed r hrM hrp Lq (StoneChain_transfer hLq hr) q hLq.memp)
  -- same-chain membership via heads
  have hsamechain : ∀ x y : Int, IsStone (b0.board x).color → IsStone (b0.board y).color →
      (b0.board y).chain_head = (b0.board x).chain_head →
      ∀ Lx, StoneChain b0 x Lx → y ∈ Lx := by
    intro x y hx hy hheads Lx hLx
    obtain ⟨Ly, hLy⟩ := hInv.stone_chain y hy
    have h1 : (b0.board y).chain_head ∈ Ly := hLy.head_mem
    have h2 : (b0.board y).chain_head ∈ Lx := by
      rw [hheads]
      exact hLx.head_mem
    have hiff := cyc_same_set hLy.cyc hLx.cyc h1 h2
    exact (hiff y).1 hLy.memp
  refine ⟨⟨?_, ?_, ?_, ?_, ?_, ?_, ?_⟩, hsz3, hko3, hca3, hcolors⟩
  · rw [hsz3]
    exact hInv.size_le
  · -- guard_vertex
    intro q hq
    have hqs : ¬ InBoard b0 q := fun h => hq ((hinb3 q).2 h)
    have hqM : q ∉ M := fun h => hqs (hMin q h)
    rw [hb3rec q hqM]
    exact hInv.guard_vertex q hqs
  · -- no_guard
    intro q hq
    rw [hcolors q]
    by_cases hqp : q = p
    · rw [if_pos hqp]
      rcases hc with rfl | rfl
      · exact fun h => Color.noConfusion h
      · exact fun h => Color.noConfusion h
    · rw [if_neg hqp]
      exact hInv.no_guard q ((hinb3 q).1 hq)
  · -- empty_vertex
    intro q hq hqe
    have hqp : q ≠ p := by
      intro h
      rw [hcolors q, if_pos h] at hqe
      exact hcne hqe
    have hq0e : (b0.board q).color = Color.empty := by
      rw [hcolors q, if_neg hqp] at hqe
      exact hqe
    have hqM : q ∉ M := hempty_notM q hq0e hqp
    have hq0 : InBoard b0 q := (hinb3 q).1 hq
    obtain ⟨he1, he2, he3⟩ := hInv.empty_vertex q hq0 hq0e
    have hqH : q ≠ H := fun h => hqM (h ▸ hJ.hmem)
    refine ⟨by rw [hb3rec q hqM]; exact he1, by rw [hb3rec q hqM]; exact he2, ?_⟩
    rw [hchains3 q]
    show (bj.chains q).num_pseudo_liberties - _ = _
    rw [hJ.chains_pres q hqH, he3]
    -- the removed-liberty filter for slot q is [q] when q is adjacent to p, else []
    have hfilter : ((neighbours p).filter fun n2 => b2.chain_head n2 = q)
        = if q ∈ neighbours p then [q] else [] := by
      have hcg : ((neighbours p).filter fun n2 => b2.chain_head n2 = q)
          = (neighbours p).filter fun n2 => decide (n2 = q) := by
        refine List.filter_congr ?_
        intro x hx
        rw [hb2head x]
        by_cases hxM : x ∈ M
        · have hxq : ¬ x = q := fun h => hqM (h ▸ hxM)
          rw [decide_eq_false hxq, decide_eq_false ?_]
          rw [hJ.heads x hxM]
          exact fun h => hqH h.symm
        · have hbx : bj.board x = b0.board x := hJ.untouched x hxM
          rw [hbx]
          by_cases hxq : (b0.board x).chain_head = q
          · have : x = q := Inv_head_eq_self_target zob hInv x q hxq
              (by rw [hq0e]; rintro (h | h) <;> exact Color.noConfusion h)
            rw [decide_eq_true hxq, decide_eq_true this]
          · have : ¬ x = q := by
              intro h
              subst h
              exact hxq he1
            rw [decide_eq_false hxq, decide_eq_false this]
      rw [hcg, filter_decide_eq (neighbours p) (neighbours_nodup p) q]
    rw [hfilter]
    -- count of empty neighbours drops by one exactly when p is adjacent
    have hcount : (countEmptyNbrs b3 q : Int) = (countEmptyNbrs b0 q : Int)
        - (if q ∈ neighbours p then 1 else 0) := by
      unfold countEmptyNbrs
      by_cases hadj : q ∈ neighbours p
      · have hpadj : p ∈ neighbours q := mem_neighbours_comm.1 hadj
        have hperm := @filter_insert_perm (fun x => decide ((b3.board x).color = Color.empty))
          (fun x => decide ((b0.board x).color = Color.empty)) (neighbours q)
          (neighbours_nodup q) p hpadj ?_ ?_ ?_
        · rw [if_pos hadj, hperm.length_eq, List.length_cons]
          push_cast
          ring
        · show decide ((b3.board p).color = Color.empty) = false
          refine decide_eq_false ?_
          rw [hcolors p, if_pos rfl]
          exact hcne
        · show decide ((b0.board p).color = Color.empty) = true
          exact decide_eq_true hpe
        · intro x _ hxp
          show decide ((b3.board x).color = Color.empty) = decide ((b0.board x).color = Color.empty)
          rw [hcolors x, if_neg hxp]
      · rw [if_neg hadj]
        have : (neighbours q).filter (fun x => decide ((b3.board x).color = Color.empty))
            = (neighbours q).filter (fun x => decide ((b0.board x).color = Color.empty)) := by
          refine List.filter_congr ?_
          intro x hx
          have hxp : x ≠ p := by
            intro h
            exact hadj (h ▸ mem_neighbours_comm.1 hx)
          rw [hcolors x, if_neg hxp]
        rw [this]
        ring
    rw [hcount]
    by_cases hadj : q ∈ neighbours p
    · rw [if_pos hadj, if_pos hadj]
      simp
    · rw [if_neg hadj, if_neg hadj]
      simp
  · -- stone_chain
    intro q hqst
    by_cases hqM : q ∈ M
    · -- q on the new chain: M itself is its chain
      refine ⟨M, ?_, hJ.nodup, hqM, ?_, ?_, ?_⟩
      · refine cyc_congr ?_ hJ.cyc
        intro x _
        rw [hnext3 x]
      · intro x hx
        refine ⟨(hinb3 x).2 (hMin x hx), ?_, ?_⟩
        · rw [hcolors x, hcolors q]
          by_cases hxp : x = p
          · rw [if_pos hxp]
            by_cases hqp : q = p
            · rw [if_pos hqp]
            · rw [if_neg hqp, hJ.col q hqM hqp]
          · rw [if_neg hxp, hJ.col x hx hxp]
            by_cases hqp : q = p
            · rw [if_pos hqp]
            · rw [if_neg hqp, hJ.col q hqM hqp]
        · rw [hhead3 x, hhead3 q, hJ.heads x hx, hJ.heads q hqM]
      · rw [hhead3 q, hJ.heads q hqM]
        exact hJ.hmem
      · rw [hhead3 q, hJ.heads q hqM, hnum3 H, hJ.count]
    · -- q untouched
      have hqp : q ≠ p := fun h => hqM (h ▸ hJ.pmem)
      have hq0st : IsStone (b0.board q).color := by
        rw [hcolors q, if_neg hqp] at hqst
        exact hqst
      obtain ⟨Lq, hLq⟩ := hInv.stone_chain q hq0st
      have hLqM : ∀ r ∈ Lq, r ∉ M := hchain_closed q hqM hq0st Lq hLq
      have hrec : ∀ r ∈ Lq, b3.board r = b0.board r := fun r hr => hb3rec r (hLqM r hr)
      have hbq : b3.board q = b0.board q := hb3rec q hqM
      refine ⟨Lq, ?_, hLq.nodup, hLq.memp, ?_, ?_, ?_⟩
      · refine cyc_congr ?_ hLq.cyc
        intro x hx
        rw [hrec x hx]
      · intro x hx
        refine ⟨(hinb3 x).2 (hLq.members x hx).1, ?_, ?_⟩
        · rw [hrec x hx, hbq]
          exact (hLq.members x hx).2.1
        · rw [hrec x hx, hbq]
          exact (hLq.members x hx).2.2
      · rw [hbq]
        exact hLq.head_mem
      · rw [hbq]
        have hhM : (b0.board q).chain_head ∉ M := hLqM _ hLq.head_mem
        have hhH : (b0.board q).chain_head ≠ H := fun h => hhM (h ▸ hJ.hmem)
        rw [hnum3, hJ.chains_pres _ hhH]
        exact hLq.count
  · -- adj_same
    intro q m hm hqst hcol
    by_cases hqM : q ∈ M
    · by_cases hmM : m ∈ M
      · rw [hhead3 q, hhead3 m, hJ.heads q hqM, hJ.heads m hmM]
      · -- m same-colored off-chain neighbour of a chain member: impossible
        exfalso
        have hmp : m ≠ p := fun h => hmM (h ▸ hJ.pmem)
        have hm0c : (b0.board m).color = c := by
          have := hcol
          rw [hcolors m, if_neg hmp, hcolors q] at this
          by_cases hqp : q = p
          · rw [if_pos hqp] at this
            exact this
          · rw [if_neg hqp, hJ.col q hqM hqp] at this
            exact this
        by_cases hqp : q = p
        · subst hqp
          exact hmM (hJ.nbrs_mem m hm hm0c)
        · have hq0c : (b0.board q).color = c := hJ.col q hqM hqp
          have hq0st : IsStone (b0.board q).color := by rw [hq0c]; exact hc
          have hm0st : IsStone (b0.board m).color := by rw [hm0c]; exact hc
          have hheads := hInv.adj_same q m hm hq0st (hm0c.trans hq0c.symm)
          obtain ⟨Lq, hLq⟩ := hInv.stone_chain q hq0st
          have hmLq : m ∈ Lq := hsamechain q m hq0st hm0st hheads Lq hLq
          exact hmM (hJ.orig_closed q hqM hqp Lq hLq m hmLq)
    · by_cases hmM : m ∈ M
      · -- symmetric impossible case
        exfalso
        have hqp : q ≠ p := fun h => hqM (h ▸ hJ.pmem)
        have hq0c : (b0.board q).color = c := by
          have h2 := hcol
          rw [hcolors q, if_neg hqp, hcolors m] at h2
          by_cases hmp : m = p
          · rw [if_pos hmp] at h2
            exact h2.symm
          · rw [if_neg hmp, hJ.col m hmM hmp] at h2
            exact h2.symm
        by_cases hmp : m = p
        · subst hmp
          have hmq : m ∈ neighbours q := hm
          exact hqM (hJ.nbrs_mem q (mem_neighbours_comm.1 hmq) hq0c)
        · have hm0c : (b0.board m).color = c := hJ.col m hmM hmp
          have hq0st : IsStone (b0.board q).color := by rw [hq0c]; exact hc
          have hm0st : IsStone (b0.board m).color := by rw [hm0c]; exact hc
          have hheads := hInv.adj_same q m hm hq0st (hm0c.trans hq0c.symm)
          obtain ⟨Lm, hLm⟩ := hInv.stone_chain m hm0st
          have hqLm : q ∈ Lm := by
            refine hsamechain m q hm0st hq0st ?_ Lm hLm
            rw [hheads]
          exact hqM (hJ.orig_closed m hmM hmp Lm hLm q hqLm)
      · -- both untouched
        have hqp : q ≠ p := fun h => hqM (h ▸ hJ.pmem)
        have hmp : m ≠ p := fun h => hmM (h ▸ hJ.pmem)
        have hbq : b3.board q = b0.board q := hb3rec q hqM
        have hbm : b3.board m = b0.board m := hb3rec m hmM
        rw [hbq, hbm]
        rw [hbq] at hqst
        rw [hbq, hbm] at hcol
        exact hInv.adj_same q m hm hqst hcol
  · -- hash_eq
    have hjok : bj.zobrist_hash = stoneHash zob bj := by
      rw [hJ.hash_pres, hInv.hash_eq]
      exact (stoneHash_congr zob hJ.colors_pres).symm
    have hb2ok : b2.zobrist_hash = stoneHash zob b2 := by
      refine set_stone_hash_ok zob bj p c ?_ ?_ hjok (Or.inl ⟨?_, hc⟩)
      · have := (inBoard_bounds hInv.size_le hpin).1
        omega
      · have := (inBoard_bounds hInv.size_le hpin).2
        omega
      · rw [hJ.colors_pres p]
        exact hpe
    have hb3b2 : b3.board = b2.board := by rw [hb3, hrb]
    rw [hb3, hr4, hb2ok]
    refine stoneHash_congr zob ?_
    intro i
    rw [hrb]

theorem opponent_stone {c : Color} (hc : IsStone c) : IsStone c.opponent := by
  rcases hc with rfl | rfl
  · exact Or.inr rfl
  · exact Or.inl rfl

theorem StoneChain_state_congr {b b2 : GoBoard} (hb : b2.board = b.board)
    (hch : b2.chains = b.chains) (hsz : b2.board_size = b.board_size)
    {p : Int} {L : List Int} (h : StoneChain b p L) : StoneChain b2 p L := by
  refine ⟨cyc_congr (fun x _ => by rw [hb]) h.cyc, h.nodup, h.memp, ?_, ?_, ?_⟩
  · intro q hq
    refine ⟨(inBoard_congr hsz).2 (h.members q hq).1, ?_, ?_⟩
    · rw [hb]
      exact (h.members q hq).2.1
    · rw [hb]
      exact (h.members q hq).2.2
  · rw [hb]
    exact h.head_mem
  · rw [hb, hch]
    exact h.count

theorem Inv_state_congr (zob : Int → Color → Nat) {b b2 : GoBoard} (hb : b2.board = b.board)
    (hch : b2.chains = b.chains) (hsz : b2.board_size = b.board_size)
    (hh : b2.zobrist_hash = b.zobrist_hash) (hInv : Inv zob b) : Inv zob b2 := by
  refine ⟨?_, ?_, ?_, ?_, ?_, ?_, ?_⟩
  · rw [hsz]
    exact hInv.size_le
  · intro p hp
    rw [hb]
    exact hInv.guard_vertex p (fun h => hp ((inBoard_congr hsz).2 h))
  · intro p hp
    rw [hb]
    exact hInv.no_guard p ((inBoard_congr hsz).1 hp)
  · intro p hp hpe
    rw [hb] at hpe
    obtain ⟨h1, h2, h3⟩ := hInv.empty_vertex p ((inBoard_congr hsz).1 hp) hpe
    refine ⟨by rw [hb]; exact h1, by rw [hb]; exact h2, ?_⟩
    rw [hch, h3, show countEmptyNbrs b2 p = countEmptyNbrs b p from by
      unfold countEmptyNbrs; rw [hb]]
  · intro p hp
    rw [hb] at hp
    obtain ⟨L, hL⟩ := hInv.stone_chain p hp
    exact ⟨L, StoneChain_state_congr hb hch hsz hL⟩
  · intro p m hm hp hcol
    rw [hb] at hp hcol ⊢
    exact hInv.adj_same p m hm hp hcol
  · rw [hh, hInv.hash_eq]
    exact (stoneHash_congr zob (fun i => by rw [hb])).symm

theorem captureFold_cons (zob : Int → Color → Nat) (c : Color) (n : Int) (rest : List Int)
    (b : GoBoard) (st : Int) (ci : Nat) :
    captureFold zob c (n :: rest) b st ci =
      if b.point_color n = c.opponent ∧ (b.chainAt n).num_pseudo_liberties = 0 then
        captureFold zob c rest
          (({ b with last_captures := Function.update b.last_captures (ci : Int) (b.chain_head n) }).remove_chain zob n)
          (st + (({ b with last_captures := Function.update b.last_captures (ci : Int) (b.chain_head n) }).chainAt n).num_stones)
          (ci + 1)
      else captureFold zob c rest b st ci := by
  conv_lhs => unfold captureFold

theorem captureFold_spec (zob : Int → Color → Nat) (c : Color) (hc : IsStone c) :
    ∀ (l : List Int) (b : GoBoard) (st : Int) (ci : Nat), Inv zob b →
    Inv zob (captureFold zob c l b st ci).1 ∧
    (captureFold zob c l b st ci).1.board_size = b.board_size ∧
    (captureFold zob c l b st ci).1.last_ko_point = b.last_ko_point ∧
    st ≤ (captureFold zob c l b st ci).2.1 ∧
    (∀ i : Int, i < (ci : Int) →
      (captureFold zob c l b st ci).1.last_captures i = b.last_captures i) ∧
    (∀ q : Int, (b.board q).color = Color.empty →
      ((captureFold zob c l b st ci).1.board q).color = Color.empty) ∧
    ((captureFold zob c l b st ci).2.1 = st → (captureFold zob c l b st ci).1 = b) ∧
    ((captureFold zob c l b st ci).2.1 = st + 1 → ∃ u : Int,
      InBoard b u ∧ (b.board u).color = c.opponent ∧
      (captureFold zob c l b st ci).1.last_captures (ci : Int) = u ∧
      ((captureFold zob c l b st ci).1.board u).color = Color.empty) ∧
    (ci ≤ (captureFold zob c l b st ci).2.2) ∧
    ((captureFold zob c l b st ci).2.2 = ci → (captureFold zob c l b st ci).2.1 = st) := by
  intro l
  induction l with
  | nil =>
    intro b st ci hInv
    have hnil : captureFold zob c [] b st ci = (b, st, ci) := rfl
    rw [hnil]
    refine ⟨hInv, rfl, rfl, le_refl st, fun i _ => rfl, fun q hq => hq, fun _ => rfl, ?_,
      le_refl ci, fun _ => rfl⟩
    intro h
    exfalso
    have : st = st + 1 := h
    omega
  | cons n rest ih =>
    intro b st ci hInv
    rw [captureFold_cons]
    by_cases hcond : b.point_color n = c.opponent ∧ (b.chainAt n).num_pseudo_liberties = 0
    · rw [if_pos hcond]
      set b1 : GoBoard :=
        { b with last_captures := Function.update b.last_captures (ci : Int) (b.chain_head n) } with hb1def
      have hInv1 : Inv zob b1 := @Inv_state_congr zob b b1 rfl rfl rfl rfl hInv
      have hnst : IsStone (b.board n).color := by
        show IsStone (b.board n).color
        rw [show (b.board n).color = c.opponent from hcond.1]
        exact opponent_stone hc
      have hnst1 : IsStone (b1.board n).color := hnst
      obtain ⟨Ln, hLn⟩ := hInv.stone_chain n hnst
      have hLn1 : StoneChain b1 n Ln := @StoneChain_state_congr b b1 rfl rfl rfl n Ln hLn
      obtain ⟨hInv2, hcolors2, hsz2, hko2, hca2⟩ := remove_chain_inv zob b1 hInv1 n hnst1 Ln hLn1
      set b2 := b1.remove_chain zob n with hb2def
      have hcnt : (b1.chainAt n).num_stones = (Ln.length : Int) := hLn.count
      have hlen1 : 1 ≤ Ln.length := List.length_pos.2 (List.ne_nil_of_mem hLn.memp)
      obtain ⟨ih1, ih2, ih3, ih4, ih5, ih6, ih7, ih8, ih9, ih10⟩ :=
        ih b2 (st + (b1.chainAt n).num_stones) (ci + 1) hInv2
      refine ⟨ih1, ih2.trans hsz2, ih3.trans hko2, ?_, ?_, ?_, ?_, ?_, ?_, ?_⟩
      · refine le_trans ?_ ih4
        rw [hcnt]
        have : (0 : Int) < (Ln.length : Int) := by exact_mod_cast hlen1
        omega
      · intro i hi
        have hi1 : i < ((ci + 1 : Nat) : Int) := by push_cast; omega
        rw [ih5 i hi1, hca2]
        show Function.update b.last_captures (ci : Int) (b.chain_head n) i = _
        rw [Function.update_noteq (by omega)]
      · intro q hq
        refine ih6 q ?_
        rw [hcolors2 q]
        by_cases hqL : q ∈ Ln
        · rw [if_pos hqL]
        · rw [if_neg hqL]
          exact hq
      · intro h
        exfalso
        have h4 := ih4
        rw [hcnt] at h4
        have : (0 : Int) < (Ln.length : Int) := by exact_mod_cast hlen1
        omega
      · intro h
        have hle := ih4
        rw [hcnt] at hle
        have hlen_eq : Ln.length = 1 := by
          have h2 : (Ln.length : Int) ≤ 1 := by omega
          have h3 : (1 : Int) ≤ (Ln.length : Int) := by exact_mod_cast hlen1
          omega
        obtain ⟨a, ha⟩ := List.length_eq_one.1 hlen_eq
        have hna : n = a := by
          have hm := hLn.memp
          rw [ha, List.mem_singleton] at hm
          exact hm
        subst hna
        have hhead : (b.board n).chain_head = n := by
          have hm := hLn.head_mem
          rw [ha, List.mem_singleton] at hm
          exact hm
        have hrest_eq : (captureFold zob c rest b2 (st + (b1.chainAt n).num_stones) (ci + 1)).1
            = b2 := by
          refine ih7 ?_
          rw [hcnt, hlen_eq]
          rw [hcnt, hlen_eq] at h
          push_cast at h ⊢
          omega
        refine ⟨n, (hLn.members n hLn.memp).1, hcond.1, ?_, ?_⟩
        · have hi1 : (ci : Int) < ((ci + 1 : Nat) : Int) := by push_cast; omega
          rw [ih5 (ci : Int) hi1, hca2]
          show Function.update b.last_captures (ci : Int) (b.chain_head n) (ci : Int) = _
          rw [Function.update_same]
          exact hhead
        · have hq : (b2.board n).color = Color.empty := by
            rw [hcolors2 n, if_pos hLn.memp]
          exact ih6 n hq
      · exact le_trans (Nat.le_succ ci) ih9
      · intro h
        exfalso
        have := ih9
        omega
    · rw [if_neg hcond]
      exact ih b st ci hInv

theorem play_pass (b : GoBoard) (zob : Int → Color → Nat) (c : Color) :
    b.play zob PASS c = { b with last_ko_point := INVALID_POINT } := by
  unfold GoBoard.play
  rw [if_pos rfl]

theorem play_eval (b : GoBoard) (zob : Int → Color → Nat) (p : Int) (c : Color)
    (hp : ¬ p = PASS) :
    b.play zob p c = { ((playPlaced b zob p c).capture_dead_chains zob p c).1 with last_ko_point := if playedInEnemyEye b p c ∧ ((playPlaced b zob p c).capture_dead_chains zob p c).2 = 1 then ((playPlaced b zob p c).capture_dead_chains zob p c).1.last_captures 0 else INVALID_POINT } := by
  conv_lhs => unfold GoBoard.play
  rw [if_neg hp]

theorem capture_dead_chains_eval (b : GoBoard) (zob : Int → Color → Nat) (p : Int) (c : Color) :
    b.capture_dead_chains zob p c =
      (((List.range 4).drop (captureFold zob c (neighbours p) b 0 0).2.2).foldl
        (fun b2 i => { b2 with last_captures := Function.update b2.last_captures (i : Int) INVALID_POINT })
        (captureFold zob c (neighbours p) b 0 0).1,
       (captureFold zob c (neighbours p) b 0 0).2.1) := by
  conv_lhs => unfold GoBoard.capture_dead_chains

theorem capsResetFold (l : List Nat) : ∀ (b : GoBoard),
    ((l.foldl (fun b2 i => { b2 with last_captures := Function.update b2.last_captures (i : Int) INVALID_POINT }) b).board = b.board) ∧
    ((l.foldl (fun b2 i => { b2 with last_captures := Function.update b2.last_captures (i : Int) INVALID_POINT }) b).chains = b.chains) ∧
    ((l.foldl (fun b2 i => { b2 with last_captures := Function.update b2.last_captures (i : Int) INVALID_POINT }) b).board_size = b.board_size) ∧
    ((l.foldl (fun b2 i => { b2 with last_captures := Function.update b2.last_captures (i : Int) INVALID_POINT }) b).last_ko_point = b.last_ko_point) ∧
    ((l.foldl (fun b2 i => { b2 with last_captures := Function.update b2.last_captures (i : Int) INVALID_POINT }) b).zobrist_hash = b.zobrist_hash) ∧
    (∀ i : Int, (∀ j ∈ l, (j : Int) ≠ i) →
      (l.foldl (fun b2 i => { b2 with last_captures := Function.update b2.last_captures (i : Int) INVALID_POINT }) b).last_captures i = b.last_captures i) := by
  induction l with
  | nil =>
    intro b
    exact ⟨rfl, rfl, rfl, rfl, rfl, fun i _ => rfl⟩
  | cons x xs ih =>
    intro b
    rw [List.foldl_cons]
    obtain ⟨ih1, ih2, ih3, ih4, ih5, ih6⟩ :=
      ih { b with last_captures := Function.update b.last_captures (x : Int) INVALID_POINT }
    refine ⟨ih1, ih2, ih3, ih4, ih5, ?_⟩
    intro i hi
    rw [ih6 i fun j hj => hi j (List.mem_cons_of_mem x hj)]
    show Function.update b.last_captures (x : Int) INVALID_POINT i = _
    rw [Function.update_noteq (Ne.symm (hi x (List.mem_cons_self x xs)))]

theorem mem_drop_range {k ci x : Nat} (h : x ∈ (List.range k).drop ci) : ci ≤ x := by
  obtain ⟨j, hj, hx⟩ := List.mem_iff_getElem.1 h
  rw [List.getElem_drop] at hx
  rw [List.getElem_range] at hx
  omega

theorem legal_move_facts {b : GoBoard} {p : Int} {c : Color}
    (h : b.is_legal_move p c = true) (hp : ¬ p = PASS) :
    InBoard b p ∧ (b.board p).color = Color.empty ∧ p ≠ b.last_ko_point := by
  unfold GoBoard.is_legal_move at h
  rw [if_neg hp] at h
  by_cases h1 : b.in_board_area p = true
  · rw [if_neg (not_not_intro h1)] at h
    by_cases h2 : ¬ b.is_empty p = true ∨ p = b.last_ko_point
    · rw [if_pos h2] at h
      exact Bool.noConfusion h
    · rw [not_or] at h2
      obtain ⟨h2a, h2b⟩ := h2
      rw [not_not] at h2a
      have hcol : (b.board p).color = Color.empty := by
        have := h2a
        unfold GoBoard.is_empty GoBoard.point_color at this
        exact of_decide_eq_true this
      exact ⟨h1, hcol, h2b⟩
  · rw [if_pos h1] at h
    exact Bool.noConfusion h

theorem play_inv (zob : Int → Color → Nat) (b : GoBoard) (p : Int) (c : Color)
    (hInv : Inv zob b) (hc : IsStone c) (hleg : b.is_legal_move p c = true) :
    Inv zob (b.play zob p c) := by
  by_cases hp : p = PASS
  · subst hp
    rw [play_pass]
    exact @Inv_state_congr zob b _ rfl rfl rfl rfl hInv
  · obtain ⟨hin, hem, _⟩ := legal_move_facts hleg hp
    obtain ⟨hInv3, hsz3, hko3, hca3, hcolors3⟩ :=
      place_inv zob b p c hInv hc hin hem (playPlaced b zob p c) rfl
    rw [play_eval b zob p c hp, capture_dead_chains_eval]
    obtain ⟨hc1, hc2, hc3, hc4, hc5, hc6, hc7, hc8, hc9, hc10⟩ :=
      captureFold_spec zob c hc (neighbours p) (playPlaced b zob p c) 0 0 hInv3
    obtain ⟨hr1, hr2, hr3, hr4, hr5, hr6⟩ := capsResetFold
      ((List.range 4).drop (captureFold zob c (neighbours p) (playPlaced b zob p c) 0 0).2.2)
      (captureFold zob c (neighbours p) (playPlaced b zob p c) 0 0).1
    exact @Inv_state_congr zob
      (captureFold zob c (neighbours p) (playPlaced b zob p c) 0 0).1 _ hr1 hr2 hr3 hr5 hc1

set_option maxRecDepth 8000 in
theorem stoneHash_init (zob : Int → Color → Nat) (n : Nat) :
    stoneHash zob (GoBoard.init n) = 0 := by
  have hcz : ∀ i ∈ List.range 441,
      (fun j : Nat => contrib zob (GoBoard.init n) (j : Int)) i = (fun _ : Nat => (0 : Nat)) i := by
    intro i _
    show contrib zob (GoBoard.init n) (i : Int) = 0
    unfold contrib
    rw [init_board_eval]
    by_cases hm : ((i : Nat) : Int) ∈ board_points n
    · rw [if_pos hm]
      rfl
    · rw [if_neg hm]
      rfl
  have hz : ∀ l : List Nat, l.foldl (fun h i => h ^^^ (fun _ : Nat => (0 : Nat)) i) 0 = 0 := by
    intro l
    induction l with
    | nil => rfl
    | cons x xs ih =>
      rw [List.foldl_cons]
      show xs.foldl _ (0 ^^^ 0) = 0
      rw [Nat.xor_self]
      exact ih
  have h1 : (List.range 441).foldl
      (fun h i => h ^^^ (fun j : Nat => contrib zob (GoBoard.init n) (j : Int)) i) 0 = 0 := by
    rw [xor_foldl_congr _ _ (List.range 441) hcz]
    exact hz (List.range 441)
  exact (stoneHash_as_xor zob (GoBoard.init n)).trans h1

set_option maxRecDepth 4000 in
theorem init_inv (zob : Int → Color → Nat) (n : Nat) (hn : n ≤ 19) :
    Inv zob (GoBoard.init n) := by
  have hsc := init_scalars n
  have hsz19 : (GoBoard.init n).board_size ≤ 19 := by rw [hsc.1]; exact hn
  have hin : ∀ q : Int, InBoard (GoBoard.init n) q ↔ q ∈ board_points n := by
    intro q
    rw [inBoard_iff_mem hsz19, hsc.1]
  have hnostone : ∀ q : Int, ¬ IsStone ((GoBoard.init n).board q).color := by
    intro q hq
    rw [init_board_eval] at hq
    by_cases hm : q ∈ board_points n
    · rw [if_pos hm] at hq
      rcases hq with h | h <;> exact Color.noConfusion h
    · rw [if_neg hm] at hq
      rcases hq with h | h <;> exact Color.noConfusion h
  refine ⟨by rw [hsc.1]; exact hn, ?_, ?_, ?_, ?_, ?_, ?_⟩
  · intro q hq
    rw [init_board_eval, if_neg (fun h => hq ((hin q).2 h))]
  · intro q hq
    rw [init_board_eval, if_pos ((hin q).1 hq)]
    exact fun h => Color.noConfusion h
  · intro q hq _
    have hm : q ∈ board_points n := (hin q).1 hq
    rw [init_board_eval, if_pos hm]
    refine ⟨rfl, rfl, ?_⟩
    rw [init_chains_eval n hn q, if_pos hm, addLibs_eval]
    show (0 : Int) + _ = _
    unfold countEmptyNbrs
    rw [show (neighbours q).filter (fun m => decide (((GoBoard.init n).board m).color = Color.empty))
        = (neighbours q).filter (fun m => decide (m ∈ board_points n)) from ?_]
    · ring
    · refine List.filter_congr ?_
      intro m _
      rw [init_board_eval]
      by_cases hmm : m ∈ board_points n
      · rw [if_pos hmm, decide_eq_true hmm, decide_eq_true (show (⟨m, m, Color.empty⟩ : Vertex).color = Color.empty from rfl)]
      · rw [if_neg hmm]
        rw [decide_eq_false hmm, decide_eq_false (show ¬ (⟨m, m, Color.guard⟩ : Vertex).color = Color.empty from fun h => Color.noConfusion h)]
  · intro q hq
    exact absurd hq (hnostone q)
  · intro q m _ hq _
    exact absurd hq (hnostone q)
  · rw [hsc.2.2.2, stoneHash_init]

theorem reachable_inv (zob : Int → Color → Nat) (b : GoBoard) (h : Reachable zob b) :
    Inv zob b := by
  induction h with
  | base n hn => exact init_inv zob n hn
  | step b p c hb hc hl ih => exact play_inv zob b p c ih hc hl

/-- C1: on every reachable board, `is_legal_move(p, c)` returns true
exactly when `p` is PASS, or `p` is an empty in-board point distinct
from the ko point for which the move is not suicide: some neighbour is
empty, or some own-colored neighbouring chain is out of atari, or some
opposing neighbouring chain is in atari. -/
theorem C1_legality (zob : Int → Color → Nat) (b : GoBoard) (hreach : Reachable zob b)
    (p : Int) (c : Color) (hc : IsStone c) :
    b.is_legal_move p c = true ↔
      (p = PASS ∨ (InBoard b p ∧ (b.board p).color = Color.empty ∧ p ≠ b.last_ko_point ∧
        (0 < countEmptyNbrs b p ∨
         (∃ n ∈ neighbours p, b.point_color n = c ∧ ¬ (b.chainAt n).in_atari = true) ∨
         (∃ n ∈ neighbours p, b.point_color n = c.opponent ∧ (b.chainAt n).in_atari = true)))) := by
  have hInv := reachable_inv zob b hreach
  unfold GoBoard.is_legal_move
  by_cases hp : p = PASS
  · rw [if_pos hp]
    exact ⟨fun _ => Or.inl hp, fun _ => rfl⟩
  · rw [if_neg hp]
    by_cases h1 : b.in_board_area p = true
    · rw [if_neg (not_not_intro h1)]
      by_cases h2 : ¬ b.is_empty p = true ∨ p = b.last_ko_point
      · rw [if_pos h2]
        constructor
        · intro h
          exact Bool.noConfusion h
        · rintro (hP | ⟨_, hemp2, hko2, _⟩)
          · exact absurd hP hp
          · exfalso
            rcases h2 with h2 | h2
            · refine h2 ?_
              unfold GoBoard.is_empty GoBoard.point_color
              exact decide_eq_true hemp2
            · exact hko2 h2
      · rw [if_neg h2]
        rw [not_or, not_not] at h2
        obtain ⟨hempB, hkoB⟩ := h2
        have hemp : (b.board p).color = Color.empty := by
          unfold GoBoard.is_empty GoBoard.point_color at hempB
          exact of_decide_eq_true hempB
        have hin : InBoard b p := h1
        obtain ⟨hhead, _, hlib⟩ := hInv.empty_vertex p hin hemp
        have hchainAt : b.chainAt p = b.chains p := by
          unfold GoBoard.chainAt
          rw [show b.chain_head p = p from hhead]
        by_cases h3 : 0 < (b.chainAt p).num_pseudo_liberties
        · rw [if_pos h3]
          rw [hchainAt, hlib] at h3
          refine ⟨fun _ => Or.inr ⟨hin, hemp, hkoB, Or.inl ?_⟩, fun _ => rfl⟩
          exact_mod_cast h3
        · rw [if_neg h3]
          rw [hchainAt, hlib] at h3
          have hcnt0 : countEmptyNbrs b p = 0 := by omega
          by_cases h4 : ((neighbours p).any fun n =>
              b.point_color n = c ∧ ¬ (b.chainAt n).in_atari) = true
          · rw [if_pos h4]
            rw [List.any_eq_true] at h4
            obtain ⟨n, hn, hn2⟩ := h4
            rw [decide_eq_true_eq] at hn2
            exact ⟨fun _ => Or.inr ⟨hin, hemp, hkoB, Or.inr (Or.inl ⟨n, hn, hn2⟩)⟩,
              fun _ => rfl⟩
          · rw [if_neg h4]
            by_cases h5 : ((neighbours p).any fun n =>
                b.point_color n = c.opponent ∧ (b.chainAt n).in_atari) = true
            · rw [if_pos h5]
              rw [List.any_eq_true] at h5
              obtain ⟨n, hn, hn2⟩ := h5
              rw [decide_eq_true_eq] at hn2
              exact ⟨fun _ => Or.inr ⟨hin, hemp, hkoB, Or.inr (Or.inr ⟨n, hn, hn2⟩)⟩,
                fun _ => rfl⟩
            · rw [if_neg h5]
              constructor
              · intro h
                exact Bool.noConfusion h
              · rintro (hP | ⟨_, _, _, hdisj⟩)
                · exact absurd hP hp
                · exfalso
                  rcases hdisj with hd | hd | hd
                  · omega
                  · refine h4 ?_
                    rw [List.any_eq_true]
                    obtain ⟨n, hn, hn2⟩ := hd
                    exact ⟨n, hn, decide_eq_true hn2⟩
                  · refine h5 ?_
                    rw [List.any_eq_true]
                    obtain ⟨n, hn, hn2⟩ := hd
                    exact ⟨n, hn, decide_eq_true hn2⟩
    · rw [if_pos h1]
      constructor
      · intro h
        exact Bool.noConfusion h
      · rintro (hP | ⟨hin2, _⟩)
        · exact absurd hP hp
        · exact absurd hin2 h1

/-- C5: on every reachable board, from any stone `p` the `chain_next`
walk returns to `p` after exactly `num_stones` steps of `p`'s chain
record, the points visited before the return are pairwise distinct (so
the walk visits exactly the chain's stone count and returns no
earlier), and every visited point shares `p`'s `chain_head`. -/
theorem C5_chain_cycle (zob : Int → Color → Nat) (b : GoBoard) (hreach : Reachable zob b)
    (p : Int) (hst : IsStone (b.board p).color) :
    ∃ k : Nat, 0 < k ∧ (k : Int) = (b.chainAt p).num_stones ∧ nextIter b k p = p ∧
      (∀ i j : Nat, i < k → j < k → i ≠ j → nextIter b i p ≠ nextIter b j p) ∧
      ∀ j : Nat, j < k → (b.board (nextIter b j p)).chain_head = (b.board p).chain_head := by
  have hInv := reachable_inv zob b hreach
  obtain ⟨L, hL⟩ := hInv.stone_chain p hst
  obtain ⟨T, hcycT, hpermT⟩ := cyc_rotate_at hL.cyc hL.memp
  refine ⟨(p :: T).length, by simp, ?_, cyc_return hcycT, ?_, ?_⟩
  · rw [hpermT.length_eq]
    show _ = (b.chains (b.chain_head p)).num_stones
    rw [show b.chain_head p = (b.board p).chain_head from rfl, hL.count]
  · intro i j hi hj hne
    exact cyc_nodup_iterates hcycT (hpermT.nodup_iff.2 hL.nodup) hi hj hne
  · intro j _
    have hmem : nextIter b j p ∈ p :: T := nextIter_mem hcycT (List.mem_cons_self p T) j
    have hmemL : nextIter b j p ∈ L := hpermT.mem_iff.1 hmem
    exact (hL.members _ hmemL).2.2

/-- C6: the zobrist hash of a reachable board is a pure function of its
color array: boards with identical colors hash identically, whatever
move sequences produced them. -/
theorem C6_hash_pure (zob : Int → Color → Nat) (b1 b2 : GoBoard)
    (h1 : Reachable zob b1) (h2 : Reachable zob b2)
    (hcol : ∀ q : Int, (b1.board q).color = (b2.board q).color) :
    b1.zobrist_hash = b2.zobrist_hash := by
  rw [(reachable_inv zob b1 h1).hash_eq, (reachable_inv zob b2 h2).hash_eq]
  exact stoneHash_congr zob hcol

/-- C10: on every reachable board, every empty in-board point is its own
singleton chain slot whose pseudo-liberty count equals its number of
empty neighbours, so the legality check `num_pseudo_liberties > 0` at
the empty point is exactly `some neighbour is empty`. -/
theorem C10_empty_singleton (zob : Int → Color → Nat) (b : GoBoard)
    (hreach : Reachable zob b) (p : Int) (hin : InBoard b p)
    (hemp : (b.board p).color = Color.empty) :
    b.chain_head p = p ∧
    (b.chains p).num_pseudo_liberties = (countEmptyNbrs b p : Int) ∧
    (0 < (b.chains p).num_pseudo_liberties ↔
      ∃ n ∈ neighbours p, (b.board n).color = Color.empty) := by
  have hInv := reachable_inv zob b hreach
  obtain ⟨h1, _, h3⟩ := hInv.empty_vertex p hin hemp
  refine ⟨h1, h3, ?_⟩
  rw [h3]
  unfold countEmptyNbrs
  constructor
  · intro h
    have hlen : 0 < ((neighbours p).filter fun n => (b.board n).color = Color.empty).length := by
      exact_mod_cast h
    obtain ⟨n, hn⟩ := List.exists_mem_of_length_pos hlen
    rw [List.mem_filter, decide_eq_true_eq] at hn
    exact ⟨n, hn.1, hn.2⟩
  · rintro ⟨n, hn, hne⟩
    have hmem : n ∈ (neighbours p).filter fun n2 => (b.board n2).color = Color.empty := by
      rw [List.mem_filter]
      exact ⟨hn, decide_eq_true hne⟩
    have hlen : 0 < ((neighbours p).filter fun n2 => (b.board n2).color = Color.empty).length :=
      List.length_pos.2 (List.ne_nil_of_mem hmem)
    exact_mod_cast hlen

theorem chain_ext (x y : Chain) (h1 : x.num_stones = y.num_stones)
    (h2 : x.num_pseudo_liberties = y.num_pseudo_liberties)
    (h3 : x.liberty_vertex_sum = y.liberty_vertex_sum)
    (h4 : x.liberty_vertex_sum_squared = y.liberty_vertex_sum_squared) : x = y := by
  cases x
  cases y
  simp only at h1 h2 h3 h4
  subst h1 h2 h3 h4
  rfl

theorem captureFold_none (zob : Int → Color → Nat) (c : Color) : ∀ (l : List Int) (b : GoBoard)
    (st : Int) (ci : Nat),
    (∀ n ∈ l, ¬ (b.point_color n = c.opponent ∧ (b.chainAt n).num_pseudo_liberties = 0)) →
    captureFold zob c l b st ci = (b, st, ci) := by
  intro l
  induction l with
  | nil => intro b st ci _; rfl
  | cons n rest ih =>
    intro b st ci hl
    rw [captureFold_cons, if_neg (hl n (List.mem_cons_self n rest))]
    exact ih b st ci fun m hm => hl m (List.mem_cons_of_mem n hm)

theorem capsResetFull (b : GoBoard) (i : Int) :
    ((List.range 4).foldl (fun b2 j => { b2 with last_captures := Function.update b2.last_captures (j : Int) INVALID_POINT }) b).last_captures i =
      if i = 0 ∨ i = 1 ∨ i = 2 ∨ i = 3 then INVALID_POINT else b.last_captures i := by
  show (Function.update (Function.update (Function.update (Function.update b.last_captures ((0 : Nat) : Int) INVALID_POINT) ((1 : Nat) : Int) INVALID_POINT) ((2 : Nat) : Int) INVALID_POINT) ((3 : Nat) : Int) INVALID_POINT) i = _
  have c0 : ((0 : Nat) : Int) = (0 : Int) := rfl
  have c1 : ((1 : Nat) : Int) = (1 : Int) := rfl
  have c2 : ((2 : Nat) : Int) = (2 : Int) := rfl
  have c3 : ((3 : Nat) : Int) = (3 : Int) := rfl
  rw [c0, c1, c2, c3]
  by_cases h3 : i = 3
  · subst h3
    rw [Function.update_same, if_pos (by norm_num)]
  · rw [Function.update_noteq h3]
    by_cases h2 : i = 2
    · subst h2
      rw [Function.update_same, if_pos (by norm_num)]
    · rw [Function.update_noteq h2]
      by_cases h1 : i = 1
      · subst h1
        rw [Function.update_same, if_pos (by norm_num)]
      · rw [Function.update_noteq h1]
        by_cases h0 : i = 0
        · subst h0
          rw [Function.update_same, if_pos (by norm_num)]
        · rw [Function.update_noteq h0, if_neg (by tauto)]

theorem play_simple (b : GoBoard) (zob : Int → Color → Nat) (p : Int) (c : Color) (EX : GoBoard)
    (hp : ¬ p = PASS) (hc : ¬ c = Color.empty)
    (hnb : ∀ n ∈ neighbours p, ¬ b.point_color n = c)
    (hnc : ∀ n ∈ neighbours p,
      ¬ ((playPlaced b zob p c).point_color n = c.opponent ∧
         ((playPlaced b zob p c).chainAt n).num_pseudo_liberties = 0))
    (hx1 : EX.board_size = b.board_size)
    (hx2 : EX.last_ko_point = INVALID_POINT)
    (hx3 : EX.board = Function.update b.board p ⟨p, p, c⟩)
    (hx4a : ∀ h : Int, (EX.chains h).num_stones = (if h = p then addLibs ⟨1, 0, 0, 0⟩ ((neighbours p).filter fun n => b.is_empty n) else b.chains h).num_stones)
    (hx4b : ∀ h : Int, (EX.chains h).num_pseudo_liberties = (if h = p then addLibs ⟨1, 0, 0, 0⟩ ((neighbours p).filter fun n => b.is_empty n) else b.chains h).num_pseudo_liberties - ((((neighbours p).filter fun n => b.chain_head n = h).length : Int)))
    (hx4c : ∀ h : Int, (EX.chains h).liberty_vertex_sum = (if h = p then addLibs ⟨1, 0, 0, 0⟩ ((neighbours p).filter fun n => b.is_empty n) else b.chains h).liberty_vertex_sum - ((((neighbours p).filter fun n => b.chain_head n = h).length : Int)) * p)
    (hx4d : ∀ h : Int, (EX.chains h).liberty_vertex_sum_squared = (if h = p then addLibs ⟨1, 0, 0, 0⟩ ((neighbours p).filter fun n => b.is_empty n) else b.chains h).liberty_vertex_sum_squared - ((((neighbours p).filter fun n => b.chain_head n = h).length : Int)) * (p * p))
    (hx5 : ∀ i : Int, EX.last_captures i = if i = 0 ∨ i = 1 ∨ i = 2 ∨ i = 3 then INVALID_POINT else b.last_captures i)
    (hx6 : EX.zobrist_hash = b.zobrist_hash ^^^ zob p c) :
    b.play zob p c = EX := by
  have hjoin : b.join_chains_around p c = b.init_new_chain p := by
    have hz : ((neighbours p).foldl (selStep b c) (INVALID_POINT, 0)).2 = 0 := by
      rw [selFold_none b c (neighbours p) (INVALID_POINT, 0) hnb]
    simp only [GoBoard.join_chains_around]
    rw [if_pos hz]
  have hplaced : playPlaced b zob p c =
      (neighbours p).foldl (removeLibStep p) ((b.init_new_chain p).set_stone zob p c) := by
    show ((b.join_chains_around p c).set_stone zob p c).remove_liberty_from_neighbouring_chains p = _
    rw [hjoin]
    rfl
  have hnp : ∀ n ∈ neighbours p, n ≠ p := fun n hn he => self_not_mem_neighbours p (he ▸ hn)
  obtain ⟨hib, hic, hi1, hi2, hi3, hi4⟩ := init_new_chain_eval b p
  obtain ⟨hsb, hsc, hs1, hs2, hs3, hsh⟩ := set_stone_eval (b.init_new_chain p) zob p c
  obtain ⟨hrb, hr1, hr2, hr3, hr4, hrc⟩ :=
    foldl_removeLibStep_eval p (neighbours p) ((b.init_new_chain p).set_stone zob p c)
  have hpb : (playPlaced b zob p c).board = Function.update b.board p ⟨p, p, c⟩ := by
    rw [hplaced, hrb, hsb, hib]
    funext q
    by_cases hq : q = p
    · subst hq
      rw [Function.update_same, Function.update_same, Function.update_same]
    · rw [Function.update_noteq hq, Function.update_noteq hq, Function.update_noteq hq]
  have hB2head : ∀ n ∈ neighbours p, ((b.init_new_chain p).set_stone zob p c).chain_head n = b.chain_head n := by
    intro n hn
    unfold GoBoard.chain_head
    rw [hsb, Function.update_noteq (hnp n hn), hib, Function.update_noteq (hnp n hn)]
  have hB2chains : ∀ h : Int, ((b.init_new_chain p).set_stone zob p c).chains h = if h = p then addLibs ⟨1, 0, 0, 0⟩ ((neighbours p).filter fun n => b.is_empty n) else b.chains h := by
    intro h
    rw [hsc, hic]
    by_cases hh : h = p
    · subst hh
      rw [Function.update_same, if_pos rfl]
    · rw [Function.update_noteq hh, if_neg hh]
  have hfe : ∀ h : Int, ((neighbours p).filter fun n => ((b.init_new_chain p).set_stone zob p c).chain_head n = h) = ((neighbours p).filter fun n => b.chain_head n = h) := by
    intro h
    refine List.filter_congr ?_
    intro n hn
    show decide (((b.init_new_chain p).set_stone zob p c).chain_head n = h) = decide (b.chain_head n = h)
    rw [hB2head n hn]
  have hPLb : (playPlaced b zob p c).board_size = b.board_size := by
    rw [hplaced, hr1, hs1, hi1]
  have hPLcaps : (playPlaced b zob p c).last_captures = b.last_captures := by
    rw [hplaced, hr3, hs3, hi3]
  have hPLhash : (playPlaced b zob p c).zobrist_hash = b.zobrist_hash ^^^ zob p c := by
    rw [hplaced, hr4, hsh, hi4, if_neg hc]
  have hcap : (playPlaced b zob p c).capture_dead_chains zob p c =
      (((List.range 4).drop 0).foldl (fun b2 i => { b2 with last_captures := Function.update b2.last_captures (i : Int) INVALID_POINT }) (playPlaced b zob p c), 0) := by
    rw [capture_dead_chains_eval, captureFold_none zob c (neighbours p) (playPlaced b zob p c) 0 0 hnc]
  rw [play_eval b zob p c hp, hcap, List.drop_zero]
  show { (List.range 4).foldl (fun b2 i => { b2 with last_captures := Function.update b2.last_captures (i : Int) INVALID_POINT }) (playPlaced b zob p c) with last_ko_point := if playedInEnemyEye b p c ∧ (0 : Int) = 1 then ((List.range 4).foldl (fun b2 i => { b2 with last_captures := Function.update b2.last_captures (i : Int) INVALID_POINT }) (playPlaced b zob p c)).last_captures 0 else INVALID_POINT } = EX
  have hcond : ¬ (playedInEnemyEye b p c = true ∧ (0 : Int) = 1) := fun hh => absurd hh.2 (by decide)
  rw [if_neg hcond]
  obtain ⟨hF1, hF2, hF3, hF4, hF5, hF6⟩ := capsResetFold (List.range 4) (playPlaced b zob p c)
  refine goboard_ext _ EX ?_ ?_ ?_ ?_ ?_ ?_
  · exact hF3.trans (hPLb.trans hx1.symm)
  · exact hx2.symm
  · exact hF1.trans (hpb.trans hx3.symm)
  · refine Eq.trans hF2 ?_
    funext h
    refine chain_ext _ _ ?_ ?_ ?_ ?_
    · rw [hplaced, hrc h, hx4a h, hB2chains h]
    · rw [hplaced, hrc h, hx4b h, hB2chains h, hfe h]
    · rw [hplaced, hrc h, hx4c h, hB2chains h, hfe h]
    · rw [hplaced, hrc h, hx4d h, hB2chains h, hfe h]
  · funext i
    show ((List.range 4).foldl (fun b2 j => { b2 with last_captures := Function.update b2.last_captures (j : Int) INVALID_POINT }) (playPlaced b zob p c)).last_captures i = EX.last_captures i
    rw [capsResetFull, hx5 i, hPLcaps]
  · exact hF5.trans (hPLhash.trans hx6.symm)

theorem legal_of_liberty (b : GoBoard) (u : Int) (c : Color) (hin : InBoard b u)
    (hemp : (b.board u).color = Color.empty) (hko : u ≠ b.last_ko_point)
    (hlib : 0 < (b.chainAt u).num_pseudo_liberties) : b.is_legal_move u c = true := by
  unfold GoBoard.is_legal_move
  by_cases hp : u = PASS
  · rw [if_pos hp]
  · rw [if_neg hp]
    have h1 : b.in_board_area u = true := hin
    rw [if_neg (not_not_intro h1)]
    have h2 : ¬ (¬ b.is_empty u = true ∨ u = b.last_ko_point) := by
      rw [not_or, not_not]
      refine ⟨?_, hko⟩
      unfold GoBoard.is_empty GoBoard.point_color
      exact decide_eq_true hemp
    rw [if_neg h2, if_pos hlib]

theorem illegal_of_ko (b : GoBoard) (u : Int) (c : Color) (hu : ¬ u = PASS)
    (hko : u = b.last_ko_point) : b.is_legal_move u c = false := by
  unfold GoBoard.is_legal_move
  rw [if_neg hu]
  by_cases h1 : b.in_board_area u = true
  · rw [if_neg (not_not_intro h1), if_pos (Or.inr hko)]
  · rw [if_pos h1]

/-- C3: on a reachable board, when a legal move by `c` at `p` leaves the
opposing chain through a neighbour `n` with zero pseudo-liberties, the
capture removes that chain: every point of the chain becomes empty, no
other point's color changes, and every chain slot outside the removed
chain receives back one pseudo-liberty for each adjacency of its stones
to a vacated point. -/
theorem C3_capture (zob : Int → Color → Nat) (b : GoBoard) (hreach : Reachable zob b)
    (p n : Int) (c : Color) (hc : IsStone c) (hp : ¬ p = PASS)
    (hleg : b.is_legal_move p c = true) (hn : n ∈ neighbours p)
    (hopp : ((playPlaced b zob p c).board n).color = c.opponent)
    (L : List Int) (hL : StoneChain (playPlaced b zob p c) n L)
    (hdead : ((playPlaced b zob p c).chainAt n).num_pseudo_liberties = 0) :
    (∀ q ∈ L, (((playPlaced b zob p c).remove_chain zob n).board q).color = Color.empty) ∧
    (∀ q : Int, q ∉ L →
      (((playPlaced b zob p c).remove_chain zob n).board q).color
        = ((playPlaced b zob p c).board q).color) ∧
    (∃ ord : List Int, List.Perm ord L ∧ ∀ h : Int, h ∉ L →
      ((playPlaced b zob p c).remove_chain zob n).chains h
        = addLibs ((playPlaced b zob p c).chains h) (grantsFor (playPlaced b zob p c) h ord)) := by
  have hInv := reachable_inv zob b hreach
  obtain ⟨hin, hem, _⟩ := legal_move_facts hleg hp
  obtain ⟨hInvP, _, _, _, _⟩ := place_inv zob b p c hInv hc hin hem (playPlaced b zob p c) rfl
  have hstn : IsStone ((playPlaced b zob p c).board n).color := by
    rw [hopp]
    exact opponent_stone hc
  obtain ⟨hInvR, hcolors, _, _, _⟩ :=
    remove_chain_inv zob (playPlaced b zob p c) hInvP n hstn L hL
  refine ⟨?_, ?_, ?_⟩
  · intro q hq
    rw [hcolors q, if_pos hq]
  · intro q hq
    rw [hcolors q, if_neg hq]
  · obtain ⟨L2, hperm, hmid⟩ := remove_chain_spec zob (playPlaced b zob p c) hInvP.size_le
      hInvP.hash_eq (Inv_head_self zob hInvP) hInvP.stone_chain n hstn L hL
    refine ⟨L2, hperm, ?_⟩
    intro h hh
    have hh2 : h ∉ L2 := fun hmem => hh (hperm.mem_iff.1 hmem)
    have hne : h ≠ (playPlaced b zob p c).chain_head n := fun he => hh (by rw [he]; exact hL.head_mem)
    exact hmid.chains_other h hh2 hne

theorem legal_of_branches (b : GoBoard) (u : Int) (c : Color) (hin : InBoard b u)
    (hemp : (b.board u).color = Color.empty) (hko : u ≠ b.last_ko_point)
    (hbr : 0 < (b.chainAt u).num_pseudo_liberties ∨
      (∃ n ∈ neighbours u, b.point_color n = c ∧ ¬ (b.chainAt n).in_atari = true) ∨
      (∃ n ∈ neighbours u, b.point_color n = c.opponent ∧ (b.chainAt n).in_atari = true)) :
    b.is_legal_move u c = true := by
  unfold GoBoard.is_legal_move
  by_cases hp : u = PASS
  · rw [if_pos hp]
  · rw [if_neg hp]
    have h1 : b.in_board_area u = true := hin
    rw [if_neg (not_not_intro h1)]
    have h2 : ¬ (¬ b.is_empty u = true ∨ u = b.last_ko_point) := by
      rw [not_or, not_not]
      refine ⟨?_, hko⟩
      unfold GoBoard.is_empty GoBoard.point_color
      exact decide_eq_true hemp
    rw [if_neg h2]
    by_cases h3 : 0 < (b.chainAt u).num_pseudo_liberties
    · rw [if_pos h3]
    · rw [if_neg h3]
      by_cases h4 : ((neighbours u).any fun n =>
          b.point_color n = c ∧ ¬ (b.chainAt n).in_atari) = true
      · rw [if_pos h4]
      · rw [if_neg h4]
        by_cases h5 : ((neighbours u).any fun n =>
            b.point_color n = c.opponent ∧ (b.chainAt n).in_atari) = true
        · rw [if_pos h5]
        · rw [if_neg h5]
          exfalso
          rcases hbr with hd | hd | hd
          · exact h3 hd
          · refine h4 ?_
            rw [List.any_eq_true]
            obtain ⟨n, hn, hn2⟩ := hd
            exact ⟨n, hn, decide_eq_true hn2⟩
          · refine h5 ?_
            rw [List.any_eq_true]
            obtain ⟨n, hn, hn2⟩ := hd
            exact ⟨n, hn, decide_eq_true hn2⟩

/-- C4: after a legal stone move, `last_ko_point` is the single captured
stone's former location exactly when one stone was captured and the
move was played into an enemy eye (every neighbour opponent-colored or
off board before the move), and INVALID otherwise; recapturing at the
ko point is immediately illegal for the opponent, and after any
subsequent legal move elsewhere the ko point — still empty and not a
suicide under the code's three-way test (an empty neighbour, an
own-colored neighbouring chain out of atari, or an opposing
neighbouring chain in atari) — is legal for the opponent again. -/
theorem C4_ko (zob : Int → Color → Nat) (b : GoBoard) (hreach : Reachable zob b)
    (p : Int) (c : Color) (hc : IsStone c) (hp : ¬ p = PASS)
    (hleg : b.is_legal_move p c = true) :
    (¬ (playedInEnemyEye b p c = true ∧
        ((playPlaced b zob p c).capture_dead_chains zob p c).2 = 1) →
      (b.play zob p c).last_ko_point = INVALID_POINT) ∧
    ((playedInEnemyEye b p c = true ∧
        ((playPlaced b zob p c).capture_dead_chains zob p c).2 = 1) →
      ∃ u : Int, InBoard (playPlaced b zob p c) u ∧
        ((playPlaced b zob p c).board u).color = c.opponent ∧
        (b.play zob p c).last_ko_point = u ∧
        ((b.play zob p c).board u).color = Color.empty ∧
        (b.play zob p c).is_legal_move u c.opponent = false ∧
        (∀ p2 : Int, ∀ c2 : Color, IsStone c2 → ¬ p2 = PASS → p2 ≠ u →
          (b.play zob p c).is_legal_move p2 c2 = true →
          (0 < (((b.play zob p c).play zob p2 c2).chainAt u).num_pseudo_liberties ∨
           (∃ n ∈ neighbours u, ((b.play zob p c).play zob p2 c2).point_color n = c.opponent ∧
             ¬ ((((b.play zob p c).play zob p2 c2)).chainAt n).in_atari = true) ∨
           (∃ n ∈ neighbours u, ((b.play zob p c).play zob p2 c2).point_color n = c.opponent.opponent ∧
             ((((b.play zob p c).play zob p2 c2)).chainAt n).in_atari = true)) →
          ((b.play zob p c).play zob p2 c2).is_legal_move u c.opponent = true)) := by
  have hInv := reachable_inv zob b hreach
  obtain ⟨hin, hem, _⟩ := legal_move_facts hleg hp
  obtain ⟨hInvP, hszP, hkoP, hcaP, hcolP⟩ :=
    place_inv zob b p c hInv hc hin hem (playPlaced b zob p c) rfl
  have hple := play_eval b zob p c hp
  constructor
  · intro hnot
    rw [hple]
    show (if playedInEnemyEye b p c ∧ ((playPlaced b zob p c).capture_dead_chains zob p c).2 = 1
        then ((playPlaced b zob p c).capture_dead_chains zob p c).1.last_captures 0
        else INVALID_POINT) = INVALID_POINT
    rw [if_neg hnot]
  · intro hcond
    obtain ⟨heye, hone⟩ := hcond
    have hone' : (captureFold zob c (neighbours p) (playPlaced b zob p c) 0 0).2.1 = 1 := by
      have h2 := congrArg Prod.snd (capture_dead_chains_eval (playPlaced b zob p c) zob p c)
      exact h2.symm.trans hone
    obtain ⟨hCFInv, hCFsz, hCFko, hCFst, hCFcaps, hCFemp, hCFid, hCFone, hCFci, hCFzero⟩ :=
      captureFold_spec zob c hc (neighbours p) (playPlaced b zob p c) 0 0 hInvP
    obtain ⟨u, huin, huopp, hucap, huemp⟩ := hCFone (by rw [hone']; norm_num)
    have hci1 : 1 ≤ (captureFold zob c (neighbours p) (playPlaced b zob p c) 0 0).2.2 := by
      rcases Nat.eq_zero_or_pos (captureFold zob c (neighbours p) (playPlaced b zob p c) 0 0).2.2 with h0 | hpos
      · exfalso
        have hz := hCFzero h0
        rw [hone'] at hz
        exact absurd hz (by norm_num)
      · exact hpos
    have hr1caps : ((playPlaced b zob p c).capture_dead_chains zob p c).1.last_captures 0 = u := by
      have he := congrArg (fun x => (Prod.fst x).last_captures 0)
        (capture_dead_chains_eval (playPlaced b zob p c) zob p c)
      refine he.trans ?_
      refine Eq.trans ((capsResetFold ((List.range 4).drop (captureFold zob c (neighbours p) (playPlaced b zob p c) 0 0).2.2) (captureFold zob c (neighbours p) (playPlaced b zob p c) 0 0).1).2.2.2.2.2 0 ?_) ?_
      · intro j hj
        have hj2 := mem_drop_range hj
        omega
      · exact hucap
    have hko1 : (b.play zob p c).last_ko_point = u := by
      rw [hple]
      show (if playedInEnemyEye b p c ∧ ((playPlaced b zob p c).capture_dead_chains zob p c).2 = 1
          then ((playPlaced b zob p c).capture_dead_chains zob p c).1.last_captures 0
          else INVALID_POINT) = u
      rw [if_pos ⟨heye, hone⟩]
      exact hr1caps
    have hbu : ((b.play zob p c).board u).color = Color.empty := by
      have h4 : (b.play zob p c).board = ((playPlaced b zob p c).capture_dead_chains zob p c).1.board := by
        rw [hple]
      have h5 : ((playPlaced b zob p c).capture_dead_chains zob p c).1.board
          = (captureFold zob c (neighbours p) (playPlaced b zob p c) 0 0).1.board := by
        have he := congrArg (fun x => (Prod.fst x).board)
          (capture_dead_chains_eval (playPlaced b zob p c) zob p c)
        exact he.trans (capsResetFold ((List.range 4).drop (captureFold zob c (neighbours p) (playPlaced b zob p c) 0 0).2.2) (captureFold zob c (neighbours p) (playPlaced b zob p c) 0 0).1).1
      rw [h4, h5]
      exact huemp
    have hupass : ¬ u = PASS := by
      have hb1 : 22 ≤ u ∧ u ≤ 418 := inBoard_bounds (by rw [hszP]; exact hInv.size_le) huin
      intro he
      rw [he] at hb1
      exact absurd hb1.2 (by decide)
    have hilleg : (b.play zob p c).is_legal_move u c.opponent = false :=
      illegal_of_ko _ u c.opponent hupass hko1.symm
    refine ⟨u, huin, huopp, hko1, hbu, hilleg, ?_⟩
    intro p2 c2 hc2 hp2 hne2 hleg2 hbr2
    have hreach3 : Reachable zob (b.play zob p c) := Reachable.step b p c hreach hc hleg
    have hInv3 := reachable_inv zob _ hreach3
    obtain ⟨hin2, hem2, _⟩ := legal_move_facts hleg2 hp2
    obtain ⟨hInvP2, hszP2, hkoP2, hcaP2, hcolP2⟩ :=
      place_inv zob (b.play zob p c) p2 c2 hInv3 hc2 hin2 hem2
        (playPlaced (b.play zob p c) zob p2 c2) rfl
    have huP2 : ((playPlaced (b.play zob p c) zob p2 c2).board u).color = Color.empty := by
      rw [hcolP2 u, if_neg (fun he => hne2 he.symm)]
      exact hbu
    obtain ⟨hDInv, hDsz, hDko, hDst, hDcaps, hDemp, hDid, hDone, hDci, hDzero⟩ :=
      captureFold_spec zob c2 hc2 (neighbours p2) (playPlaced (b.play zob p c) zob p2 c2) 0 0 hInvP2
    have hple2 := play_eval (b.play zob p c) zob p2 c2 hp2
    have hbu2 : (((b.play zob p c).play zob p2 c2).board u).color = Color.empty := by
      have h4 : ((b.play zob p c).play zob p2 c2).board
          = ((playPlaced (b.play zob p c) zob p2 c2).capture_dead_chains zob p2 c2).1.board := by
        rw [hple2]
      have h5 : ((playPlaced (b.play zob p c) zob p2 c2).capture_dead_chains zob p2 c2).1.board
          = (captureFold zob c2 (neighbours p2) (playPlaced (b.play zob p c) zob p2 c2) 0 0).1.board := by
        have he := congrArg (fun x => (Prod.fst x).board)
          (capture_dead_chains_eval (playPlaced (b.play zob p c) zob p2 c2) zob p2 c2)
        exact he.trans (capsResetFold ((List.range 4).drop (captureFold zob c2 (neighbours p2) (playPlaced (b.play zob p c) zob p2 c2) 0 0).2.2) (captureFold zob c2 (neighbours p2) (playPlaced (b.play zob p c) zob p2 c2) 0 0).1).1
      rw [h4, h5]
      exact hDemp u huP2
    have hko2 : u ≠ ((b.play zob p c).play zob p2 c2).last_ko_point := by
      by_cases hcc : playedInEnemyEye (b.play zob p c) p2 c2 = true ∧
          ((playPlaced (b.play zob p c) zob p2 c2).capture_dead_chains zob p2 c2).2 = 1
      · have hone2 : (captureFold zob c2 (neighbours p2) (playPlaced (b.play zob p c) zob p2 c2) 0 0).2.1 = 1 := by
          have h2 := congrArg Prod.snd
            (capture_dead_chains_eval (playPlaced (b.play zob p c) zob p2 c2) zob p2 c2)
          exact h2.symm.trans hcc.2
        obtain ⟨u2, hu2in, hu2opp, hu2cap, hu2emp⟩ := hDone (by rw [hone2]; norm_num)
        have hci2 : 1 ≤ (captureFold zob c2 (neighbours p2) (playPlaced (b.play zob p c) zob p2 c2) 0 0).2.2 := by
          rcases Nat.eq_zero_or_pos (captureFold zob c2 (neighbours p2) (playPlaced (b.play zob p c) zob p2 c2) 0 0).2.2 with h0 | hpos
          · exfalso
            have hz := hDzero h0
            rw [hone2] at hz
            exact absurd hz (by norm_num)
          · exact hpos
        have hr2caps : ((playPlaced (b.play zob p c) zob p2 c2).capture_dead_chains zob p2 c2).1.last_captures 0 = u2 := by
          have he := congrArg (fun x => (Prod.fst x).last_captures 0)
            (capture_dead_chains_eval (playPlaced (b.play zob p c) zob p2 c2) zob p2 c2)
          refine he.trans ?_
          refine Eq.trans ((capsResetFold ((List.range 4).drop (captureFold zob c2 (neighbours p2) (playPlaced (b.play zob p c) zob p2 c2) 0 0).2.2) (captureFold zob c2 (neighbours p2) (playPlaced (b.play zob p c) zob p2 c2) 0 0).1).2.2.2.2.2 0 ?_) ?_
          · intro j hj
            have hj2 := mem_drop_range hj
            omega
          · exact hu2cap
        have hko2v : ((b.play zob p c).play zob p2 c2).last_ko_point = u2 := by
          rw [hple2]
          show (if playedInEnemyEye (b.play zob p c) p2 c2 ∧ ((playPlaced (b.play zob p c) zob p2 c2).capture_dead_chains zob p2 c2).2 = 1
              then ((playPlaced (b.play zob p c) zob p2 c2).capture_dead_chains zob p2 c2).1.last_captures 0
              else INVALID_POINT) = u2
          rw [if_pos hcc]
          exact hr2caps
        rw [hko2v]
        intro he
        rw [he] at huP2
        have hco : c2.opponent = Color.empty := hu2opp.symm.trans huP2
        rcases opponent_stone hc2 with h | h
        · exact Color.noConfusion (h.symm.trans hco)
        · exact Color.noConfusion (h.symm.trans hco)
      · have hko2v : ((b.play zob p c).play zob p2 c2).last_ko_point = INVALID_POINT := by
          rw [hple2]
          show (if playedInEnemyEye (b.play zob p c) p2 c2 ∧ ((playPlaced (b.play zob p c) zob p2 c2).capture_dead_chains zob p2 c2).2 = 1
              then ((playPlaced (b.play zob p c) zob p2 c2).capture_dead_chains zob p2 c2).1.last_captures 0
              else INVALID_POINT) = INVALID_POINT
          rw [if_neg hcc]
        rw [hko2v]
        have hb1 : 22 ≤ u ∧ u ≤ 418 := inBoard_bounds (by rw [hszP]; exact hInv.size_le) huin
        intro he
        rw [he] at hb1
        exact absurd hb1.1 (by decide)
    have hsz3 : (b.play zob p c).board_size = (playPlaced b zob p c).board_size := by
      rw [hple]
      exact ((congrArg (fun x => (Prod.fst x).board_size)
        (capture_dead_chains_eval (playPlaced b zob p c) zob p c)).trans
        (capsResetFold ((List.range 4).drop (captureFold zob c (neighbours p) (playPlaced b zob p c) 0 0).2.2) (captureFold zob c (neighbours p) (playPlaced b zob p c) 0 0).1).2.2.1).trans hCFsz
    have hsz4 : ((b.play zob p c).play zob p2 c2).board_size = (b.play zob p c).board_size := by
      rw [hple2]
      exact ((congrArg (fun x => (Prod.fst x).board_size)
        (capture_dead_chains_eval (playPlaced (b.play zob p c) zob p2 c2) zob p2 c2)).trans
        (capsResetFold ((List.range 4).drop (captureFold zob c2 (neighbours p2) (playPlaced (b.play zob p c) zob p2 c2) 0 0).2.2) (captureFold zob c2 (neighbours p2) (playPlaced (b.play zob p c) zob p2 c2) 0 0).1).2.2.1).trans (hDsz.trans hszP2)
    have hin4 : InBoard ((b.play zob p c).play zob p2 c2) u :=
      (inBoard_congr (hsz4.trans hsz3)).2 huin
    exact legal_of_branches _ u c.opponent hin4 hbu2 hko2 hbr2

theorem play_simple_state (b : GoBoard) (zob : Int → Color → Nat) (p : Int) (c : Color)
    (hp : ¬ p = PASS) (hc : ¬ c = Color.empty)
    (hnb : ∀ n ∈ neighbours p, ¬ b.point_color n = c)
    (hnc : ∀ n ∈ neighbours p,
      ¬ ((playPlaced b zob p c).point_color n = c.opponent ∧
         ((playPlaced b zob p c).chainAt n).num_pseudo_liberties = 0)) :
    b.play zob p c = playSimpleState b zob p c :=
  play_simple b zob p c (playSimpleState b zob p c) hp hc hnb hnc rfl rfl rfl
    (fun h => rfl) (fun h => rfl) (fun h => rfl) (fun h => rfl) (fun i => rfl) rfl

theorem init2_repr : GoBoard.init 2 = init2X := by
  obtain ⟨h1, h2, h3, h4⟩ := init_scalars 2
  refine goboard_ext _ _ h1 h2 ?_ ?_ h3 h4
  · funext q
    rw [init_board_eval 2 q]
    rfl
  · funext q
    rw [init_chains_eval 2 (by norm_num) q]
    rfl

theorem play1_eval : (GoBoard.init 2).play zob0 22 Color.black
    = playSimpleState init2X zob0 22 Color.black := by
  rw [init2_repr]
  exact play_simple_state init2X zob0 22 Color.black (by decide) (by decide) (by decide) (by decide)

theorem play2_eval : (playSimpleState init2X zob0 22 Color.black).play zob0 23 Color.white
    = playSimpleState (playSimpleState init2X zob0 22 Color.black) zob0 23 Color.white :=
  play_simple_state (playSimpleState init2X zob0 22 Color.black) zob0 23 Color.white
    (by decide) (by decide) (by decide) (by decide)

theorem two_play_eval : ((GoBoard.init 2).play zob0 22 Color.black).play zob0 23 Color.white
    = playSimpleState (playSimpleState init2X zob0 22 Color.black) zob0 23 Color.white := by
  rw [play1_eval]
  exact play2_eval

/-- Witness for C1: the legality characterization applied to the fresh
2x2 board at its first point for black. -/
theorem C1_legality_witness :
    (GoBoard.init 2).is_legal_move 22 Color.black = true ↔
      ((22 : Int) = PASS ∨ (InBoard (GoBoard.init 2) 22 ∧
        ((GoBoard.init 2).board 22).color = Color.empty ∧
        (22 : Int) ≠ (GoBoard.init 2).last_ko_point ∧
        (0 < countEmptyNbrs (GoBoard.init 2) 22 ∨
         (∃ n ∈ neighbours 22, (GoBoard.init 2).point_color n = Color.black ∧
           ¬ ((GoBoard.init 2).chainAt n).in_atari = true) ∨
         (∃ n ∈ neighbours 22, (GoBoard.init 2).point_color n = Color.black.opponent ∧
           ((GoBoard.init 2).chainAt n).in_atari = true)))) :=
  C1_legality zob0 (GoBoard.init 2) (Reachable.base 2 (by norm_num)) 22 Color.black (Or.inl rfl)

/-- Witness for C4: the ko characterization applied to black's first
move on the fresh 2x2 board. -/
theorem C4_ko_witness :
    (¬ (playedInEnemyEye (GoBoard.init 2) 22 Color.black = true ∧
        ((playPlaced (GoBoard.init 2) zob0 22 Color.black).capture_dead_chains zob0 22 Color.black).2 = 1) →
      ((GoBoard.init 2).play zob0 22 Color.black).last_ko_point = INVALID_POINT) ∧
    ((playedInEnemyEye (GoBoard.init 2) 22 Color.black = true ∧
        ((playPlaced (GoBoard.init 2) zob0 22 Color.black).capture_dead_chains zob0 22 Color.black).2 = 1) →
      ∃ u : Int, InBoard (playPlaced (GoBoard.init 2) zob0 22 Color.black) u ∧
        ((playPlaced (GoBoard.init 2) zob0 22 Color.black).board u).color = Color.black.opponent ∧
        ((GoBoard.init 2).play zob0 22 Color.black).last_ko_point = u ∧
        (((GoBoard.init 2).play zob0 22 Color.black).board u).color = Color.empty ∧
        ((GoBoard.init 2).play zob0 22 Color.black).is_legal_move u Color.black.opponent = false ∧
        (∀ p2 : Int, ∀ c2 : Color, IsStone c2 → ¬ p2 = PASS → p2 ≠ u →
          ((GoBoard.init 2).play zob0 22 Color.black).is_legal_move p2 c2 = true →
          (0 < ((((GoBoard.init 2).play zob0 22 Color.black).play zob0 p2 c2).chainAt u).num_pseudo_liberties ∨
           (∃ n ∈ neighbours u, (((GoBoard.init 2).play zob0 22 Color.black).play zob0 p2 c2).point_color n = Color.black.opponent ∧
             ¬ (((((GoBoard.init 2).play zob0 22 Color.black).play zob0 p2 c2)).chainAt n).in_atari = true) ∨
           (∃ n ∈ neighbours u, (((GoBoard.init 2).play zob0 22 Color.black).play zob0 p2 c2).point_color n = Color.black.opponent.opponent ∧
             (((((GoBoard.init 2).play zob0 22 Color.black).play zob0 p2 c2)).chainAt n).in_atari = true)) →
          (((GoBoard.init 2).play zob0 22 Color.black).play zob0 p2 c2).is_legal_move u Color.black.opponent = true)) :=
  C4_ko zob0 (GoBoard.init 2) (Reachable.base 2 (by norm_num)) 22 Color.black (Or.inl rfl)
    (by decide) (by rw [init2_repr]; decide)

/-- Witness for C5: the chain cycle property at black's lone stone
after one move on the fresh 2x2 board. -/
theorem C5_chain_cycle_witness :
    ∃ k : Nat, 0 < k ∧
      (k : Int) = (((GoBoard.init 2).play zob0 22 Color.black).chainAt 22).num_stones ∧
      nextIter ((GoBoard.init 2).play zob0 22 Color.black) k 22 = 22 ∧
      (∀ i j : Nat, i < k → j < k → i ≠ j →
        nextIter ((GoBoard.init 2).play zob0 22 Color.black) i 22
          ≠ nextIter ((GoBoard.init 2).play zob0 22 Color.black) j 22) ∧
      ∀ j : Nat, j < k →
        (((GoBoard.init 2).play zob0 22 Color.black).board
            (nextIter ((GoBoard.init 2).play zob0 22 Color.black) j 22)).chain_head
          = (((GoBoard.init 2).play zob0 22 Color.black).board 22).chain_head :=
  C5_chain_cycle zob0 ((GoBoard.init 2).play zob0 22 Color.black)
    (Reachable.step (GoBoard.init 2) 22 Color.black (Reachable.base 2 (by norm_num))
      (Or.inl rfl) (by rw [init2_repr]; decide))
    22 (Or.inl (by rw [play1_eval]; decide))

/-- Witness for C6: a fresh board and the same board after a pass carry
the same colors and hash equal. -/
theorem C6_hash_pure_witness :
    (GoBoard.init 2).zobrist_hash = ((GoBoard.init 2).play zob0 PASS Color.black).zobrist_hash :=
  C6_hash_pure zob0 (GoBoard.init 2) ((GoBoard.init 2).play zob0 PASS Color.black)
    (Reachable.base 2 (by norm_num))
    (Reachable.step (GoBoard.init 2) PASS Color.black (Reachable.base 2 (by norm_num))
      (Or.inl rfl) (by decide))
    (fun q => rfl)

/-- Witness for C10: the empty-singleton invariant at point 22 of the
fresh 2x2 board. -/
theorem C10_empty_singleton_witness :
    (GoBoard.init 2).chain_head 22 = 22 ∧
    ((GoBoard.init 2).chains 22).num_pseudo_liberties = (countEmptyNbrs (GoBoard.init 2) 22 : Int) ∧
    (0 < ((GoBoard.init 2).chains 22).num_pseudo_liberties ↔
      ∃ n ∈ neighbours 22, ((GoBoard.init 2).board n).color = Color.empty) :=
  C10_empty_singleton zob0 (GoBoard.init 2) (Reachable.base 2 (by norm_num)) 22
    (show (GoBoard.init 2).in_board_area 22 = true by rw [init2_repr]; decide)
    (by rw [init2_repr]; decide)

/-- Witness for C3: on the 2x2 board, after black 22 and white 23,
white's move at 43 leaves black's one-stone chain at 22 without
pseudo-liberties; removing it empties exactly point 22 and grants the
liberty back to the neighbouring slots. -/
theorem C3_capture_witness :
    (∀ q ∈ [(22 : Int)],
      (((playPlaced (((GoBoard.init 2).play zob0 22 Color.black).play zob0 23 Color.white) zob0 43 Color.white).remove_chain zob0 22).board q).color = Color.empty) ∧
    (∀ q : Int, q ∉ [(22 : Int)] →
      (((playPlaced (((GoBoard.init 2).play zob0 22 Color.black).play zob0 23 Color.white) zob0 43 Color.white).remove_chain zob0 22).board q).color
        = ((playPlaced (((GoBoard.init 2).play zob0 22 Color.black).play zob0 23 Color.white) zob0 43 Color.white).board q).color) ∧
    (∃ ord : List Int, List.Perm ord [(22 : Int)] ∧ ∀ h : Int, h ∉ [(22 : Int)] →
      ((playPlaced (((GoBoard.init 2).play zob0 22 Color.black).play zob0 23 Color.white) zob0 43 Color.white).remove_chain zob0 22).chains h
        = addLibs ((playPlaced (((GoBoard.init 2).play zob0 22 Color.black).play zob0 23 Color.white) zob0 43 Color.white).chains h)
            (grantsFor (playPlaced (((GoBoard.init 2).play zob0 22 Color.black).play zob0 23 Color.white) zob0 43 Color.white) h ord)) :=
  C3_capture zob0 (((GoBoard.init 2).play zob0 22 Color.black).play zob0 23 Color.white)
    (Reachable.step ((GoBoard.init 2).play zob0 22 Color.black) 23 Color.white
      (Reachable.step (GoBoard.init 2) 22 Color.black (Reachable.base 2 (by norm_num))
        (Or.inl rfl) (by rw [init2_repr]; decide))
      (Or.inr rfl) (by rw [play1_eval]; decide))
    43 22 Color.white (Or.inr rfl) (by decide)
    (by rw [two_play_eval]; decide)
    (by decide)
    (by rw [two_play_eval]; decide)
    [22]
    (by
      rw [two_play_eval]
      refine ⟨?_, List.nodup_singleton 22, List.mem_singleton_self 22, ?_, by decide, by decide⟩
      · exact List.chain_singleton.2
          (show ((playPlaced (playSimpleState (playSimpleState init2X zob0 22 Color.black) zob0 23 Color.white) zob0 43 Color.white).board 22).chain_next = 22 by decide)
      · intro q hq
        rw [List.mem_singleton] at hq
        subst hq
        refine ⟨?_, rfl, rfl⟩
        show GoBoard.in_board_area _ 22 = true
        decide)
    (by rw [two_play_eval]; decide)

end GoSpec
